import Mathlib

/-!
Verification of the openax OpenAPI filtering core (pkg `openax`, file
`filter.go`).  The Go code is shallowly embedded: Go maps become
association lists (`List (String × α)`) with deterministic iteration
order, Go `nil` pointers become `Option`, mutation becomes explicit
state passing, and the recursive schema resolver is given explicit fuel
(Go recursion is guarded by a visited set; fuel sufficiency is proved
below).  A Go `error` return becomes `Except Failure`, and a Go runtime
panic (nil-pointer dereference) is modelled by the distinguished
`Failure.nilDeref` outcome.
-/

namespace Openax

/-- Failures of the filtering pipeline.  The first two mirror the Go
error types `InvalidReferenceError` (offending ref, reason, location
path) and `ComponentNotFoundError` (name, component type, context).
`nilDeref` models a Go nil-pointer dereference panic at the named site.
`fuelExhausted` is an artifact of the fuel-based embedding of the
recursive resolver; it is proved unreachable for the fuel the pipeline
supplies. -/
inductive Failure where
  | invalidReference (ref : String) (reason : String) (location : String)
  | componentNotFound (name : String) (ctype : String) (ctx : String)
  | nilDeref (site : String)
  | fuelExhausted
deriving Repr, DecidableEq

/-- Result type of the embedded Go functions (`(T, error)` in Go). -/
abbrev FR (α : Type) : Type := Except Failure α

/-- Deterministic association-list update with Go map `m[k] = v`
semantics: replace the binding of `k` if present, else append. -/
def setKey {α : Type} : List (String × α) → String → α → List (String × α)
  | [], k, v => [(k, v)]
  | (k', v') :: rest, k, v =>
    if k' = k then (k, v) :: rest else (k', v') :: setKey rest k v

/-- Association-list lookup (Go map `m[k]`). -/
def lookupKey {α : Type} : List (String × α) → String → Option α
  | [], _ => none
  | (k, v) :: rest, key => if k = key then some v else lookupKey rest key

/-- Keys of an association list. -/
def keys {α : Type} (l : List (String × α)) : List String :=
  l.map Prod.fst

/-- Insert a string into a set represented as a duplicate-free list
(Go `set[n] = true`). -/
def insertName (l : List String) (n : String) : List String :=
  if l.contains n then l else l ++ [n]

/-! ## Data model

Mirrors the fields of the kin-openapi document types that the filter
reads.  All other fields are opaque passengers and are modelled by
opaque `String` payloads where the filter copies them verbatim. -/

mutual
/-- Go `openapi3.Schema` (the `Value` of a `SchemaRef`), restricted to
the reachability-relevant fields: `Items`, `Properties`, `AllOf`,
`OneOf`, `AnyOf`, `Not` (field named `nott` here to avoid clashing with
logical negation). -/
inductive Schema where
  | mk (items : Option SchemaRef) (properties : List (String × SchemaRef))
      (allOf : List SchemaRef) (oneOf : List SchemaRef) (anyOf : List SchemaRef)
      (nott : Option SchemaRef) : Schema

/-- Go `openapi3.SchemaRef`: a `Ref` string (empty when absent) plus a
possibly-nil `Value`. -/
inductive SchemaRef where
  | mk (ref : String) (value : Option Schema) : SchemaRef
end

def SchemaRef.ref : SchemaRef → String
  | .mk r _ => r

def SchemaRef.value : SchemaRef → Option Schema
  | .mk _ v => v

def Schema.items : Schema → Option SchemaRef
  | .mk i _ _ _ _ _ => i

def Schema.properties : Schema → List (String × SchemaRef)
  | .mk _ p _ _ _ _ => p

def Schema.allOf : Schema → List SchemaRef
  | .mk _ _ a _ _ _ => a

def Schema.oneOf : Schema → List SchemaRef
  | .mk _ _ _ o _ _ => o

def Schema.anyOf : Schema → List SchemaRef
  | .mk _ _ _ _ a _ => a

def Schema.nott : Schema → Option SchemaRef
  | .mk _ _ _ _ _ n => n

/-- Go `openapi3.MediaType`: only the optional `Schema` matters. -/
structure MediaType where
  schema : Option SchemaRef

/-- Go `openapi3.Content`: MIME type → MediaType map. -/
abbrev Content : Type := List (String × MediaType)

/-- Go `openapi3.Parameter` value, restricted to its optional schema. -/
structure Parameter where
  schema : Option SchemaRef

/-- Go `openapi3.ParameterRef`. -/
structure ParameterRef where
  ref : String
  value : Option Parameter

/-- Go `openapi3.RequestBody` value. -/
structure RequestBody where
  content : Content

/-- Go `openapi3.RequestBodyRef`. -/
structure RequestBodyRef where
  ref : String
  value : Option RequestBody

/-- Go `openapi3.Response` value. -/
structure Response where
  content : Content

/-- Go `openapi3.ResponseRef`. -/
structure ResponseRef where
  ref : String
  value : Option Response

/-- Go `openapi3.Operation`, restricted to the fields the filter reads.
`responses` is the status-key → ResponseRef map (Go
`operation.Responses.Map()`), modelled with a fixed iteration order. -/
structure Operation where
  operationId : String
  tags : List String
  parameters : List ParameterRef
  requestBody : Option RequestBodyRef
  responses : List (String × ResponseRef)

/-- Go `openapi3.PathItem`.  `operations` is the method → Operation map
returned by `pathItem.Operations()`; `parameters` are the PathItem-level
parameters (a passenger the filter never walks). -/
structure PathItem where
  operations : List (String × Operation)
  parameters : List ParameterRef

/-- Go `openapi3.Components`.  The four reachable kinds plus the opaque
passenger kinds (modelled as opaque string lists, copied verbatim). -/
structure Components where
  schemas : List (String × SchemaRef)
  parameters : List (String × ParameterRef)
  requestBodies : List (String × RequestBodyRef)
  responses : List (String × ResponseRef)
  headers : List String
  securitySchemes : List String
  examples : List String
  links : List String
  callbacks : List String

/-- Go `openapi3.T` (the document).  `openapi`, `info`, `servers`,
`externalDocs` are opaque passengers modelled as strings; `security` is
a list (Go `SecurityRequirements` slice); `tags` is the list of tag
names (Go `Tags`, each tag identified by its `Name`). -/
structure Doc where
  openapi : String
  info : String
  servers : String
  externalDocs : String
  security : List String
  tags : List String
  paths : List (String × PathItem)
  components : Option Components

/-- Go `FilterOptions`. -/
structure FilterOptions where
  paths : List String
  operations : List String
  tags : List String
  pruneComponents : Bool

/-- Go `ProcessedRefs`: the four per-kind sets of collected component
names, represented as duplicate-free lists. -/
structure ProcessedRefs where
  schemas : List String
  requestBodies : List String
  parameters : List String
  responses : List String

/-! ## Reference parser (`extractRefName`, `validateRef`)

String primitives are re-implemented structurally over `List Char` so
that concrete evaluation reduces in the kernel; they agree with Go's
`strings.Split(ref, "/")` and `strings.HasPrefix`. -/

/-- Split a character list on `/` (Go `strings.Split(s, "/")`). -/
def splitSlashAux : List Char → List Char → List String
  | [], cur => [String.mk cur.reverse]
  | c :: rest, cur =>
    if c = '/' then String.mk cur.reverse :: splitSlashAux rest []
    else splitSlashAux rest (c :: cur)

def splitSlash (s : String) : List String :=
  splitSlashAux s.data []

/-- Byte-level prefix test (Go `strings.HasPrefix(s, p)`). -/
def isPrefixList : List Char → List Char → Bool
  | [], _ => true
  | _ :: _, [] => false
  | a :: as, b :: bs => a = b && isPrefixList as bs

def strHasPrefix (s p : String) : Bool :=
  isPrefixList p.data s.data

/-- Case-insensitive string equality (Go `strings.EqualFold`; ASCII
case folding suffices for HTTP method names). -/
def eqFold (a b : String) : Bool :=
  a.data.map Char.toLower == b.data.map Char.toLower

/-- Go `extractRefName`: last `/`-separated segment of the ref. -/
def extractRefName (ref : String) : String :=
  (splitSlash ref).getLastD ""

/-- Go `validateRef(ref, location)`: fails when the ref is empty or
does not start with `#/components/`; otherwise returns the extracted
name.  The `location` only flows into the error. -/
def validateRef (ref : String) (location : String) : FR String :=
  if ref = "" then
    .error (.invalidReference ref "empty reference" location)
  else if !(strHasPrefix ref "#/components/") then
    .error (.invalidReference ref "invalid format" location)
  else
    .ok (extractRefName ref)


/-! ## Schema walker (`extractSchemaReferences`)

Collects every schema component name referenced anywhere in a schema
subtree, without following references into the component store.  The
Go functions `extractSchemaReferences`, `extractSchemaValueReferences`
and `extractCompositionSchemaReferences` walk: a direct `Ref`, `Items`,
every property, every `allOf`/`oneOf`/`anyOf` member, and `Not`. -/

mutual
/-- Go `extractSchemaReferences(schema, processedSchemaRefs)`. -/
def extractSchemaReferences (schema : SchemaRef) (acc : List String) :
    FR (List String) :=
  match schema with
  | .mk ref value =>
    match (if ref ≠ "" then
            match validateRef ref "schema.ref" with
            | .error e => .error e
            | .ok schemaName => .ok (insertName acc schemaName)
          else .ok acc : FR (List String)) with
    | .error e => .error e
    | .ok acc1 =>
      match value with
      | some v => extractSchemaValueReferences v acc1
      | none => .ok acc1

/-- Go `extractSchemaValueReferences` (with
`extractCompositionSchemaReferences` inlined as the three
`extractRefsList` calls, in the source order allOf, oneOf, anyOf). -/
def extractSchemaValueReferences (schemaValue : Schema) (acc : List String) :
    FR (List String) :=
  match schemaValue with
  | .mk items properties allOf oneOf anyOf nott =>
    match (match items with
          | some it => extractSchemaReferences it acc
          | none => .ok acc : FR (List String)) with
    | .error e => .error e
    | .ok acc1 =>
      match extractPropsRefs properties acc1 with
      | .error e => .error e
      | .ok acc2 =>
        match extractRefsList allOf acc2 with
        | .error e => .error e
        | .ok acc3 =>
          match extractRefsList oneOf acc3 with
          | .error e => .error e
          | .ok acc4 =>
            match extractRefsList anyOf acc4 with
            | .error e => .error e
            | .ok acc5 =>
              match nott with
              | some n => extractSchemaReferences n acc5
              | none => .ok acc5

/-- Iteration over a properties map (Go `for _, propSchema := range
schemaValue.Properties`). -/
def extractPropsRefs : List (String × SchemaRef) → List String → FR (List String)
  | [], acc => .ok acc
  | (_, s) :: rest, acc =>
    match extractSchemaReferences s acc with
    | .error e => .error e
    | .ok acc' => extractPropsRefs rest acc'

/-- Iteration over a composition list. -/
def extractRefsList : List SchemaRef → List String → FR (List String)
  | [], acc => .ok acc
  | s :: rest, acc =>
    match extractSchemaReferences s acc with
    | .error e => .error e
    | .ok acc' => extractRefsList rest acc'
end

/-! ## MIME collector (`findAllMimeTypes`)

Go builds a `map[string]struct{}` and converts it to a slice in
unspecified order; the embedding fixes a deterministic order (defaults
first, then document MIME keys in scan order), which only affects the
insertion order inside the collected reference sets. -/

/-- Go `getDefaultMimeTypes`. -/
def getDefaultMimeTypes : List String :=
  ["application/json", "application/x-www-form-urlencoded",
   "multipart/form-data", "application/xml", "text/plain"]

/-- Go `collectMimeTypesFromOperation`: request-body and response
content keys of inline (non-nil) values. -/
def collectMimeTypesFromOperation (operation : Operation)
    (mimeTypeSet : List String) : List String :=
  let acc :=
    match operation.requestBody with
    | some rb =>
      match rb.value with
      | some rbv => rbv.content.foldl (fun a kv => insertName a kv.1) mimeTypeSet
      | none => mimeTypeSet
    | none => mimeTypeSet
  operation.responses.foldl (fun a kv =>
    match kv.2.value with
    | some rv => rv.content.foldl (fun a2 kv2 => insertName a2 kv2.1) a
    | none => a) acc

/-- Go `collectMimeTypesFromPathItem`. -/
def collectMimeTypesFromPathItem (pathItem : PathItem)
    (mimeTypeSet : List String) : List String :=
  pathItem.operations.foldl (fun a kv => collectMimeTypesFromOperation kv.2 a)
    mimeTypeSet

/-- Go `findAllMimeTypes`: default set unioned with every MIME key in
the document's operations. -/
def findAllMimeTypes (doc : Doc) : List String :=
  doc.paths.foldl (fun a kv => collectMimeTypesFromPathItem kv.2 a)
    getDefaultMimeTypes

/-! ## Operation matcher (`checkOperationMatches`, `pathMatchesFilter`) -/

/-- Go `pathMatchesFilter(path, pathFilters)`: byte-level,
case-sensitive prefix test against each filter element. -/
def pathMatchesFilter (path : String) (pathFilters : List String) : Bool :=
  pathFilters.any (fun filterPath => strHasPrefix path filterPath)

/-- Go `checkOperationMatches(operation, method, opts)`. -/
def checkOperationMatches (operation : Operation) (method : String)
    (opts : FilterOptions) : Bool :=
  let operationMatches :=
    if opts.operations.length > 0 then
      opts.operations.contains operation.operationId ||
        opts.operations.any (fun op => eqFold op method)
    else true
  let operationMatches :=
    if opts.tags.length > 0 && operationMatches then
      let tagMatches := operation.tags.any (fun t => opts.tags.contains t)
      operationMatches && tagMatches
    else operationMatches
  operationMatches &&
    (opts.operations.length > 0 || opts.tags.length > 0 ||
      (opts.operations.length = 0 && opts.tags.length = 0 &&
        opts.paths.length = 0))

/-! ## Seeding (`collectReferencesFromOperation` and friends)

These functions walk the selected operations and record referenced
component names into the `ProcessedRefs` sets.  Go mutates shared maps;
the embedding threads the accumulators explicitly.  Unchecked Go
nil-pointer dereferences (`doc.Components.X`, `requestBody.Value.Content`,
`responseBody.Value.Content`) are modelled with `Failure.nilDeref`. -/

/-- Dereference of the possibly-nil `doc.Components` pointer. -/
def derefComponents (c : Option Components) (site : String) : FR Components :=
  match c with
  | some comps => .ok comps
  | none => .error (.nilDeref site)

/-- Go `content.Get(mimeType)`. -/
def contentGet (content : Content) (mimeType : String) : Option MediaType :=
  lookupKey content mimeType

/-- Go `processContentSchemas(content, mimeTypes, processedSchemaRefs)`:
for each MIME type in the collected set, walk the media type's schema. -/
def processContentSchemas (content : Content) :
    List String → List String → FR (List String)
  | [], acc => .ok acc
  | mimeType :: rest, acc =>
    match contentGet content mimeType with
    | some mediaType =>
      match mediaType.schema with
      | some s =>
        match extractSchemaReferences s acc with
        | .error e => .error e
        | .ok acc' => processContentSchemas content rest acc'
      | none => processContentSchemas content rest acc
    | none => processContentSchemas content rest acc

/-- Go `processOperationRequestBody`: returns the updated
(schema refs, request-body refs) accumulators.  When the request body
is a reference to an existing component, Go dereferences
`requestBody.Value.Content` without a nil check. -/
def processOperationRequestBody (doc : Doc) (operation : Operation)
    (mimeTypes : List String) (schemaAcc rbAcc : List String) :
    FR (List String × List String) :=
  match operation.requestBody with
  | none => .ok (schemaAcc, rbAcc)
  | some rb =>
    if rb.ref ≠ "" then
      match validateRef rb.ref "requestBody" with
      | .error e => .error e
      | .ok requestBodyName =>
        let rbAcc := insertName rbAcc requestBodyName
        match derefComponents doc.components "doc.Components.RequestBodies" with
        | .error e => .error e
        | .ok comps =>
          match lookupKey comps.requestBodies requestBodyName with
          | some requestBody =>
            match requestBody.value with
            | some rbv =>
              match processContentSchemas rbv.content mimeTypes schemaAcc with
              | .error e => .error e
              | .ok schemaAcc' => .ok (schemaAcc', rbAcc)
            | none => .error (.nilDeref "requestBody.Value")
          | none => .ok (schemaAcc, rbAcc)
    else
      match rb.value with
      | some rbv =>
        match processContentSchemas rbv.content mimeTypes schemaAcc with
        | .error e => .error e
        | .ok schemaAcc' => .ok (schemaAcc', rbAcc)
      | none => .ok (schemaAcc, rbAcc)

/-- Loop body of Go `processOperationParameters`. -/
def processOperationParametersLoop (doc : Doc) :
    List ParameterRef → List String → List String →
    FR (List String × List String)
  | [], schemaAcc, paramAcc => .ok (schemaAcc, paramAcc)
  | param :: rest, schemaAcc, paramAcc =>
    if param.ref ≠ "" then
      match validateRef param.ref "parameter" with
      | .error e => .error e
      | .ok paramName =>
        let paramAcc := insertName paramAcc paramName
        match derefComponents doc.components "doc.Components.Parameters" with
        | .error e => .error e
        | .ok comps =>
          match lookupKey comps.parameters paramName with
          | some parameter =>
            match parameter.value with
            | some pv =>
              match pv.schema with
              | some s =>
                if s.ref ≠ "" then
                  match validateRef s.ref "parameter.schema" with
                  | .error e => .error e
                  | .ok schemaName =>
                    processOperationParametersLoop doc rest
                      (insertName schemaAcc schemaName) paramAcc
                else processOperationParametersLoop doc rest schemaAcc paramAcc
              | none => processOperationParametersLoop doc rest schemaAcc paramAcc
            | none => processOperationParametersLoop doc rest schemaAcc paramAcc
          | none => processOperationParametersLoop doc rest schemaAcc paramAcc
    else
      match param.value with
      | some pv =>
        match pv.schema with
        | some s =>
          if s.ref ≠ "" then
            match validateRef s.ref "parameter.schema" with
            | .error e => .error e
            | .ok schemaName =>
              processOperationParametersLoop doc rest
                (insertName schemaAcc schemaName) paramAcc
          else processOperationParametersLoop doc rest schemaAcc paramAcc
        | none => processOperationParametersLoop doc rest schemaAcc paramAcc
      | none => processOperationParametersLoop doc rest schemaAcc paramAcc

/-- Go `processOperationParameters`. -/
def processOperationParameters (doc : Doc) (operation : Operation)
    (schemaAcc paramAcc : List String) : FR (List String × List String) :=
  processOperationParametersLoop doc operation.parameters schemaAcc paramAcc

/-- Loop body of Go `processOperationResponses`.  When a response is a
reference to an existing component, Go dereferences
`responseBody.Value.Content` without a nil check. -/
def processOperationResponsesLoop (doc : Doc) (mimeTypes : List String) :
    List (String × ResponseRef) → List String → List String →
    FR (List String × List String)
  | [], schemaAcc, respAcc => .ok (schemaAcc, respAcc)
  | (_, response) :: rest, schemaAcc, respAcc =>
    if response.ref ≠ "" then
      match validateRef response.ref "response" with
      | .error e => .error e
      | .ok responseName =>
        let respAcc := insertName respAcc responseName
        match derefComponents doc.components "doc.Components.Responses" with
        | .error e => .error e
        | .ok comps =>
          match lookupKey comps.responses responseName with
          | some responseBody =>
            match responseBody.value with
            | some rv =>
              match processContentSchemas rv.content mimeTypes schemaAcc with
              | .error e => .error e
              | .ok schemaAcc' =>
                processOperationResponsesLoop doc mimeTypes rest schemaAcc' respAcc
            | none => .error (.nilDeref "responseBody.Value")
          | none => processOperationResponsesLoop doc mimeTypes rest schemaAcc respAcc
    else
      match response.value with
      | some rv =>
        match processContentSchemas rv.content mimeTypes schemaAcc with
        | .error e => .error e
        | .ok schemaAcc' =>
          processOperationResponsesLoop doc mimeTypes rest schemaAcc' respAcc
      | none => processOperationResponsesLoop doc mimeTypes rest schemaAcc respAcc

/-- Go `processOperationResponses`. -/
def processOperationResponses (doc : Doc) (operation : Operation)
    (mimeTypes : List String) (schemaAcc respAcc : List String) :
    FR (List String × List String) :=
  processOperationResponsesLoop doc mimeTypes operation.responses schemaAcc respAcc

/-- Go `collectReferencesFromOperation`: request body, then parameters,
then responses. -/
def collectReferencesFromOperation (doc : Doc) (operation : Operation)
    (mimeTypes : List String) (pr : ProcessedRefs) : FR ProcessedRefs :=
  match processOperationRequestBody doc operation mimeTypes pr.schemas pr.requestBodies with
  | .error e => .error e
  | .ok (s1, rb1) =>
    match processOperationParameters doc operation s1 pr.parameters with
    | .error e => .error e
    | .ok (s2, p2) =>
      match processOperationResponses doc operation mimeTypes s2 pr.responses with
      | .error e => .error e
      | .ok (s3, r3) => .ok ⟨s3, rb1, p2, r3⟩

/-! ## Path and operation processing (`processPathsAndOperations`) -/

/-- Loop body of Go `processAllOperationsInPath`: collect references and
tags from every operation of a path item (path-prefix branch). -/
def processAllOperationsInPathLoop (doc : Doc) (mimeTypes : List String) :
    List (String × Operation) → List String → ProcessedRefs →
    FR (List String × ProcessedRefs)
  | [], usedTagNames, pr => .ok (usedTagNames, pr)
  | (_, operation) :: rest, usedTagNames, pr =>
    match collectReferencesFromOperation doc operation mimeTypes pr with
    | .error e => .error e
    | .ok pr' =>
      let usedTagNames' := operation.tags.foldl insertName usedTagNames
      processAllOperationsInPathLoop doc mimeTypes rest usedTagNames' pr'

/-- Go `processAllOperationsInPath`. -/
def processAllOperationsInPath (doc : Doc) (pathItem : PathItem)
    (mimeTypes : List String) (usedTagNames : List String)
    (pr : ProcessedRefs) : FR (List String × ProcessedRefs) :=
  processAllOperationsInPathLoop doc mimeTypes pathItem.operations usedTagNames pr

/-- Loop body of Go `findMatchingOperations`: retain the operations that
satisfy `checkOperationMatches`, collecting their references and tags. -/
def findMatchingOperationsLoop (doc : Doc) (opts : FilterOptions)
    (mimeTypes : List String) :
    List (String × Operation) → List (String × Operation) → List String →
    ProcessedRefs → FR (List (String × Operation) × List String × ProcessedRefs)
  | [], matchedOps, usedTagNames, pr => .ok (matchedOps, usedTagNames, pr)
  | (method, operation) :: rest, matchedOps, usedTagNames, pr =>
    if checkOperationMatches operation method opts then
      match collectReferencesFromOperation doc operation mimeTypes pr with
      | .error e => .error e
      | .ok pr' =>
        let usedTagNames' := operation.tags.foldl insertName usedTagNames
        findMatchingOperationsLoop doc opts mimeTypes rest
          (matchedOps ++ [(method, operation)]) usedTagNames' pr'
    else
      findMatchingOperationsLoop doc opts mimeTypes rest matchedOps usedTagNames pr

/-- Go `findMatchingOperations`. -/
def findMatchingOperations (doc : Doc) (pathItem : PathItem)
    (opts : FilterOptions) (mimeTypes : List String)
    (usedTagNames : List String) (pr : ProcessedRefs) :
    FR (List (String × Operation) × List String × ProcessedRefs) :=
  findMatchingOperationsLoop doc opts mimeTypes pathItem.operations [] usedTagNames pr

/-- Loop body of Go `processPathsAndOperations`: for each path, either
retain the whole PathItem (path-prefix branch) or build a new PathItem
holding exactly the matched operations. -/
def pathsLoop (doc : Doc) (opts : FilterOptions) (mimeTypes : List String) :
    List (String × PathItem) → List (String × PathItem) → List String →
    ProcessedRefs → FR (List (String × PathItem) × List String × ProcessedRefs)
  | [], fpaths, usedTagNames, pr => .ok (fpaths, usedTagNames, pr)
  | (path, pathItem) :: rest, fpaths, usedTagNames, pr =>
    if opts.paths.length > 0 && pathMatchesFilter path opts.paths then
      match processAllOperationsInPath doc pathItem mimeTypes usedTagNames pr with
      | .error e => .error e
      | .ok (usedTagNames', pr') =>
        pathsLoop doc opts mimeTypes rest (setKey fpaths path pathItem)
          usedTagNames' pr'
    else
      match findMatchingOperations doc pathItem opts mimeTypes usedTagNames pr with
      | .error e => .error e
      | .ok (matchedOps, usedTagNames', pr') =>
        if matchedOps.length > 0 then
          pathsLoop doc opts mimeTypes rest
            (setKey fpaths path ⟨matchedOps, []⟩) usedTagNames' pr'
        else
          pathsLoop doc opts mimeTypes rest fpaths usedTagNames' pr'

/-- Go `processPathsAndOperations`: returns the filtered paths map, the
set of used tag names, and the collected reference sets. -/
def processPathsAndOperations (doc : Doc) (opts : FilterOptions)
    (mimeTypes : List String) :
    FR (List (String × PathItem) × List String × ProcessedRefs) :=
  pathsLoop doc opts mimeTypes doc.paths [] [] ⟨[], [], [], []⟩

/-- Go `processUsedTags`: when at least one tag was used, the output tag
list is the subset of the input's tags used by a retained operation, in
input order; otherwise the output tag list stays empty (Go nil). -/
def processUsedTags (doc : Doc) (usedTagNames : List String) : List String :=
  if usedTagNames.length > 0 then
    doc.tags.filter (fun tag => usedTagNames.contains tag)
  else []

/-! ## Schema resolver (`resolveSchemaRefsRecursively` and helpers)

The Go resolver recurses through schema positions and is guarded by a
per-seed visited set.  The embedding threads a `ResolveState` (the
accumulated `filtered.Components.Schemas` map and the visited set) and
gives the recursion explicit fuel; helper functions receive the
recursive call as the parameter `recf` (Go calls
`resolveSchemaRefsRecursively` directly).  Go wraps some errors with
`fmt.Errorf("%w (in schema …)")`; the wrapping text is dropped, the
location inside the error already identifies the site. -/

/-- State of the resolution phase: the schemas copied so far into the
filtered document, and the visited set of the current seed. -/
structure ResolveState where
  schemas : List (String × SchemaRef)
  visited : List String

/-- Type of the recursive call threaded through the resolver helpers:
schema name, parent context, state. -/
abbrev ResolveRec : Type := String → String → ResolveState → FR ResolveState

/-- The recurring Go pattern `if X.Ref != "" { name := validateRef(X.Ref);
resolveSchemaRefsRecursively(name, ctx) }` shared by every resolver
helper. -/
def refStep (recf : ResolveRec) (r : String) (location ctx : String)
    (st : ResolveState) : FR ResolveState :=
  if r ≠ "" then
    match validateRef r location with
    | .error e => .error e
    | .ok refName => recf refName ctx st
  else .ok st

/-- Loop body of Go `processItemProperties`: for each property of the
items' inline value, resolve a direct property ref and a nested items
ref. -/
def processItemPropertiesLoop (recf : ResolveRec) (schemaName : String) :
    List (String × SchemaRef) → ResolveState → FR ResolveState
  | [], st => .ok st
  | (propName, propSchema) :: rest, st =>
    match refStep recf propSchema.ref
        ("schema." ++ schemaName ++ ".items.properties." ++ propName)
        (schemaName ++ ".items.properties." ++ propName) st with
    | .error e => .error e
    | .ok st1 =>
      match (match propSchema.value with
            | some pv =>
              match pv.items with
              | some pits =>
                refStep recf pits.ref
                  ("schema." ++ schemaName ++ ".items.properties." ++ propName ++
                    ".items")
                  (schemaName ++ ".items.properties." ++ propName ++ ".items") st1
              | none => .ok st1
            | none => .ok st1 : FR ResolveState) with
      | .error e => .error e
      | .ok st2 => processItemPropertiesLoop recf schemaName rest st2

/-- Go `processItemProperties`. -/
def processItemProperties (recf : ResolveRec) (schemaName : String)
    (sv : Schema) (st : ResolveState) : FR ResolveState :=
  match sv.items with
  | none => .ok st
  | some items =>
    match items.value with
    | none => .ok st
    | some iv => processItemPropertiesLoop recf schemaName iv.properties st

/-- Go `processSchemaItems` (`sv` is the non-nil `schema.Value`). -/
def processSchemaItems (recf : ResolveRec) (schemaName : String)
    (sv : Schema) (st : ResolveState) : FR ResolveState :=
  match sv.items with
  | none => .ok st
  | some items =>
    match refStep recf items.ref ("schema." ++ schemaName ++ ".items")
        (schemaName ++ ".items") st with
    | .error e => .error e
    | .ok st1 =>
      match items.value with
      | some iv =>
        if !iv.properties.isEmpty then processItemProperties recf schemaName sv st1
        else .ok st1
      | none => .ok st1

/-- Go `processPropertyRef`. -/
def processPropertyRef (recf : ResolveRec) (schemaName propName : String)
    (propSchema : SchemaRef) (st : ResolveState) : FR ResolveState :=
  refStep recf propSchema.ref
    ("schema." ++ schemaName ++ ".properties." ++ propName)
    (schemaName ++ ".properties." ++ propName) st

/-- Loop body of Go `processNestedProperties`: direct nested-property
refs and items refs inside them. -/
def processNestedPropertiesLoop (recf : ResolveRec)
    (schemaName propName : String) :
    List (String × SchemaRef) → ResolveState → FR ResolveState
  | [], st => .ok st
  | (nestedPropName, nestedProp) :: rest, st =>
    match refStep recf nestedProp.ref
        ("schema." ++ schemaName ++ ".properties." ++ propName ++ "." ++
          nestedPropName)
        (schemaName ++ ".properties." ++ propName ++ "." ++ nestedPropName) st with
    | .error e => .error e
    | .ok st1 =>
      match (match nestedProp.value with
            | some nv =>
              match nv.items with
              | some nits =>
                refStep recf nits.ref
                  ("schema." ++ schemaName ++ ".properties." ++ propName ++ "." ++
                    nestedPropName ++ ".items")
                  (schemaName ++ ".properties." ++ propName ++ "." ++
                    nestedPropName ++ ".items") st1
              | none => .ok st1
            | none => .ok st1 : FR ResolveState) with
      | .error e => .error e
      | .ok st2 => processNestedPropertiesLoop recf schemaName propName rest st2

/-- Go `processNestedProperties`. -/
def processNestedProperties (recf : ResolveRec) (schemaName propName : String)
    (propSchema : SchemaRef) (st : ResolveState) : FR ResolveState :=
  match propSchema.value with
  | none => .ok st
  | some pv => processNestedPropertiesLoop recf schemaName propName pv.properties st

/-- Go `processNestedPropertyObjects`. -/
def processNestedPropertyObjects (recf : ResolveRec)
    (schemaName propName : String) (propSchema : SchemaRef)
    (st : ResolveState) : FR ResolveState :=
  match propSchema.value with
  | none => .ok st
  | some pv =>
    match (match pv.items with
          | some its =>
            refStep recf its.ref
              ("schema." ++ schemaName ++ ".properties." ++ propName ++ ".items")
              (schemaName ++ ".properties." ++ propName ++ ".items") st
          | none => .ok st : FR ResolveState) with
    | .error e => .error e
    | .ok st1 =>
      if !pv.properties.isEmpty then
        processNestedProperties recf schemaName propName propSchema st1
      else .ok st1

/-- Loop body of Go `processSchemaProperties`. -/
def processSchemaPropertiesLoop (recf : ResolveRec) (schemaName : String) :
    List (String × SchemaRef) → ResolveState → FR ResolveState
  | [], st => .ok st
  | (propName, propSchema) :: rest, st =>
    match processPropertyRef recf schemaName propName propSchema st with
    | .error e => .error e
    | .ok st1 =>
      match processNestedPropertyObjects recf schemaName propName propSchema st1 with
      | .error e => .error e
      | .ok st2 => processSchemaPropertiesLoop recf schemaName rest st2

/-- Go `processSchemaProperties`. -/
def processSchemaProperties (recf : ResolveRec) (schemaName : String)
    (sv : Schema) (st : ResolveState) : FR ResolveState :=
  match sv.properties with
  | [] => .ok st
  | _ => processSchemaPropertiesLoop recf schemaName sv.properties st

/-- Loop over one composition list of Go `processCompositionSchemas`,
with the running index used in the error context. -/
def compositionLoop (recf : ResolveRec) (schemaName compName : String) :
    Nat → List SchemaRef → ResolveState → FR ResolveState
  | _, [], st => .ok st
  | i, compositionSchema :: rest, st =>
    match refStep recf compositionSchema.ref
        ("schema." ++ schemaName ++ "." ++ compName ++ "[" ++ toString i ++ "]")
        (schemaName ++ "." ++ compName ++ "[" ++ toString i ++ "]") st with
    | .error e => .error e
    | .ok st1 => compositionLoop recf schemaName compName (i + 1) rest st1

/-- Go `processCompositionSchemas`: allOf, oneOf, anyOf (the `Not`
schema is NOT processed here, unlike in `extractSchemaReferences`). -/
def processCompositionSchemas (recf : ResolveRec) (schemaName : String)
    (sv : Schema) (st : ResolveState) : FR ResolveState :=
  match compositionLoop recf schemaName "allOf" 0 sv.allOf st with
  | .error e => .error e
  | .ok st1 =>
    match compositionLoop recf schemaName "oneOf" 0 sv.oneOf st1 with
    | .error e => .error e
    | .ok st2 => compositionLoop recf schemaName "anyOf" 0 sv.anyOf st2

/-- Go `resolveSchemaRefsRecursively(doc, filtered, schemaName,
processedRefs, parentContext)`.  The fuel argument bounds the recursion
depth; each nesting level consumes one unit.  The pipeline supplies
`schemaFuel doc`, which is proved sufficient below. -/
def resolveSchemaRefsRecursively (doc : Doc) :
    Nat → String → String → ResolveState → FR ResolveState
  | 0, _, _, _ => .error .fuelExhausted
  | fuel + 1, schemaName, parentContext, st =>
    if st.visited.contains schemaName then .ok st
    else
      let st := { st with visited := st.visited ++ [schemaName] }
      match doc.components with
      | none => .error (.componentNotFound "components" "section" "")
      | some comps =>
        match lookupKey comps.schemas schemaName with
        | none => .error (.componentNotFound schemaName "schema" parentContext)
        | some schema =>
          let st := { st with schemas := setKey st.schemas schemaName schema }
          match refStep (resolveSchemaRefsRecursively doc fuel) schema.ref
              ("schema." ++ schemaName) schemaName st with
          | .error e => .error e
          | .ok st1 =>
            match schema.value with
            | none => .ok st1
            | some sv =>
              match processSchemaItems (resolveSchemaRefsRecursively doc fuel)
                  schemaName sv st1 with
              | .error e => .error e
              | .ok st2 =>
                match processSchemaProperties
                    (resolveSchemaRefsRecursively doc fuel) schemaName sv st2 with
                | .error e => .error e
                | .ok st3 =>
                  processCompositionSchemas
                    (resolveSchemaRefsRecursively doc fuel) schemaName sv st3

/-- Fuel supplied per seed: one more than the number of component
schemas (the visited-set guard means the recursion depth cannot exceed
the number of distinct schema names). -/
def schemaFuel (doc : Doc) : Nat :=
  (match doc.components with
   | some comps => comps.schemas.length
   | none => 0) + 1

/-- Go loop in `resolveAllReferences` over `processedRefs.Schemas`: each
seed is resolved with a fresh visited set, accumulating into the shared
filtered schemas map. -/
def resolveSeedSchemas (doc : Doc) :
    List String → List (String × SchemaRef) → FR (List (String × SchemaRef))
  | [], acc => .ok acc
  | schemaName :: rest, acc =>
    match resolveSchemaRefsRecursively doc (schemaFuel doc) schemaName "root"
        ⟨acc, []⟩ with
    | .error e => .error e
    | .ok st => resolveSeedSchemas doc rest st.schemas

/-- Go `resolveRequestBodyRefs`: copy each collected request body from
the input components, failing when absent. -/
def resolveRequestBodyRefs (comps : Components) :
    List String → List (String × RequestBodyRef) →
    FR (List (String × RequestBodyRef))
  | [], acc => .ok acc
  | requestBodyName :: rest, acc =>
    match lookupKey comps.requestBodies requestBodyName with
    | none => .error (.componentNotFound requestBodyName "request body" "")
    | some requestBody =>
      resolveRequestBodyRefs comps rest (setKey acc requestBodyName requestBody)

/-- Go `resolveParameterRefs`. -/
def resolveParameterRefs (comps : Components) :
    List String → List (String × ParameterRef) →
    FR (List (String × ParameterRef))
  | [], acc => .ok acc
  | paramName :: rest, acc =>
    match lookupKey comps.parameters paramName with
    | none => .error (.componentNotFound paramName "parameter" "")
    | some param => resolveParameterRefs comps rest (setKey acc paramName param)

/-- Go `resolveResponseRefs`. -/
def resolveResponseRefs (comps : Components) :
    List String → List (String × ResponseRef) →
    FR (List (String × ResponseRef))
  | [], acc => .ok acc
  | responseName :: rest, acc =>
    match lookupKey comps.responses responseName with
    | none => .error (.componentNotFound responseName "response" "")
    | some response =>
      resolveResponseRefs comps rest (setKey acc responseName response)

/-- The four component maps built by the resolution phase (the mutable
`filtered.Components.<kind>` maps in Go, which start empty). -/
structure FilteredComponents where
  schemas : List (String × SchemaRef)
  parameters : List (String × ParameterRef)
  requestBodies : List (String × RequestBodyRef)
  responses : List (String × ResponseRef)

/-- Go `resolveAllReferences`: resolve all schema seeds, then (only when
`doc.Components` is non-nil) the request body, parameter and response
seeds. -/
def resolveAllReferences (doc : Doc) (pr : ProcessedRefs) :
    FR FilteredComponents :=
  match resolveSeedSchemas doc pr.schemas [] with
  | .error e => .error e
  | .ok schemas =>
    match doc.components with
    | none => .ok ⟨schemas, [], [], []⟩
    | some comps =>
      match resolveRequestBodyRefs comps pr.requestBodies [] with
      | .error e => .error e
      | .ok requestBodies =>
        match resolveParameterRefs comps pr.parameters [] with
        | .error e => .error e
        | .ok parameters =>
          match resolveResponseRefs comps pr.responses [] with
          | .error e => .error e
          | .ok responses => .ok ⟨schemas, parameters, requestBodies, responses⟩

/-! ## Pruner (`pruneUnusedComponents`, `findTransitivelyUsedComponents`)

Go iterates a `for changed` loop until a full pass adds nothing.  The
embedding runs the pass under a fuel bound; only monotonicity of the
pass is needed for the claims settled here, so any fuel is faithful to
the properties proved (the Go loop computes the same least fixpoint). -/

/-- Go `ComponentUsage`. -/
structure ComponentUsage where
  schemas : List String
  parameters : List String
  requestBodies : List String
  responses : List String

/-- Add every extracted name to the schema usage set, reporting whether
anything was new. -/
def addRefs (usageSchemas : List String) (refs : List String) :
    List String × Bool :=
  refs.foldl (fun acc refName =>
    if acc.1.contains refName then acc else (acc.1 ++ [refName], true))
    (usageSchemas, false)

/-- One pass of Go `findTransitivelyUsedComponents`: walk the used
schemas, then the used parameters, request bodies and responses that
exist in the filtered components, extracting schema references
(extraction errors are ignored, as in Go `if err == nil`). -/
def expandUsagePass (fc : FilteredComponents) (u : ComponentUsage) :
    ComponentUsage × Bool :=
  let step1 := u.schemas.foldl (fun acc schemaName =>
    match lookupKey fc.schemas schemaName with
    | some schema =>
      match extractSchemaReferences schema [] with
      | .ok refs =>
        let (s', ch) := addRefs acc.1 refs
        (s', acc.2 || ch)
      | .error _ => acc
    | none => acc) (u.schemas, false)
  let step2 := u.parameters.foldl (fun acc paramName =>
    match lookupKey fc.parameters paramName with
    | some param =>
      match param.value with
      | some pv =>
        match pv.schema with
        | some s =>
          match extractSchemaReferences s [] with
          | .ok refs =>
            let (s', ch) := addRefs acc.1 refs
            (s', acc.2 || ch)
          | .error _ => acc
        | none => acc
      | none => acc
    | none => acc) step1
  let step3 := u.requestBodies.foldl (fun acc rbName =>
    match lookupKey fc.requestBodies rbName with
    | some rb =>
      match rb.value with
      | some rbv =>
        rbv.content.foldl (fun acc2 kv =>
          match kv.2.schema with
          | some s =>
            match extractSchemaReferences s [] with
            | .ok refs =>
              let (s', ch) := addRefs acc2.1 refs
              (s', acc2.2 || ch)
            | .error _ => acc2
          | none => acc2) acc
      | none => acc
    | none => acc) step2
  let step4 := u.responses.foldl (fun acc respName =>
    match lookupKey fc.responses respName with
    | some resp =>
      match resp.value with
      | some rv =>
        rv.content.foldl (fun acc2 kv =>
          match kv.2.schema with
          | some s =>
            match extractSchemaReferences s [] with
            | .ok refs =>
              let (s', ch) := addRefs acc2.1 refs
              (s', acc2.2 || ch)
            | .error _ => acc2
          | none => acc2) acc
      | none => acc
    | none => acc) step3
  ({ u with schemas := step4.1 }, step4.2)

/-- Go `findTransitivelyUsedComponents`: iterate the pass to a fixpoint
(under a fuel bound; each productive pass adds at least one name). -/
def findTransitivelyUsedComponents (fc : FilteredComponents) :
    Nat → ComponentUsage → ComponentUsage
  | 0, u => u
  | fuel + 1, u =>
    let p := expandUsagePass fc u
    if p.2 then findTransitivelyUsedComponents fc fuel p.1 else p.1

/-- Fuel for the pruner fixpoint: one more than the total number of
reference occurrences inside the filtered components (each productive
pass adds at least one of these names to the usage set). -/
def pruneFuel (fc : FilteredComponents) : Nat :=
  (fc.schemas.foldl (fun n kv =>
    match extractSchemaReferences kv.2 [] with
    | .ok refs => n + refs.length
    | .error _ => n) 0) +
  fc.parameters.length + fc.requestBodies.length + fc.responses.length +
  fc.schemas.length + 1

/-- Go `pruneUnusedComponents`: compute the transitive usage starting
from the collected reference sets, then delete every component of the
four reachable kinds whose name is not used. -/
def pruneUnusedComponents (fc : FilteredComponents) (pr : ProcessedRefs) :
    FilteredComponents :=
  let usage0 : ComponentUsage := ⟨pr.schemas, pr.parameters, pr.requestBodies, pr.responses⟩
  let usage := findTransitivelyUsedComponents fc (pruneFuel fc) usage0
  { schemas := fc.schemas.filter (fun kv => usage.schemas.contains kv.1)
    parameters := fc.parameters.filter (fun kv => usage.parameters.contains kv.1)
    requestBodies := fc.requestBodies.filter (fun kv => usage.requestBodies.contains kv.1)
    responses := fc.responses.filter (fun kv => usage.responses.contains kv.1) }

/-! ## Top level (`createFilteredSpec` + `applyFilter`) -/

/-- Passenger component kinds copied verbatim by Go
`createFilteredSpec` when `doc.Components != nil`. -/
def passengerOf (doc : Doc) (f : Components → List String) : List String :=
  match doc.components with
  | some comps => f comps
  | none => []

/-- The output components record: the four resolved kinds plus the
passenger kinds copied verbatim (Go `createFilteredSpec` tail). -/
def assembleComponents (doc : Doc) (fc : FilteredComponents) : Components :=
  { schemas := fc.schemas
    parameters := fc.parameters
    requestBodies := fc.requestBodies
    responses := fc.responses
    headers := passengerOf doc Components.headers
    securitySchemes := passengerOf doc Components.securitySchemes
    examples := passengerOf doc Components.examples
    links := passengerOf doc Components.links
    callbacks := passengerOf doc Components.callbacks }

/-- Go `applyFilter(doc, opts)`: create the filtered spec skeleton
(`createFilteredSpec` copies `openapi`, `info`, `servers`,
`externalDocs` and resets `security` to an empty list), process paths
and operations, process tags, resolve all collected references, and
optionally prune. -/
def applyFilter (doc : Doc) (opts : FilterOptions) : FR Doc :=
  let mimeTypes := findAllMimeTypes doc
  match processPathsAndOperations doc opts mimeTypes with
  | .error e => .error e
  | .ok (fpaths, usedTagNames, processedRefs) =>
    let ftags := processUsedTags doc usedTagNames
    match resolveAllReferences doc processedRefs with
    | .error e => .error e
    | .ok fc =>
      let fc :=
        if opts.pruneComponents then pruneUnusedComponents fc processedRefs
        else fc
      .ok { openapi := doc.openapi
            info := doc.info
            servers := doc.servers
            externalDocs := doc.externalDocs
            security := []
            tags := ftags
            paths := fpaths
            components := some (assembleComponents doc fc) }

/-! ## Specification-side definitions

The reference relation and closure below follow the spec's description
of reachability ("through items, properties, allOf/oneOf/anyOf members,
and not"); they are used to compare the resolver against the spec. -/

/-- Schema component names of the document (components may be nil). -/
def docSchemaKeys (doc : Doc) : List String :=
  match doc.components with
  | some comps => keys comps.schemas
  | none => []

/-- Number of document schema names not yet visited; the termination
measure of the resolver. -/
def unvisitedCount (doc : Doc) (visited : List String) : Nat :=
  (((docSchemaKeys doc).dedup).filter (fun k => !visited.contains k)).length

/-- A reference string names component `n`: non-empty, starts with
`#/components/`, and its last segment is `n` (the success condition of
`validateRef`). -/
def RefNames (r n : String) : Prop :=
  r ≠ "" ∧ strHasPrefix r "#/components/" = true ∧ extractRefName r = n

mutual
/-- Schema node `s` references the schema component named `n`,
directly or anywhere in its inline subtree (spec: the reference
relation through `items`, `properties`, `allOf`/`oneOf`/`anyOf`
members, and `not`). -/
inductive SchemaRefersTo : SchemaRef → String → Prop where
  | direct (r : String) (v : Option Schema) (n : String) :
      RefNames r n → SchemaRefersTo (.mk r v) n
  | value (r : String) (sv : Schema) (n : String) :
      ValueRefersTo sv n → SchemaRefersTo (.mk r (some sv)) n

/-- Inline-schema-value version of `SchemaRefersTo`. -/
inductive ValueRefersTo : Schema → String → Prop where
  | items (sv : Schema) (it : SchemaRef) (n : String) :
      sv.items = some it → SchemaRefersTo it n → ValueRefersTo sv n
  | prop (sv : Schema) (p : String) (ps : SchemaRef) (n : String) :
      (p, ps) ∈ sv.properties → SchemaRefersTo ps n → ValueRefersTo sv n
  | allOfMem (sv : Schema) (c : SchemaRef) (n : String) :
      c ∈ sv.allOf → SchemaRefersTo c n → ValueRefersTo sv n
  | oneOfMem (sv : Schema) (c : SchemaRef) (n : String) :
      c ∈ sv.oneOf → SchemaRefersTo c n → ValueRefersTo sv n
  | anyOfMem (sv : Schema) (c : SchemaRef) (n : String) :
      c ∈ sv.anyOf → SchemaRefersTo c n → ValueRefersTo sv n
  | nottMem (sv : Schema) (nt : SchemaRef) (n : String) :
      sv.nott = some nt → SchemaRefersTo nt n → ValueRefersTo sv n
end

/-- The transitive schema-reference closure of a seed set over a
document: the least set containing the seeds and closed under the
reference relation of the stored component schemas. -/
inductive InSchemaClosure (doc : Doc) (seeds : List String) : String → Prop where
  | seed (n : String) : n ∈ seeds → InSchemaClosure doc seeds n
  | step (a : String) (comps : Components) (s : SchemaRef) (n : String) :
      InSchemaClosure doc seeds a →
      doc.components = some comps →
      lookupKey comps.schemas a = some s →
      SchemaRefersTo s n →
      InSchemaClosure doc seeds n

/-- Every operation-level component reference of operation `o` has been
collected into `pr`: a non-empty request-body ref, parameter ref, or
response ref whose name validates is recorded in the corresponding
set. -/
def OpRefsCollected (o : Operation) (pr : ProcessedRefs) : Prop :=
  (∀ rb : RequestBodyRef, o.requestBody = some rb → ∀ n : String,
      RefNames rb.ref n → n ∈ pr.requestBodies) ∧
  (∀ param ∈ o.parameters, ∀ n : String,
      RefNames param.ref n → n ∈ pr.parameters) ∧
  (∀ k : String, ∀ r : ResponseRef, (k, r) ∈ o.responses → ∀ n : String,
      RefNames r.ref n → n ∈ pr.responses)

/-! ## Concrete documents used as counterexamples and witnesses -/

/-- Empty components record. -/
def emptyComps : Components := ⟨[], [], [], [], [], [], [], [], []⟩

/-- Document skeleton shared by the concrete examples. -/
def mkDoc (paths : List (String × PathItem)) (comps : Option Components) : Doc :=
  { openapi := "3.0.3", info := "info", servers := "servers",
    externalDocs := "externalDocs", security := [], tags := [],
    paths := paths, components := comps }

/-- Response that inlines a media type whose schema is a bare ref. -/
def respRefTo (r : String) : ResponseRef :=
  ⟨"", some ⟨[("application/json", ⟨some (.mk r none)⟩)]⟩⟩

/-- Operation with a single 200 response whose schema is the ref `r`. -/
def opWithResp (oid : String) (r : String) : Operation :=
  { operationId := oid, tags := [], parameters := [], requestBody := none,
    responses := [("200", respRefTo r)] }

/-- Component schema `B`: a plain inline object. -/
def schemaB : SchemaRef := .mk "" (some (.mk none [] [] [] [] none))

/-- Component schema `A`: its inline value has `not` referencing `B`. -/
def schemaA : SchemaRef :=
  .mk "" (some (.mk none [] [] [] []
    (some (.mk "#/components/schemas/B" none))))

/-- Document whose only operation references schema `A`, where `A`
references `B` only through `not`. -/
def docNot : Doc :=
  mkDoc [("/x", ⟨[("GET", opWithResp "getA" "#/components/schemas/A")], []⟩)]
    (some { emptyComps with schemas := [("A", schemaA), ("B", schemaB)] })

/-- Empty filter with pruning enabled. -/
def optsPrune : FilterOptions := ⟨[], [], [], true⟩

/-- Collected references of `docNot`'s single retained operation. -/
def prNot : ProcessedRefs := ⟨["A"], [], [], []⟩

/-- Filtered paths of `docNot` under the empty filter. -/
def fpNot : List (String × PathItem) :=
  [("/x", ⟨[("GET", opWithResp "getA" "#/components/schemas/A")], []⟩)]

/-- Output of `applyFilter docNot optsPrune`: schema `B` is pruned. -/
def outNot : Doc :=
  mkDoc fpNot (some { emptyComps with schemas := [("A", schemaA)] })

/-- Empty filter without pruning. -/
def optsNone : FilterOptions := ⟨[], [], [], false⟩

/-- Operation whose request body references a component whose `Value`
is nil. -/
def opNilRB : Operation :=
  { operationId := "", tags := [], parameters := [],
    requestBody := some ⟨"#/components/requestBodies/RB", none⟩,
    responses := [] }

/-- Document triggering the nil request-body `Value` dereference. -/
def docNilRB : Doc :=
  mkDoc [("/x", ⟨[("POST", opNilRB)], []⟩)]
    (some { emptyComps with requestBodies := [("RB", ⟨"", none⟩)] })

/-- Operation whose response references a component whose `Value` is
nil. -/
def opNilResp : Operation :=
  { operationId := "", tags := [], parameters := [], requestBody := none,
    responses := [("200", ⟨"#/components/responses/R", none⟩)] }

/-- Document triggering the nil response `Value` dereference. -/
def docNilResp : Doc :=
  mkDoc [("/x", ⟨[("GET", opNilResp)], []⟩)]
    (some { emptyComps with responses := [("R", ⟨"", none⟩)] })

/-- Document family whose only operation's response schema is the bare
reference `r`, over an empty schema store: closure expansion reaches the
referenced name and fails. -/
def ghostDoc (r : String) : Doc :=
  mkDoc [("/x", ⟨[("GET", opWithResp "" r)], []⟩)] (some emptyComps)

/-- Document with a non-empty `security` field and nothing else. -/
def docSec : Doc :=
  { openapi := "3.0.3", info := "inf", servers := "srv",
    externalDocs := "ed", security := ["secReq"], tags := [], paths := [],
    components := none }

/-- Document with one operation-less path. -/
def docEmptyPath : Doc := mkDoc [("/e", ⟨[], []⟩)] none

/-- Document with a two-schema reference cycle `A → B → A` reachable
from its only operation. -/
def cycleDoc : Doc :=
  mkDoc [("/c", ⟨[("GET", opWithResp "" "#/components/schemas/A")], []⟩)]
    (some { emptyComps with schemas :=
      [("A", .mk "#/components/schemas/B" none),
       ("B", .mk "#/components/schemas/A" none)] })

/-- Components store of `cycleDoc`. -/
def cycleComps : Components :=
  { emptyComps with schemas :=
    [("A", .mk "#/components/schemas/B" none),
     ("B", .mk "#/components/schemas/A" none)] }

/-- Seed set naming only `A`, for exercising the `A -> B -> A` cycle. -/
def cyclePR : ProcessedRefs := ⟨["A"], [], [], []⟩

/-- The components actually produced by `resolveAllReferences` on
`cycleDoc` with seed `A`: both cycle members, no other kinds. -/
def cycleFC : FilteredComponents :=
  ⟨[("A", .mk "#/components/schemas/B" none),
    ("B", .mk "#/components/schemas/A" none)], [], [], []⟩

/-- Operation carrying one reference of each operation-level kind. -/
def opAllRefs : Operation :=
  { operationId := "op1", tags := ["tg"],
    parameters := [⟨"#/components/parameters/P", none⟩],
    requestBody := some ⟨"#/components/requestBodies/RB", none⟩,
    responses := [("200", ⟨"#/components/responses/R", none⟩)] }

/-- Components store for `docAllRefs`. -/
def compsAllRefs : Components :=
  { emptyComps with
    parameters := [("P", ⟨"", some ⟨none⟩⟩)],
    requestBodies := [("RB", ⟨"", some ⟨[]⟩⟩)],
    responses := [("R", ⟨"", some ⟨[]⟩⟩)] }

/-- Document where all three operation-level component kinds are
referenced and present. -/
def docAllRefs : Doc :=
  { openapi := "3.0.3", info := "info", servers := "servers",
    externalDocs := "externalDocs", security := [], tags := ["tg"],
    paths := [("/u", ⟨[("POST", opAllRefs)], []⟩)],
    components := some compsAllRefs }

/-- Operation used by `docPrefix`. -/
def opListU : Operation :=
  { operationId := "listU", tags := ["tg"], parameters := [],
    requestBody := none, responses := [("200", ⟨"", some ⟨[]⟩⟩)] }

/-- PathItem of `docPrefix`, with a PathItem-level parameter. -/
def piUsers : PathItem :=
  ⟨[("GET", opListU)], [⟨"#/components/parameters/PP", none⟩]⟩

/-- Document with one matching path (containing PathItem-level fields)
used to witness the path-prefix short-circuit. -/
def docPrefix : Doc :=
  { openapi := "3.0.3", info := "info", servers := "servers",
    externalDocs := "externalDocs", security := [], tags := ["tg"],
    paths := [("/users/a", piUsers)], components := none }

/-- Operation used by `docTwoPaths`. -/
def opGa : Operation :=
  { operationId := "ga", tags := [], parameters := [],
    requestBody := none, responses := [("200", ⟨"", some ⟨[]⟩⟩)] }

/-- Document with one path holding an operation (plus a PathItem-level
parameter) and one operation-less path. -/
def docTwoPaths : Doc :=
  mkDoc [("/a", ⟨[("GET", opGa)], [⟨"#/components/parameters/PP", none⟩]⟩),
    ("/e", ⟨[], []⟩)] none

/-! ## Invariant bundles for the resolver's recursive call -/

/-- State growth of the resolver: the visited set and the keys of the
accumulated schema map only grow. -/
def StMono (a b : ResolveState) : Prop :=
  a.visited ⊆ b.visited ∧ ∀ k ∈ keys a.schemas, k ∈ keys b.schemas

/-- The recursive call only grows the visited set and the keys of the
accumulated schema map. -/
def RecMono (recf : ResolveRec) : Prop :=
  ∀ name ctx : String, ∀ st st' : ResolveState, recf name ctx st = .ok st' →
    StMono st st'

/-- The recursive call cannot run out of fuel while the number of
unvisited document schemas is below the bound. -/
def RecNoFuelFail (doc : Doc) (bound : Nat) (recf : ResolveRec) : Prop :=
  ∀ name ctx : String, ∀ st : ResolveState,
    unvisitedCount doc st.visited < bound →
    recf name ctx st ≠ .error .fuelExhausted

/-- The recursive call keeps every accumulated schema key inside the
reference closure of the seed set. -/
def RecClosure (doc : Doc) (seeds : List String) (recf : ResolveRec) : Prop :=
  ∀ name ctx : String, ∀ st st' : ResolveState,
    InSchemaClosure doc seeds name →
    (∀ k ∈ keys st.schemas, InSchemaClosure doc seeds k) →
    recf name ctx st = .ok st' →
    ∀ k ∈ keys st'.schemas, InSchemaClosure doc seeds k

/-! ## Basic lemmas about the list primitives -/

theorem contains_iff_mem (l : List String) (a : String) :
    l.contains a = true ↔ a ∈ l := by
  simp

theorem mem_insertName_self (l : List String) (n : String) :
    n ∈ insertName l n := by
  unfold insertName
  split
  · next h => exact (contains_iff_mem l n).mp h
  · exact List.mem_append_right _ (List.mem_singleton.mpr rfl)

theorem mem_insertName_of_mem {l : List String} {m : String} (n : String)
    (h : m ∈ l) : m ∈ insertName l n := by
  unfold insertName
  split
  · exact h
  · exact List.mem_append_left _ h

theorem subset_insertName (l : List String) (n : String) :
    l ⊆ insertName l n :=
  fun _ h => mem_insertName_of_mem n h

theorem subset_foldl_insertName (l : List String) (acc : List String) :
    acc ⊆ l.foldl insertName acc := by
  induction l generalizing acc with
  | nil => simp
  | cons h t ih =>
    intro x hx
    exact ih (insertName acc h) (subset_insertName acc h hx)

theorem mem_foldl_insertName_of_mem_list {l : List String} {t : String}
    (acc : List String) (h : t ∈ l) : t ∈ l.foldl insertName acc := by
  induction l generalizing acc with
  | nil => cases h
  | cons hd tl ih =>
    rcases List.mem_cons.mp h with rfl | ht
    · exact subset_foldl_insertName tl (insertName acc t)
        (mem_insertName_self acc t)
    · exact ih (insertName acc hd) ht

theorem pair_mem_of_lookupKey {α : Type} {l : List (String × α)} {k : String}
    {v : α} (h : lookupKey l k = some v) : (k, v) ∈ l := by
  induction l with
  | nil => simp [lookupKey] at h
  | cons hd tl ih =>
    obtain ⟨k', v'⟩ := hd
    by_cases hk : k' = k
    · subst hk
      simp [lookupKey] at h
      subst h
      exact List.mem_cons_self _ _
    · simp [lookupKey, hk] at h
      exact List.mem_cons_of_mem _ (ih h)

theorem mem_keys_of_lookupKey {α : Type} {l : List (String × α)} {k : String}
    {v : α} (h : lookupKey l k = some v) : k ∈ keys l := by
  have := pair_mem_of_lookupKey h
  exact List.mem_map.mpr ⟨(k, v), this, rfl⟩

theorem lookupKey_isSome_of_mem_keys {α : Type} {l : List (String × α)}
    {k : String} (h : k ∈ keys l) : (lookupKey l k).isSome := by
  induction l with
  | nil => simp [keys] at h
  | cons hd tl ih =>
    obtain ⟨k', v'⟩ := hd
    by_cases hk : k' = k
    · subst hk
      simp [lookupKey]
    · simp [keys] at h
      rcases h with h | h
      · exact absurd h.symm hk
      · simpa [lookupKey, hk] using ih (List.mem_map.mpr
          (by simpa [keys] using h))

theorem mem_keys_setKey_of_mem {α : Type} {l : List (String × α)} {m : String}
    (k : String) (v : α) (h : m ∈ keys l) : m ∈ keys (setKey l k v) := by
  induction l with
  | nil => simp [keys] at h
  | cons hd tl ih =>
    obtain ⟨k', v'⟩ := hd
    unfold setKey
    by_cases hk : k' = k
    · subst hk
      simp [keys] at h ⊢
      exact h
    · simp [hk, keys] at h ⊢
      rcases h with h | h
      · exact Or.inl h
      · exact Or.inr (by simpa [keys] using ih (by simpa [keys] using h))

theorem self_mem_keys_setKey {α : Type} (l : List (String × α)) (k : String)
    (v : α) : k ∈ keys (setKey l k v) := by
  induction l with
  | nil => simp [setKey, keys]
  | cons hd tl ih =>
    obtain ⟨k', v'⟩ := hd
    unfold setKey
    by_cases hk : k' = k
    · subst hk
      simp [keys]
    · simp [hk, keys]
      exact Or.inr (by simpa [keys] using ih)

theorem mem_keys_setKey_elim {α : Type} {l : List (String × α)} {m k : String}
    {v : α} (h : m ∈ keys (setKey l k v)) : m = k ∨ m ∈ keys l := by
  induction l with
  | nil => simpa [setKey, keys] using h
  | cons hd tl ih =>
    obtain ⟨k', v'⟩ := hd
    unfold setKey at h
    by_cases hk : k' = k
    · subst hk
      simp [keys] at h ⊢
      tauto
    · simp [hk, keys] at h ⊢
      rcases h with h | h
      · tauto
      · rcases ih (by simpa [keys] using h) with h' | h'
        · tauto
        · simp [keys] at h'
          tauto

theorem lookupKey_setKey_self {α : Type} (l : List (String × α)) (k : String)
    (v : α) : lookupKey (setKey l k v) k = some v := by
  induction l with
  | nil => simp [setKey, lookupKey]
  | cons hd tl ih =>
    obtain ⟨k', v'⟩ := hd
    unfold setKey
    by_cases hk : k' = k
    · subst hk
      simp [lookupKey]
    · simp [hk, lookupKey]
      exact ih

theorem lookupKey_setKey_ne {α : Type} (l : List (String × α)) {k k' : String}
    (v : α) (h : k' ≠ k) : lookupKey (setKey l k v) k' = lookupKey l k' := by
  have hkk : ¬ (k = k') := fun hh => h hh.symm
  induction l with
  | nil => simp [setKey, lookupKey, hkk]
  | cons hd tl ih =>
    obtain ⟨k0, v0⟩ := hd
    unfold setKey
    by_cases hk : k0 = k
    · subst hk
      simp [lookupKey, hkk]
    · by_cases hk0 : k0 = k'
      · subst hk0
        simp [hk, lookupKey]
      · simp [hk, lookupKey, hk0]
        exact ih

/-! ## Claim theorems: matcher, reference parser, top-level copy,
nil-value panics, missing components, and concrete counterexamples -/

/-- C3: an operation is retained by the per-operation predicate iff the
operation-token condition holds when tokens are given (operationId
element-equal to a token, or a token case-insensitively equal to the
method), the tag condition holds when tag filters are given, and, when
both of those axes are empty, the Paths axis is empty as well (so with
all axes empty every operation is retained, and with only Paths given a
non-prefix-matched operation is dropped). -/
theorem checkOperationMatches_characterization (operation : Operation)
    (method : String) (opts : FilterOptions) :
    checkOperationMatches operation method opts = true ↔
      ((opts.operations ≠ [] →
          (operation.operationId ∈ opts.operations ∨
            ∃ op ∈ opts.operations, eqFold op method = true)) ∧
        (opts.tags ≠ [] → ∃ t ∈ operation.tags, t ∈ opts.tags) ∧
        (opts.operations = [] → opts.tags = [] → opts.paths = [])) := by
  obtain ⟨ps, ops, tgs, pc⟩ := opts
  cases ops with
  | nil =>
    cases tgs with
    | nil =>
      cases ps with
      | nil => simp [checkOperationMatches]
      | cons a l => simp [checkOperationMatches]
    | cons b m =>
      simp [checkOperationMatches, List.any_eq_true]
  | cons a l =>
    cases tgs with
    | nil =>
      simp [checkOperationMatches, List.any_eq_true]
    | cons b m =>
      simp [checkOperationMatches, List.any_eq_true]

/-- C5 (amended): reference validation fails (with `InvalidReference`
carrying the offending string and location) exactly when the string is
empty or does not start with `#/components/`; every other form is
accepted and yields the last `/`-separated segment as the name.  The
four-segment and recognized-kind checks of the original claim are not
performed. -/
theorem validateRef_characterization (ref loc : String) :
    (∀ n, validateRef ref loc = .ok n ↔ RefNames ref n) ∧
    ((∃ reason, validateRef ref loc = .error (.invalidReference ref reason loc)) ↔
      (ref = "" ∨ ¬ strHasPrefix ref "#/components/" = true)) := by
  unfold validateRef RefNames
  by_cases h1 : ref = ""
  · simp [h1]
  · by_cases h2 : strHasPrefix ref "#/components/" = true
    · simp [h1, h2, eq_comm]
    · simp [h1, h2]

/-- C5 counterexample: refs with an unrecognized kind, with five
segments, or with no name segment are accepted by `validateRef`,
contradicting the claim that they fail with `InvalidReference`. -/
theorem validateRef_counterexample_kind :
    validateRef "#/components/bogus/Name" "loc" = .ok "Name" ∧
    validateRef "#/components/schemas/A/B" "loc" = .ok "B" ∧
    validateRef "#/components/" "loc" = .ok "" := ⟨rfl, rfl, rfl⟩

/-- Witness for C5: the characterization evaluated at a well-formed
reference. -/
theorem validateRef_witness :
    validateRef "#/components/schemas/User" "loc" = .ok "User" ∧
    RefNames "#/components/schemas/User" "User" :=
  ⟨rfl, ((validateRef_characterization "#/components/schemas/User" "loc").1
      "User").mp rfl⟩

/-- C6 (amended): the assembler copies `openapi`, `info`, `servers` and
`externalDocs` unchanged from the input, but resets `security` to an
empty list (Go `createFilteredSpec` sets
`Security: make(openapi3.SecurityRequirements, 0)`). -/
theorem applyFilter_topLevel_fields (doc : Doc) (opts : FilterOptions)
    (out : Doc) (h : applyFilter doc opts = .ok out) :
    out.openapi = doc.openapi ∧ out.info = doc.info ∧
    out.servers = doc.servers ∧ out.externalDocs = doc.externalDocs ∧
    out.security = [] := by
  unfold applyFilter at h
  cases hp : processPathsAndOperations doc opts (findAllMimeTypes doc) with
  | error e => simp [hp] at h
  | ok trip =>
    obtain ⟨fp, tags, pr⟩ := trip
    simp only [hp] at h
    cases hr : resolveAllReferences doc pr with
    | error e => simp [hr] at h
    | ok fc =>
      simp only [hr] at h
      injection h with h
      subst h
      simp

/-- C6 counterexample: a document with a non-empty `security` list
filters to an output whose `security` is empty, contradicting the claim
that `security` is copied unchanged. -/
theorem security_counterexample :
    docSec.security = ["secReq"] ∧
    (∃ out, applyFilter docSec optsNone = Except.ok out ∧ out.security = []) :=
  ⟨rfl, ⟨_, rfl, rfl⟩⟩

/-- Witness for C6: the amended theorem applied to `docSec`. -/
theorem topLevel_fields_witness :
    ∃ out, applyFilter docSec optsNone = Except.ok out ∧
      out.openapi = docSec.openapi ∧ out.security = [] := by
  refine ⟨_, rfl, ?_, ?_⟩
  · exact (applyFilter_topLevel_fields docSec optsNone _ rfl).1
  · exact (applyFilter_topLevel_fields docSec optsNone _ rfl).2.2.2.2

/-- C10: an operation whose request body (resp. some response) is a
reference to a component entry whose `Value` is nil drives the seeding
phase into the unguarded `requestBody.Value.Content`
(resp. `responseBody.Value.Content`) dereference: filtering panics
instead of returning an error value. -/
theorem seeding_nil_value_panics :
    applyFilter docNilRB optsNone = .error (.nilDeref "requestBody.Value") ∧
    applyFilter docNilResp optsNone = .error (.nilDeref "responseBody.Value") :=
  ⟨rfl, rfl⟩

/-- C1 counterexample: filtering `docNot` (validator-acceptable: one
path, one GET operation with a 200 response, well-formed refs) with
pruning yields an output whose retained schema `A` references `B`
through `not`, while `B` is absent from the output's schemas map — the
output is not self-contained. -/
theorem selfContainment_counterexample :
    ∃ out : Doc, applyFilter docNot optsPrune = Except.ok out ∧
      ∃ comps : Components, out.components = some comps ∧
        lookupKey comps.schemas "A" = some schemaA ∧
        SchemaRefersTo schemaA "B" ∧
        lookupKey comps.schemas "B" = none := by
  refine ⟨_, rfl, _, rfl, rfl, ?_, rfl⟩
  exact .value _ _ _ (.nottMem _ _ _ rfl (.direct _ _ _ ⟨by decide, by decide, by decide⟩))

/-- C2 counterexample: for `docNot`, the seed set is `[A]` and `B` is
in the transitive reference closure (via `not`), yet `B` does not
appear in the pruned output: the output is not exactly the closure
(the "every component of the closure is present" half fails). -/
theorem closure_exactness_counterexample :
    InSchemaClosure docNot ["A"] "B" ∧
    (∃ fp tags pr, processPathsAndOperations docNot optsPrune
        (findAllMimeTypes docNot) = .ok (fp, tags, pr) ∧ pr.schemas = ["A"]) ∧
    (∃ out, applyFilter docNot optsPrune = Except.ok out ∧
      ∃ comps, out.components = some comps ∧
        lookupKey comps.schemas "B" = none) := by
  refine ⟨?_, ⟨_, _, _, rfl, rfl⟩, ⟨_, rfl, _, rfl, rfl⟩⟩
  refine .step "A" _ schemaA "B" (.seed "A" (by decide)) rfl rfl ?_
  exact .value _ _ _ (.nottMem _ _ _ rfl (.direct _ _ _ ⟨by decide, by decide, by decide⟩))

/-- C7 counterexample: with the empty filter, an operation-less path is
dropped entirely, and a retained path loses its PathItem-level
parameters — the output paths are not semantically equal to the
input's. -/
theorem emptyFilter_identity_counterexample :
    lookupKey docEmptyPath.paths "/e" = some ⟨[], []⟩ ∧
    (∃ out, applyFilter docEmptyPath optsNone = Except.ok out ∧
      lookupKey out.paths "/e" = none) ∧
    (∃ out2, applyFilter docTwoPaths optsNone = Except.ok out2 ∧
      lookupKey out2.paths "/a" = some ⟨[("GET", opGa)], []⟩ ∧
      lookupKey docTwoPaths.paths "/a" =
        some ⟨[("GET", opGa)], [⟨"#/components/parameters/PP", none⟩]⟩ ∧
      lookupKey out2.paths "/e" = none) :=
  ⟨rfl, ⟨_, rfl, rfl⟩, ⟨_, rfl, rfl, rfl, rfl⟩⟩

/-- C8: whenever a retained operation's inline content carries a schema
reference `r` naming `g` (any valid ref string) and the schema store
lacks `g`, the filter returns `ComponentNotFound` carrying the kind
(schema), the name `g` and the seed context, and produces no output
document. -/
theorem missing_component_fails (r g : String)
    (h : validateRef r "schema.ref" = .ok g) :
    applyFilter (ghostDoc r) optsNone =
      .error (.componentNotFound g "schema" "root") := by
  have hr : r ≠ "" := by
    intro hr0
    rw [hr0] at h
    simp [validateRef] at h
  have hext : extractSchemaReferences (.mk r none) [] = .ok [g] := by
    unfold extractSchemaReferences
    simp [hr, h, insertName]
  have hcs : processContentSchemas [("application/json", ⟨some (.mk r none)⟩)]
      getDefaultMimeTypes [] = .ok [g] := by
    simp [processContentSchemas, contentGet, lookupKey, getDefaultMimeTypes, hext]
  have hmime : findAllMimeTypes (ghostDoc r) = getDefaultMimeTypes := rfl
  have hseed : processPathsAndOperations (ghostDoc r) optsNone getDefaultMimeTypes =
      .ok ([("/x", ⟨[("GET", opWithResp "" r)], []⟩)], [], ⟨[g], [], [], []⟩) := by
    simp [processPathsAndOperations, pathsLoop, ghostDoc, mkDoc, optsNone,
      findMatchingOperations, findMatchingOperationsLoop,
      collectReferencesFromOperation, processOperationRequestBody,
      processOperationParameters, processOperationParametersLoop,
      processOperationResponses, processOperationResponsesLoop,
      opWithResp, respRefTo, hcs, setKey, checkOperationMatches]
  have hres : resolveAllReferences (ghostDoc r) ⟨[g], [], [], []⟩ =
      .error (.componentNotFound g "schema" "root") := by
    simp [resolveAllReferences, resolveSeedSchemas, resolveSchemaRefsRecursively,
      schemaFuel, ghostDoc, mkDoc, emptyComps, lookupKey]
  unfold applyFilter
  simp only [hmime, hseed, hres]

/-- Witness for C8: the spec's own scenario, `Ghost` missing from the
schema store. -/
theorem missing_component_fails_witness :
    applyFilter (ghostDoc "#/components/schemas/Ghost") optsNone =
      .error (.componentNotFound "Ghost" "schema" "root") :=
  missing_component_fails "#/components/schemas/Ghost" "Ghost" rfl

theorem validateRef_ok_iff (ref loc n : String) :
    validateRef ref loc = .ok n ↔ RefNames ref n := by
  unfold validateRef RefNames
  by_cases h1 : ref = ""
  · simp [h1]
  · by_cases h2 : strHasPrefix ref "#/components/" = true
    · simp [h1, h2, eq_comm]
    · simp [h1, h2]

theorem refNames_empty {n : String} (h : RefNames "" n) : False :=
  h.1 rfl

theorem paramsLoop_spec (doc : Doc) (l : List ParameterRef)
    (sAcc pAcc : List String) (res : List String × List String)
    (hok : processOperationParametersLoop doc l sAcc pAcc = .ok res) :
    ∀ n : String, (n ∈ pAcc ∨ ∃ param ∈ l, RefNames param.ref n) →
      n ∈ res.2 := by
  induction l generalizing sAcc pAcc with
  | nil =>
    intro n hn
    rcases hn with hn | ⟨param, hm, _⟩
    · unfold processOperationParametersLoop at hok
      injection hok with hok
      rw [← hok]
      exact hn
    · cases hm
  | cons param rest ih =>
    intro n hn
    unfold processOperationParametersLoop at hok
    split at hok
    · -- param.ref ≠ ""
      next hne =>
      cases hv : validateRef param.ref "parameter" with
      | error e => rw [hv] at hok; cases hok
      | ok paramName =>
        rw [hv] at hok
        simp only [] at hok
        have hmem : ∀ sAcc', processOperationParametersLoop doc rest sAcc'
            (insertName pAcc paramName) = .ok res → n ∈ res.2 := by
          intro sAcc' hok'
          refine ih sAcc' (insertName pAcc paramName) hok' n ?_
          rcases hn with hn | ⟨param', hm, hrn⟩
          · exact Or.inl (mem_insertName_of_mem _ hn)
          · rcases List.mem_cons.mp hm with rfl | hm'
            · left
              have : n = paramName := by
                have h2 := (validateRef_ok_iff _ "parameter" paramName).mp hv
                rw [hrn.2.2.symm, h2.2.2]
              rw [this]
              exact mem_insertName_self _ _
            · exact Or.inr ⟨param', hm', hrn⟩
        -- now case through the remaining matches in hok
        cases hd : derefComponents doc.components "doc.Components.Parameters" with
        | error e => rw [hd] at hok; cases hok
        | ok comps =>
          rw [hd] at hok
          simp only [] at hok
          cases hl : lookupKey comps.parameters paramName with
          | none => rw [hl] at hok; exact hmem _ hok
          | some parameter =>
            rw [hl] at hok
            simp only [] at hok
            cases hpv : parameter.value with
            | none => rw [hpv] at hok; exact hmem _ hok
            | some pv =>
              rw [hpv] at hok
              simp only [] at hok
              cases hs : pv.schema with
              | none => rw [hs] at hok; exact hmem _ hok
              | some s =>
                rw [hs] at hok
                simp only [] at hok
                split at hok
                · cases hv2 : validateRef s.ref "parameter.schema" with
                  | error e => rw [hv2] at hok; cases hok
                  | ok schemaName => rw [hv2] at hok; exact hmem _ hok
                · exact hmem _ hok
    · -- param.ref = ""
      next hne =>
      have hrefEmpty : param.ref = "" := by
        by_contra hc
        exact hne hc
      have hnext : ∀ sAcc', processOperationParametersLoop doc rest sAcc' pAcc
          = .ok res → n ∈ res.2 := by
        intro sAcc' hok'
        refine ih sAcc' pAcc hok' n ?_
        rcases hn with hn | ⟨param', hm, hrn⟩
        · exact Or.inl hn
        · rcases List.mem_cons.mp hm with heq | hm'
          · rw [heq, hrefEmpty] at hrn
            exact absurd hrn refNames_empty
          · exact Or.inr ⟨param', hm', hrn⟩
      cases hpv : param.value with
      | none => rw [hpv] at hok; exact hnext _ hok
      | some pv =>
        rw [hpv] at hok
        simp only [] at hok
        cases hs : pv.schema with
        | none => rw [hs] at hok; exact hnext _ hok
        | some s =>
          rw [hs] at hok
          simp only [] at hok
          split at hok
          · cases hv2 : validateRef s.ref "parameter.schema" with
            | error e => rw [hv2] at hok; cases hok
            | ok schemaName => rw [hv2] at hok; exact hnext _ hok
          · exact hnext _ hok

theorem respLoop_spec (doc : Doc) (mimeTypes : List String)
    (l : List (String × ResponseRef)) (sAcc rAcc : List String)
    (res : List String × List String)
    (hok : processOperationResponsesLoop doc mimeTypes l sAcc rAcc = .ok res) :
    ∀ n : String,
      (n ∈ rAcc ∨ ∃ k : String, ∃ r : ResponseRef, (k, r) ∈ l ∧ RefNames r.ref n) →
      n ∈ res.2 := by
  induction l generalizing sAcc rAcc with
  | nil =>
    intro n hn
    rcases hn with hn | ⟨k, r, hm, _⟩
    · unfold processOperationResponsesLoop at hok
      injection hok with hok
      rw [← hok]
      exact hn
    · cases hm
  | cons hd rest ih =>
    obtain ⟨key, response⟩ := hd
    intro n hn
    unfold processOperationResponsesLoop at hok
    split at hok
    · next hne =>
      cases hv : validateRef response.ref "response" with
      | error e => rw [hv] at hok; cases hok
      | ok responseName =>
        rw [hv] at hok
        simp only [] at hok
        have hmem : ∀ sAcc', processOperationResponsesLoop doc mimeTypes rest
            sAcc' (insertName rAcc responseName) = .ok res → n ∈ res.2 := by
          intro sAcc' hok'
          refine ih sAcc' (insertName rAcc responseName) hok' n ?_
          rcases hn with hn | ⟨k, r, hm, hrn⟩
          · exact Or.inl (mem_insertName_of_mem _ hn)
          · rcases List.mem_cons.mp hm with heq | hm'
            · left
              have h2 := (validateRef_ok_iff _ "response" responseName).mp hv
              injection heq with heq1 heq2
              rw [heq2] at hrn
              have : n = responseName := by rw [hrn.2.2.symm, h2.2.2]
              rw [this]
              exact mem_insertName_self _ _
            · exact Or.inr ⟨k, r, hm', hrn⟩
        cases hd2 : derefComponents doc.components "doc.Components.Responses" with
        | error e => rw [hd2] at hok; cases hok
        | ok comps =>
          rw [hd2] at hok
          simp only [] at hok
          cases hl : lookupKey comps.responses responseName with
          | none => rw [hl] at hok; exact hmem _ hok
          | some responseBody =>
            rw [hl] at hok
            simp only [] at hok
            cases hbv : responseBody.value with
            | none => rw [hbv] at hok; cases hok
            | some rv =>
              rw [hbv] at hok
              simp only [] at hok
              cases hcs : processContentSchemas rv.content mimeTypes sAcc with
              | error e => rw [hcs] at hok; cases hok
              | ok sAcc' => rw [hcs] at hok; exact hmem _ hok
    · next hne =>
      have hrefEmpty : response.ref = "" := by
        by_contra hc
        exact hne hc
      have hnext : ∀ sAcc', processOperationResponsesLoop doc mimeTypes rest
          sAcc' rAcc = .ok res → n ∈ res.2 := by
        intro sAcc' hok'
        refine ih sAcc' rAcc hok' n ?_
        rcases hn with hn | ⟨k, r, hm, hrn⟩
        · exact Or.inl hn
        · rcases List.mem_cons.mp hm with heq | hm'
          · injection heq with heq1 heq2
            rw [heq2, hrefEmpty] at hrn
            exact absurd hrn refNames_empty
          · exact Or.inr ⟨k, r, hm', hrn⟩
      cases hrv : response.value with
      | none => rw [hrv] at hok; exact hnext _ hok
      | some rv =>
        rw [hrv] at hok
        simp only [] at hok
        cases hcs : processContentSchemas rv.content mimeTypes sAcc with
        | error e => rw [hcs] at hok; cases hok
        | ok sAcc' => rw [hcs] at hok; exact hnext _ hok

theorem requestBody_spec (doc : Doc) (operation : Operation)
    (mimeTypes : List String) (sAcc rbAcc : List String)
    (res : List String × List String)
    (hok : processOperationRequestBody doc operation mimeTypes sAcc rbAcc = .ok res) :
    ∀ n : String,
      (n ∈ rbAcc ∨ ∃ rb : RequestBodyRef, operation.requestBody = some rb ∧
        RefNames rb.ref n) →
      n ∈ res.2 := by
  intro n hn
  unfold processOperationRequestBody at hok
  cases hrb : operation.requestBody with
  | none =>
    rw [hrb] at hok
    injection hok with hok
    rw [← hok]
    rcases hn with hn | ⟨rb, hm, _⟩
    · exact hn
    · rw [hrb] at hm; cases hm
  | some rb =>
    rw [hrb] at hok
    simp only [] at hok
    have hbase : ∀ v, res.2 = insertName rbAcc v →
        (∀ m, RefNames rb.ref m → m = v) → n ∈ res.2 := by
      intro v hres huniq
      rw [hres]
      rcases hn with hn | ⟨rb', hm, hrn⟩
      · exact mem_insertName_of_mem _ hn
      · rw [hrb] at hm
        injection hm with hm
        rw [← hm] at hrn
        rw [huniq n hrn]
        exact mem_insertName_self _ _
    split at hok
    · next hne =>
      cases hv : validateRef rb.ref "requestBody" with
      | error e => rw [hv] at hok; cases hok
      | ok requestBodyName =>
        rw [hv] at hok
        simp only [] at hok
        have h2 := (validateRef_ok_iff _ "requestBody" requestBodyName).mp hv
        have huniq : ∀ m, RefNames rb.ref m → m = requestBodyName := by
          intro m hrn
          rw [hrn.2.2.symm, h2.2.2]
        cases hd2 : derefComponents doc.components "doc.Components.RequestBodies" with
        | error e => rw [hd2] at hok; cases hok
        | ok comps =>
          rw [hd2] at hok
          simp only [] at hok
          cases hl : lookupKey comps.requestBodies requestBodyName with
          | none =>
            rw [hl] at hok
            injection hok with hok
            exact hbase requestBodyName (by rw [← hok]) huniq
          | some requestBody =>
            rw [hl] at hok
            simp only [] at hok
            cases hbv : requestBody.value with
            | none => rw [hbv] at hok; cases hok
            | some rbv =>
              rw [hbv] at hok
              simp only [] at hok
              cases hcs : processContentSchemas rbv.content mimeTypes sAcc with
              | error e => rw [hcs] at hok; cases hok
              | ok sAcc' =>
                rw [hcs] at hok
                injection hok with hok
                exact hbase requestBodyName (by rw [← hok]) huniq
    · next hne =>
      have hrefEmpty : rb.ref = "" := by
        by_contra hc
        exact hne hc
      have hnores : ∀ m, RefNames rb.ref m → False := by
        intro m hrn
        rw [hrefEmpty] at hrn
        exact refNames_empty hrn
      have hsame : res.2 = rbAcc → n ∈ res.2 := by
        intro hres
        rw [hres]
        rcases hn with hn | ⟨rb', hm, hrn⟩
        · exact hn
        · rw [hrb] at hm
          injection hm with hm
          rw [← hm] at hrn
          exact absurd hrn (fun h => hnores n h)
      cases hrv : rb.value with
      | none => rw [hrv] at hok; injection hok with hok; exact hsame (by rw [← hok])
      | some rbv =>
        rw [hrv] at hok
        simp only [] at hok
        cases hcs : processContentSchemas rbv.content mimeTypes sAcc with
        | error e => rw [hcs] at hok; cases hok
        | ok sAcc' =>
          rw [hcs] at hok
          injection hok with hok
          exact hsame (by rw [← hok])

theorem opRefsCollected_mono {o : Operation} {a b : ProcessedRefs}
    (hc : OpRefsCollected o a)
    (hrb : a.requestBodies ⊆ b.requestBodies)
    (hp : a.parameters ⊆ b.parameters)
    (hr : a.responses ⊆ b.responses) : OpRefsCollected o b := by
  obtain ⟨h1, h2, h3⟩ := hc
  exact ⟨fun rb hm n hn => hrb (h1 rb hm n hn),
    fun param hm n hn => hp (h2 param hm n hn),
    fun k r hm n hn => hr (h3 k r hm n hn)⟩

theorem collect_spec (doc : Doc) (operation : Operation)
    (mimeTypes : List String) (pr pr' : ProcessedRefs)
    (hok : collectReferencesFromOperation doc operation mimeTypes pr = .ok pr') :
    OpRefsCollected operation pr' ∧
      pr.requestBodies ⊆ pr'.requestBodies ∧
      pr.parameters ⊆ pr'.parameters ∧
      pr.responses ⊆ pr'.responses := by
  unfold collectReferencesFromOperation at hok
  cases h1 : processOperationRequestBody doc operation mimeTypes pr.schemas
      pr.requestBodies with
  | error e => rw [h1] at hok; cases hok
  | ok p1 =>
    obtain ⟨s1, rb1⟩ := p1
    rw [h1] at hok
    simp only [] at hok
    cases h2 : processOperationParameters doc operation s1 pr.parameters with
    | error e => rw [h2] at hok; cases hok
    | ok p2 =>
      obtain ⟨s2, pa2⟩ := p2
      rw [h2] at hok
      simp only [] at hok
      cases h3 : processOperationResponses doc operation mimeTypes s2 pr.responses with
      | error e => rw [h3] at hok; cases hok
      | ok p3 =>
        obtain ⟨s3, r3⟩ := p3
        rw [h3] at hok
        injection hok with hok
        rw [← hok]
        have hrbs := requestBody_spec doc operation mimeTypes pr.schemas
          pr.requestBodies (s1, rb1) h1
        have hps := paramsLoop_spec doc operation.parameters s1 pr.parameters
          (s2, pa2) h2
        have hrs := respLoop_spec doc mimeTypes operation.responses s2
          pr.responses (s3, r3) h3
        refine ⟨⟨?_, ?_, ?_⟩, ?_, ?_, ?_⟩
        · intro rb hm n hn
          exact hrbs n (Or.inr ⟨rb, hm, hn⟩)
        · intro param hm n hn
          exact hps n (Or.inr ⟨param, hm, hn⟩)
        · intro k r hm n hn
          exact hrs n (Or.inr ⟨k, r, hm, hn⟩)
        · intro x hx
          exact hrbs x (Or.inl hx)
        · intro x hx
          exact hps x (Or.inl hx)
        · intro x hx
          exact hrs x (Or.inl hx)

theorem pair_mem_setKey_elim {α : Type} {l : List (String × α)} {q k : String}
    {qv v : α} (h : (q, qv) ∈ setKey l k v) : (q, qv) ∈ l ∨ (q, qv) = (k, v) := by
  induction l with
  | nil => simpa [setKey] using h
  | cons hd tl ih =>
    obtain ⟨k', v'⟩ := hd
    unfold setKey at h
    by_cases hk : k' = k
    · subst hk
      rw [if_pos rfl] at h
      rcases List.mem_cons.mp h with h' | h'
      · exact Or.inr h'
      · exact Or.inl (List.mem_cons_of_mem _ h')
    · simp only [hk, if_false] at h
      rcases List.mem_cons.mp h with h' | h'
      · exact Or.inl (List.mem_cons.mpr (Or.inl h'))
      · rcases ih h' with h'' | h''
        · exact Or.inl (List.mem_cons_of_mem _ h'')
        · exact Or.inr h''

theorem allOpsLoop_spec (doc : Doc) (mimeTypes : List String)
    (l : List (String × Operation)) (tags : List String) (pr : ProcessedRefs)
    (res : List String × ProcessedRefs)
    (hok : processAllOperationsInPathLoop doc mimeTypes l tags pr = .ok res) :
    tags ⊆ res.1 ∧
    pr.requestBodies ⊆ res.2.requestBodies ∧
    pr.parameters ⊆ res.2.parameters ∧
    pr.responses ⊆ res.2.responses ∧
    ∀ m : String, ∀ o : Operation, (m, o) ∈ l →
      OpRefsCollected o res.2 ∧ (∀ t ∈ o.tags, t ∈ res.1) := by
  induction l generalizing tags pr with
  | nil =>
    unfold processAllOperationsInPathLoop at hok
    injection hok with hok
    rw [← hok]
    exact ⟨fun _ h => h, fun _ h => h, fun _ h => h, fun _ h => h,
      fun m o hm => absurd hm (List.not_mem_nil _)⟩
  | cons hd rest ih =>
    obtain ⟨method, operation⟩ := hd
    unfold processAllOperationsInPathLoop at hok
    cases hc : collectReferencesFromOperation doc operation mimeTypes pr with
    | error e => rw [hc] at hok; cases hok
    | ok pr' =>
      rw [hc] at hok
      simp only [] at hok
      obtain ⟨htags, hrb, hp, hr, hops⟩ :=
        ih (operation.tags.foldl insertName tags) pr' hok
      obtain ⟨hcol, hrb', hp', hr'⟩ := collect_spec doc operation mimeTypes pr pr' hc
      refine ⟨fun t ht => htags (subset_foldl_insertName _ _ ht),
        fun x hx => hrb (hrb' hx), fun x hx => hp (hp' hx),
        fun x hx => hr (hr' hx), ?_⟩
      intro m o hm
      rcases List.mem_cons.mp hm with heq | hm'
      · injection heq with heq1 heq2
        subst heq2
        refine ⟨opRefsCollected_mono hcol hrb hp hr, ?_⟩
        intro t ht
        exact htags (mem_foldl_insertName_of_mem_list _ ht)
      · exact hops m o hm'

theorem matchLoop_spec (doc : Doc) (opts : FilterOptions)
    (mimeTypes : List String) (l matched : List (String × Operation))
    (tags : List String) (pr : ProcessedRefs)
    (res : List (String × Operation) × List String × ProcessedRefs)
    (hok : findMatchingOperationsLoop doc opts mimeTypes l matched tags pr = .ok res)
    (hacc : ∀ m : String, ∀ o : Operation, (m, o) ∈ matched →
      OpRefsCollected o pr ∧ (∀ t ∈ o.tags, t ∈ tags)) :
    tags ⊆ res.2.1 ∧
    pr.requestBodies ⊆ res.2.2.requestBodies ∧
    pr.parameters ⊆ res.2.2.parameters ∧
    pr.responses ⊆ res.2.2.responses ∧
    ∀ m : String, ∀ o : Operation, (m, o) ∈ res.1 →
      OpRefsCollected o res.2.2 ∧ (∀ t ∈ o.tags, t ∈ res.2.1) := by
  induction l generalizing matched tags pr with
  | nil =>
    unfold findMatchingOperationsLoop at hok
    injection hok with hok
    rw [← hok]
    exact ⟨fun _ h => h, fun _ h => h, fun _ h => h, fun _ h => h,
      fun m o hm => hacc m o hm⟩
  | cons hd rest ih =>
    obtain ⟨method, operation⟩ := hd
    unfold findMatchingOperationsLoop at hok
    split at hok
    · cases hc : collectReferencesFromOperation doc operation mimeTypes pr with
      | error e => rw [hc] at hok; cases hok
      | ok pr' =>
        rw [hc] at hok
        simp only [] at hok
        obtain ⟨hcol, hrb', hp', hr'⟩ := collect_spec doc operation mimeTypes pr pr' hc
        refine ?_
        have hacc' : ∀ m : String, ∀ o : Operation,
            (m, o) ∈ matched ++ [(method, operation)] →
            OpRefsCollected o pr' ∧
              (∀ t ∈ o.tags, t ∈ operation.tags.foldl insertName tags) := by
          intro m o hm
          rcases List.mem_append.mp hm with hm' | hm'
          · obtain ⟨h1, h2⟩ := hacc m o hm'
            exact ⟨opRefsCollected_mono h1 hrb' hp' hr',
              fun t ht => subset_foldl_insertName _ _ (h2 t ht)⟩
          · rcases List.mem_singleton.mp hm' with heq
            injection heq with heq1 heq2
            subst heq2
            exact ⟨hcol, fun t ht => mem_foldl_insertName_of_mem_list _ ht⟩
        obtain ⟨htags, hrb, hp, hr, hops⟩ :=
          ih (matched ++ [(method, operation)])
            (operation.tags.foldl insertName tags) pr' hok hacc'
        exact ⟨fun t ht => htags (subset_foldl_insertName _ _ ht),
          fun x hx => hrb (hrb' hx), fun x hx => hp (hp' hx),
          fun x hx => hr (hr' hx), hops⟩
    · exact ih matched tags pr hok hacc

theorem pathsLoop_spec (doc : Doc) (opts : FilterOptions)
    (mimeTypes : List String) (l fp : List (String × PathItem))
    (tags : List String) (pr : ProcessedRefs)
    (res : List (String × PathItem) × List String × ProcessedRefs)
    (hok : pathsLoop doc opts mimeTypes l fp tags pr = .ok res)
    (hinv : ∀ p : String, ∀ pi : PathItem, (p, pi) ∈ fp →
      ∀ m : String, ∀ o : Operation, (m, o) ∈ pi.operations →
        OpRefsCollected o pr ∧ (∀ t ∈ o.tags, t ∈ tags)) :
    tags ⊆ res.2.1 ∧
    pr.requestBodies ⊆ res.2.2.requestBodies ∧
    pr.parameters ⊆ res.2.2.parameters ∧
    pr.responses ⊆ res.2.2.responses ∧
    ∀ p : String, ∀ pi : PathItem, (p, pi) ∈ res.1 →
      ∀ m : String, ∀ o : Operation, (m, o) ∈ pi.operations →
        OpRefsCollected o res.2.2 ∧ (∀ t ∈ o.tags, t ∈ res.2.1) := by
  induction l generalizing fp tags pr with
  | nil =>
    unfold pathsLoop at hok
    injection hok with hok
    rw [← hok]
    exact ⟨fun _ h => h, fun _ h => h, fun _ h => h, fun _ h => h, hinv⟩
  | cons hd rest ih =>
    obtain ⟨path, pathItem⟩ := hd
    unfold pathsLoop at hok
    split at hok
    · -- path-prefix branch
      cases ha : processAllOperationsInPath doc pathItem mimeTypes tags pr with
      | error e => rw [ha] at hok; cases hok
      | ok p1 =>
        obtain ⟨tags', pr'⟩ := p1
        rw [ha] at hok
        simp only [] at hok
        obtain ⟨htags, hrb, hp, hr, hops⟩ :=
          allOpsLoop_spec doc mimeTypes pathItem.operations tags pr
            (tags', pr') ha
        refine ?_
        have hinv' : ∀ p : String, ∀ pi : PathItem,
            (p, pi) ∈ setKey fp path pathItem →
            ∀ m : String, ∀ o : Operation, (m, o) ∈ pi.operations →
              OpRefsCollected o pr' ∧ (∀ t ∈ o.tags, t ∈ tags') := by
          intro p pi hm m o hmo
          rcases pair_mem_setKey_elim hm with hm' | hm'
          · obtain ⟨h1, h2⟩ := hinv p pi hm' m o hmo
            exact ⟨opRefsCollected_mono h1 hrb hp hr,
              fun t ht => htags (h2 t ht)⟩
          · injection hm' with hm1 hm2
            subst hm2
            exact hops m o hmo
        obtain ⟨htags2, hrb2, hp2, hr2, hout⟩ := ih _ tags' pr' hok hinv'
        exact ⟨fun t ht => htags2 (htags ht), fun x hx => hrb2 (hrb hx),
          fun x hx => hp2 (hp hx), fun x hx => hr2 (hr hx), hout⟩
    · -- per-operation branch
      cases hf : findMatchingOperations doc pathItem opts mimeTypes tags pr with
      | error e => rw [hf] at hok; cases hok
      | ok p1 =>
        obtain ⟨matchedOps, tags', pr'⟩ := p1
        rw [hf] at hok
        simp only [] at hok
        obtain ⟨htags, hrb, hp, hr, hops⟩ :=
          matchLoop_spec doc opts mimeTypes pathItem.operations [] tags pr
            (matchedOps, tags', pr') hf
            (fun m o hm => absurd hm (List.not_mem_nil _))
        split at hok
        · -- inserted new PathItem with matched operations
          have hinv' : ∀ p : String, ∀ pi : PathItem,
              (p, pi) ∈ setKey fp path ⟨matchedOps, []⟩ →
              ∀ m : String, ∀ o : Operation, (m, o) ∈ pi.operations →
                OpRefsCollected o pr' ∧ (∀ t ∈ o.tags, t ∈ tags') := by
            intro p pi hm m o hmo
            rcases pair_mem_setKey_elim hm with hm' | hm'
            · obtain ⟨h1, h2⟩ := hinv p pi hm' m o hmo
              exact ⟨opRefsCollected_mono h1 hrb hp hr,
                fun t ht => htags (h2 t ht)⟩
            · injection hm' with hm1 hm2
              subst hm2
              exact hops m o hmo
          obtain ⟨htags2, hrb2, hp2, hr2, hout⟩ := ih _ tags' pr' hok hinv'
          exact ⟨fun t ht => htags2 (htags ht), fun x hx => hrb2 (hrb hx),
            fun x hx => hp2 (hp hx), fun x hx => hr2 (hr hx), hout⟩
        · -- nothing inserted
          have hinv' : ∀ p : String, ∀ pi : PathItem, (p, pi) ∈ fp →
              ∀ m : String, ∀ o : Operation, (m, o) ∈ pi.operations →
                OpRefsCollected o pr' ∧ (∀ t ∈ o.tags, t ∈ tags') := by
            intro p pi hm m o hmo
            obtain ⟨h1, h2⟩ := hinv p pi hm m o hmo
            exact ⟨opRefsCollected_mono h1 hrb hp hr,
              fun t ht => htags (h2 t ht)⟩
          obtain ⟨htags2, hrb2, hp2, hr2, hout⟩ := ih _ tags' pr' hok hinv'
          exact ⟨fun t ht => htags2 (htags ht), fun x hx => hrb2 (hrb hx),
            fun x hx => hp2 (hp hx), fun x hx => hr2 (hr hx), hout⟩

theorem pathsLoop_lookup_frame (doc : Doc) (opts : FilterOptions)
    (mimeTypes : List String) (l fp : List (String × PathItem))
    (tags : List String) (pr : ProcessedRefs)
    (res : List (String × PathItem) × List String × ProcessedRefs)
    (p : String)
    (hok : pathsLoop doc opts mimeTypes l fp tags pr = .ok res)
    (hnp : p ∉ keys l) :
    lookupKey res.1 p = lookupKey fp p := by
  induction l generalizing fp tags pr with
  | nil =>
    unfold pathsLoop at hok
    injection hok with hok
    rw [← hok]
  | cons hd rest ih =>
    obtain ⟨path, pathItem⟩ := hd
    have hpp : p ≠ path := by
      intro h
      exact hnp (by simp [keys, h])
    have hnp' : p ∉ keys rest := by
      intro h
      exact hnp (by simp [keys] at h ⊢; exact Or.inr h)
    unfold pathsLoop at hok
    split at hok
    · cases ha : processAllOperationsInPath doc pathItem mimeTypes tags pr with
      | error e => rw [ha] at hok; cases hok
      | ok p1 =>
        obtain ⟨tags', pr'⟩ := p1
        rw [ha] at hok
        simp only [] at hok
        rw [ih _ tags' pr' hok hnp']
        exact lookupKey_setKey_ne fp pathItem hpp
    · cases hf : findMatchingOperations doc pathItem opts mimeTypes tags pr with
      | error e => rw [hf] at hok; cases hok
      | ok p1 =>
        obtain ⟨matchedOps, tags', pr'⟩ := p1
        rw [hf] at hok
        simp only [] at hok
        split at hok
        · rw [ih _ tags' pr' hok hnp']
          exact lookupKey_setKey_ne fp _ hpp
        · exact ih _ tags' pr' hok hnp'

theorem pathsLoop_prefix_insert (doc : Doc) (opts : FilterOptions)
    (mimeTypes : List String) (l fp : List (String × PathItem))
    (tags : List String) (pr : ProcessedRefs)
    (res : List (String × PathItem) × List String × ProcessedRefs)
    (p : String) (pi : PathItem)
    (hok : pathsLoop doc opts mimeTypes l fp tags pr = .ok res)
    (hmem : (p, pi) ∈ l)
    (hnd : (keys l).Nodup)
    (hne : opts.paths ≠ [])
    (hmatch : pathMatchesFilter p opts.paths = true) :
    lookupKey res.1 p = some pi := by
  induction l generalizing fp tags pr with
  | nil => cases hmem
  | cons hd rest ih =>
    obtain ⟨path, pathItem⟩ := hd
    have hndr : (keys rest).Nodup := by
      simpa [keys] using hnd.of_cons
    rcases List.mem_cons.mp hmem with heq | hmem'
    · injection heq with heq1 heq2
      subst heq1
      subst heq2
      have hnp' : p ∉ keys rest := by
        have h1 := hnd
        simp [keys] at h1
        intro h
        obtain ⟨⟨a, b⟩, hmem2, hfst⟩ := List.mem_map.mp h
        cases hfst
        exact h1.1 b hmem2
      have hlen : opts.paths.length > 0 := by
        cases hops : opts.paths with
        | nil => exact absurd hops hne
        | cons a as => simp [hops]
      unfold pathsLoop at hok
      rw [if_pos (by simp [hlen, hmatch])] at hok
      cases ha : processAllOperationsInPath doc pi mimeTypes tags pr with
      | error e => rw [ha] at hok; cases hok
      | ok p1 =>
        obtain ⟨tags', pr'⟩ := p1
        rw [ha] at hok
        simp only [] at hok
        rw [pathsLoop_lookup_frame doc opts mimeTypes rest _ tags' pr' res p
          hok hnp']
        exact lookupKey_setKey_self fp p pi
    · have hppath : p ≠ path := by
        intro h
        subst h
        have h1 := hnd
        simp [keys] at h1
        exact h1.1 pi hmem'
      unfold pathsLoop at hok
      split at hok
      · cases ha : processAllOperationsInPath doc pathItem mimeTypes tags pr with
        | error e => rw [ha] at hok; cases hok
        | ok p1 =>
          obtain ⟨tags', pr'⟩ := p1
          rw [ha] at hok
          simp only [] at hok
          exact ih _ tags' pr' hok hmem' hndr
      · cases hf : findMatchingOperations doc pathItem opts mimeTypes tags pr with
        | error e => rw [hf] at hok; cases hok
        | ok p1 =>
          obtain ⟨matchedOps, tags', pr'⟩ := p1
          rw [hf] at hok
          simp only [] at hok
          split at hok
          · exact ih _ tags' pr' hok hmem' hndr
          · exact ih _ tags' pr' hok hmem' hndr

theorem checkOperationMatches_allEmpty (o : Operation) (m : String) (pc : Bool) :
    checkOperationMatches o m ⟨[], [], [], pc⟩ = true := rfl

theorem matchLoop_emptyFilter (doc : Doc) (pc : Bool) (mimeTypes : List String)
    (l matched : List (String × Operation)) (tags : List String)
    (pr : ProcessedRefs)
    (res : List (String × Operation) × List String × ProcessedRefs)
    (hok : findMatchingOperationsLoop doc ⟨[], [], [], pc⟩ mimeTypes l matched
      tags pr = .ok res) :
    res.1 = matched ++ l := by
  induction l generalizing matched tags pr with
  | nil =>
    unfold findMatchingOperationsLoop at hok
    injection hok with hok
    rw [← hok]
    simp
  | cons hd rest ih =>
    obtain ⟨method, operation⟩ := hd
    unfold findMatchingOperationsLoop at hok
    rw [if_pos (checkOperationMatches_allEmpty operation method pc)] at hok
    cases hc : collectReferencesFromOperation doc operation mimeTypes pr with
    | error e => rw [hc] at hok; cases hok
    | ok pr' =>
      rw [hc] at hok
      simp only [] at hok
      rw [ih _ _ pr' hok]
      simp

theorem pathsLoop_emptyFilter_lookup (doc : Doc) (pc : Bool)
    (mimeTypes : List String) (l fp : List (String × PathItem))
    (tags : List String) (pr : ProcessedRefs)
    (res : List (String × PathItem) × List String × ProcessedRefs)
    (p : String) (pi : PathItem)
    (hok : pathsLoop doc ⟨[], [], [], pc⟩ mimeTypes l fp tags pr = .ok res)
    (hmem : (p, pi) ∈ l)
    (hnd : (keys l).Nodup) :
    (pi.operations ≠ [] → lookupKey res.1 p = some ⟨pi.operations, []⟩) ∧
    (pi.operations = [] → lookupKey res.1 p = lookupKey fp p) := by
  induction l generalizing fp tags pr with
  | nil => cases hmem
  | cons hd rest ih =>
    obtain ⟨path, pathItem⟩ := hd
    have hndr : (keys rest).Nodup := by
      simpa [keys] using hnd.of_cons
    rcases List.mem_cons.mp hmem with heq | hmem'
    · injection heq with heq1 heq2
      subst heq1
      subst heq2
      have hnp' : p ∉ keys rest := by
        have h1 := hnd
        simp [keys] at h1
        intro h
        obtain ⟨⟨a, b⟩, hmem2, hfst⟩ := List.mem_map.mp h
        cases hfst
        exact h1.1 b hmem2
      unfold pathsLoop at hok
      rw [if_neg (by simp)] at hok
      cases hf : findMatchingOperations doc pi ⟨[], [], [], pc⟩ mimeTypes tags pr with
      | error e => rw [hf] at hok; cases hok
      | ok p1 =>
        obtain ⟨matchedOps, tags', pr'⟩ := p1
        rw [hf] at hok
        simp only [] at hok
        have hmeq : matchedOps = pi.operations := by
          have := matchLoop_emptyFilter doc pc mimeTypes pi.operations [] tags pr
            (matchedOps, tags', pr') hf
          simpa using this
        subst hmeq
        split at hok
        · next hlen =>
          constructor
          · intro _
            rw [pathsLoop_lookup_frame doc _ mimeTypes rest _ tags' pr' res p
              hok hnp']
            exact lookupKey_setKey_self fp p _
          · intro hops
            rw [hops] at hlen
            simp at hlen
        · next hlen =>
          have hops : pi.operations = [] := by
            cases hm2 : pi.operations with
            | nil => rfl
            | cons a b => rw [hm2] at hlen; simp at hlen
          constructor
          · intro hne
            exact absurd hops hne
          · intro _
            exact pathsLoop_lookup_frame doc _ mimeTypes rest _ tags' pr' res p
              hok hnp'
    · have hppath : p ≠ path := by
        intro h
        subst h
        have h1 := hnd
        simp [keys] at h1
        exact h1.1 pi hmem'
      unfold pathsLoop at hok
      rw [if_neg (by simp)] at hok
      cases hf : findMatchingOperations doc pathItem ⟨[], [], [], pc⟩ mimeTypes
          tags pr with
      | error e => rw [hf] at hok; cases hok
      | ok p1 =>
        obtain ⟨matchedOps, tags', pr'⟩ := p1
        rw [hf] at hok
        simp only [] at hok
        split at hok
        · have := ih _ tags' pr' hok hmem' hndr
          refine ⟨this.1, fun hops => ?_⟩
          rw [this.2 hops]
          exact lookupKey_setKey_ne fp _ hppath
        · exact ih _ tags' pr' hok hmem' hndr

theorem applyFilter_ok_elim (doc : Doc) (opts : FilterOptions) (out : Doc)
    (hok : applyFilter doc opts = .ok out) :
    ∃ fp : List (String × PathItem), ∃ tags : List String,
      ∃ pr : ProcessedRefs, ∃ fc : FilteredComponents,
      processPathsAndOperations doc opts (findAllMimeTypes doc) =
        .ok (fp, tags, pr) ∧
      resolveAllReferences doc pr = .ok fc ∧
      out = { openapi := doc.openapi, info := doc.info,
              servers := doc.servers, externalDocs := doc.externalDocs,
              security := [], tags := processUsedTags doc tags, paths := fp,
              components := some (assembleComponents doc
                (if opts.pruneComponents then pruneUnusedComponents fc pr
                 else fc)) } := by
  unfold applyFilter at hok
  cases hp : processPathsAndOperations doc opts (findAllMimeTypes doc) with
  | error e => simp [hp] at hok
  | ok trip =>
    obtain ⟨fp, tags, pr⟩ := trip
    simp only [hp] at hok
    cases hr : resolveAllReferences doc pr with
    | error e => simp [hr] at hok
    | ok fc =>
      simp only [hr] at hok
      injection hok with hok
      exact ⟨fp, tags, pr, fc, rfl, hr, hok.symm⟩

/-- C4: when the Paths filter is non-empty and some element is a
byte-level prefix of `p`, the whole PathItem at `p` is inserted into
the output unchanged (aliased, including PathItem-level fields), and
every operation inside it is treated as selected: its tags flow into
the output tag list (and its references into the collected sets),
without the operation or tag predicates being consulted. -/
theorem pathPrefix_shortCircuit (doc : Doc) (opts : FilterOptions) (out : Doc)
    (p : String) (pi : PathItem)
    (hnd : (keys doc.paths).Nodup)
    (hne : opts.paths ≠ [])
    (hm : pathMatchesFilter p opts.paths = true)
    (hmem : (p, pi) ∈ doc.paths)
    (hok : applyFilter doc opts = .ok out) :
    lookupKey out.paths p = some pi ∧
    ∀ m : String, ∀ o : Operation, (m, o) ∈ pi.operations →
      ∀ t ∈ o.tags, t ∈ doc.tags → t ∈ out.tags := by
  obtain ⟨fp, tags, pr, fc, hseed, hres, hout⟩ :=
    applyFilter_ok_elim doc opts out hok
  have hpaths : out.paths = fp := by rw [hout]
  have htagsq : out.tags = processUsedTags doc tags := by rw [hout]
  unfold processPathsAndOperations at hseed
  have hlk : lookupKey fp p = some pi :=
    pathsLoop_prefix_insert doc opts _ doc.paths [] [] ⟨[], [], [], []⟩
      (fp, tags, pr) p pi hseed hmem hnd hne hm
  refine ⟨by rw [hpaths]; exact hlk, ?_⟩
  intro m o hmo t ht htdoc
  have hpair := pair_mem_of_lookupKey hlk
  obtain ⟨_, _, _, _, hout2⟩ := pathsLoop_spec doc opts _ doc.paths [] []
    ⟨[], [], [], []⟩ (fp, tags, pr) hseed
    (fun p' pi' hm' => absurd hm' (List.not_mem_nil _))
  have htin : t ∈ tags := (hout2 p pi hpair m o hmo).2 t ht
  rw [htagsq]
  unfold processUsedTags
  have hlen : tags.length > 0 := by
    cases htg : tags with
    | nil => rw [htg] at htin; cases htin
    | cons a b => simp
  rw [if_pos hlen]
  exact List.mem_filter.mpr ⟨htdoc, (contains_iff_mem _ _).mpr htin⟩

/-- Witness for C4: the prefix `/users` retains the whole PathItem at
`/users/a`, including its PathItem-level parameter, and its tag. -/
theorem pathPrefix_shortCircuit_witness :
    ∃ out : Doc, applyFilter docPrefix ⟨["/users"], [], [], false⟩ =
        Except.ok out ∧
      lookupKey out.paths "/users/a" = some piUsers ∧
      "tg" ∈ out.tags := by
  refine ⟨_, rfl, ?_, ?_⟩
  · exact (pathPrefix_shortCircuit docPrefix ⟨["/users"], [], [], false⟩ _
      "/users/a" piUsers (by decide) (by decide) (by decide)
      (List.mem_singleton.mpr rfl) rfl).1
  · exact (pathPrefix_shortCircuit docPrefix ⟨["/users"], [], [], false⟩ _
      "/users/a" piUsers (by decide) (by decide) (by decide)
      (List.mem_singleton.mpr rfl) rfl).2 "GET" opListU
      (List.mem_singleton.mpr rfl) "tg" (by decide) (by decide)

/-- C7 (amended): with the empty filter every path that holds at least
one operation is present in the output with exactly its original
operations in their original method slots, but in a fresh PathItem
whose top-level fields are dropped; a path with no operations is
dropped entirely.  (The claim's "semantically equal in paths" fails on
both counts; see the counterexample.) -/
theorem emptyFilter_paths_behavior (doc : Doc) (pc : Bool) (out : Doc)
    (p : String) (pi : PathItem)
    (hnd : (keys doc.paths).Nodup)
    (hmem : (p, pi) ∈ doc.paths)
    (hok : applyFilter doc ⟨[], [], [], pc⟩ = .ok out) :
    (pi.operations ≠ [] → lookupKey out.paths p = some ⟨pi.operations, []⟩) ∧
    (pi.operations = [] → lookupKey out.paths p = none) := by
  obtain ⟨fp, tags, pr, fc, hseed, hres, hout⟩ :=
    applyFilter_ok_elim doc ⟨[], [], [], pc⟩ out hok
  have hpaths : out.paths = fp := by rw [hout]
  unfold processPathsAndOperations at hseed
  have := pathsLoop_emptyFilter_lookup doc pc _ doc.paths [] [] ⟨[], [], [], []⟩
    (fp, tags, pr) p pi hseed hmem hnd
  rw [hpaths]
  exact this

/-- Witness for C7: in `docTwoPaths`, the path `/a` (one GET operation)
is retained with exactly that operation, and the operation-less `/e` is
dropped. -/
theorem emptyFilter_paths_behavior_witness :
    ∃ out : Doc, applyFilter docTwoPaths ⟨[], [], [], false⟩ = Except.ok out ∧
      lookupKey out.paths "/a" = some ⟨[("GET", opGa)], []⟩ ∧
      lookupKey out.paths "/e" = none := by
  refine ⟨_, rfl, ?_, ?_⟩
  · exact (emptyFilter_paths_behavior docTwoPaths false _ "/a"
      ⟨[("GET", opGa)], [⟨"#/components/parameters/PP", none⟩]⟩ (by decide)
      (List.mem_cons_self _ _) rfl).1 (List.cons_ne_nil _ _)
  · exact (emptyFilter_paths_behavior docTwoPaths false _ "/e" ⟨[], []⟩
      (by decide) (List.mem_cons_of_mem _ (List.mem_singleton.mpr rfl)) rfl).2
      rfl

theorem resolveRequestBodyRefs_keys (comps : Components) (names : List String)
    (acc res : List (String × RequestBodyRef))
    (hok : resolveRequestBodyRefs comps names acc = .ok res) :
    (∀ n ∈ names, n ∈ keys res) ∧ (∀ k ∈ keys acc, k ∈ keys res) := by
  induction names generalizing acc with
  | nil =>
    unfold resolveRequestBodyRefs at hok
    injection hok with hok
    rw [← hok]
    exact ⟨fun n hn => absurd hn (List.not_mem_nil _), fun k hk => hk⟩
  | cons hd rest ih =>
    unfold resolveRequestBodyRefs at hok
    cases hl : lookupKey comps.requestBodies hd with
    | none => rw [hl] at hok; cases hok
    | some requestBody =>
      rw [hl] at hok
      simp only [] at hok
      obtain ⟨h1, h2⟩ := ih _ hok
      refine ⟨?_, fun k hk => h2 k (mem_keys_setKey_of_mem hd requestBody hk)⟩
      intro n hn
      rcases List.mem_cons.mp hn with heq | hn'
      · subst heq
        exact h2 n (self_mem_keys_setKey acc n requestBody)
      · exact h1 n hn'

theorem resolveParameterRefs_keys (comps : Components) (names : List String)
    (acc res : List (String × ParameterRef))
    (hok : resolveParameterRefs comps names acc = .ok res) :
    (∀ n ∈ names, n ∈ keys res) ∧ (∀ k ∈ keys acc, k ∈ keys res) := by
  induction names generalizing acc with
  | nil =>
    unfold resolveParameterRefs at hok
    injection hok with hok
    rw [← hok]
    exact ⟨fun n hn => absurd hn (List.not_mem_nil _), fun k hk => hk⟩
  | cons hd rest ih =>
    unfold resolveParameterRefs at hok
    cases hl : lookupKey comps.parameters hd with
    | none => rw [hl] at hok; cases hok
    | some param =>
      rw [hl] at hok
      simp only [] at hok
      obtain ⟨h1, h2⟩ := ih _ hok
      refine ⟨?_, fun k hk => h2 k (mem_keys_setKey_of_mem hd param hk)⟩
      intro n hn
      rcases List.mem_cons.mp hn with heq | hn'
      · subst heq
        exact h2 n (self_mem_keys_setKey acc n param)
      · exact h1 n hn'

theorem resolveResponseRefs_keys (comps : Components) (names : List String)
    (acc res : List (String × ResponseRef))
    (hok : resolveResponseRefs comps names acc = .ok res) :
    (∀ n ∈ names, n ∈ keys res) ∧ (∀ k ∈ keys acc, k ∈ keys res) := by
  induction names generalizing acc with
  | nil =>
    unfold resolveResponseRefs at hok
    injection hok with hok
    rw [← hok]
    exact ⟨fun n hn => absurd hn (List.not_mem_nil _), fun k hk => hk⟩
  | cons hd rest ih =>
    unfold resolveResponseRefs at hok
    cases hl : lookupKey comps.responses hd with
    | none => rw [hl] at hok; cases hok
    | some response =>
      rw [hl] at hok
      simp only [] at hok
      obtain ⟨h1, h2⟩ := ih _ hok
      refine ⟨?_, fun k hk => h2 k (mem_keys_setKey_of_mem hd response hk)⟩
      intro n hn
      rcases List.mem_cons.mp hn with heq | hn'
      · subst heq
        exact h2 n (self_mem_keys_setKey acc n response)
      · exact h1 n hn'

theorem resolveAllReferences_keys (doc : Doc) (pr : ProcessedRefs)
    (comps : Components) (fc : FilteredComponents)
    (hcomps : doc.components = some comps)
    (hok : resolveAllReferences doc pr = .ok fc) :
    (∀ n ∈ pr.requestBodies, n ∈ keys fc.requestBodies) ∧
    (∀ n ∈ pr.parameters, n ∈ keys fc.parameters) ∧
    (∀ n ∈ pr.responses, n ∈ keys fc.responses) := by
  unfold resolveAllReferences at hok
  cases hs : resolveSeedSchemas doc pr.schemas [] with
  | error e => rw [hs] at hok; cases hok
  | ok schemas =>
    rw [hs, hcomps] at hok
    simp only [] at hok
    cases h1 : resolveRequestBodyRefs comps pr.requestBodies [] with
    | error e => rw [h1] at hok; cases hok
    | ok rbs =>
      rw [h1] at hok
      simp only [] at hok
      cases h2 : resolveParameterRefs comps pr.parameters [] with
      | error e => rw [h2] at hok; cases hok
      | ok params =>
        rw [h2] at hok
        simp only [] at hok
        cases h3 : resolveResponseRefs comps pr.responses [] with
        | error e => rw [h3] at hok; cases hok
        | ok resps =>
          rw [h3] at hok
          injection hok with hok
          rw [← hok]
          exact ⟨(resolveRequestBodyRefs_keys comps pr.requestBodies [] rbs h1).1,
            (resolveParameterRefs_keys comps pr.parameters [] params h2).1,
            (resolveResponseRefs_keys comps pr.responses [] resps h3).1⟩

theorem expandUsagePass_fields (fc : FilteredComponents) (u : ComponentUsage) :
    (expandUsagePass fc u).1.parameters = u.parameters ∧
    (expandUsagePass fc u).1.requestBodies = u.requestBodies ∧
    (expandUsagePass fc u).1.responses = u.responses := by
  simp [expandUsagePass]

theorem findTransitively_fields (fc : FilteredComponents) (fuel : Nat)
    (u : ComponentUsage) :
    (findTransitivelyUsedComponents fc fuel u).parameters = u.parameters ∧
    (findTransitivelyUsedComponents fc fuel u).requestBodies = u.requestBodies ∧
    (findTransitivelyUsedComponents fc fuel u).responses = u.responses := by
  induction fuel generalizing u with
  | zero => exact ⟨rfl, rfl, rfl⟩
  | succ fuel ih =>
    unfold findTransitivelyUsedComponents
    cases hp : expandUsagePass fc u with
    | mk u' changed =>
      have h1 : u'.parameters = u.parameters := by
        have h := (expandUsagePass_fields fc u).1
        rw [hp] at h
        exact h
      have h2 : u'.requestBodies = u.requestBodies := by
        have h := (expandUsagePass_fields fc u).2.1
        rw [hp] at h
        exact h
      have h3 : u'.responses = u.responses := by
        have h := (expandUsagePass_fields fc u).2.2
        rw [hp] at h
        exact h
      dsimp only
      split
      · obtain ⟨g1, g2, g3⟩ := ih u'
        exact ⟨g1.trans h1, g2.trans h2, g3.trans h3⟩
      · exact ⟨h1, h2, h3⟩

theorem mem_keys_filter_contains {α : Type} {l : List (String × α)}
    {k : String} (used : List String) (hk : k ∈ keys l) (hu : k ∈ used) :
    k ∈ keys (l.filter (fun kv => used.contains kv.1)) := by
  obtain ⟨v, hv⟩ := Option.isSome_iff_exists.mp (lookupKey_isSome_of_mem_keys hk)
  have hpair := pair_mem_of_lookupKey hv
  have : (k, v) ∈ l.filter (fun kv => used.contains kv.1) :=
    List.mem_filter.mpr ⟨hpair, (contains_iff_mem _ _).mpr hu⟩
  exact List.mem_map.mpr ⟨(k, v), this, rfl⟩

theorem pruneUnusedComponents_keeps (fc : FilteredComponents)
    (pr : ProcessedRefs) :
    (∀ n ∈ pr.requestBodies, n ∈ keys fc.requestBodies →
      n ∈ keys (pruneUnusedComponents fc pr).requestBodies) ∧
    (∀ n ∈ pr.parameters, n ∈ keys fc.parameters →
      n ∈ keys (pruneUnusedComponents fc pr).parameters) ∧
    (∀ n ∈ pr.responses, n ∈ keys fc.responses →
      n ∈ keys (pruneUnusedComponents fc pr).responses) := by
  unfold pruneUnusedComponents
  obtain ⟨h1, h2, h3⟩ := findTransitively_fields fc (pruneFuel fc)
    ⟨pr.schemas, pr.parameters, pr.requestBodies, pr.responses⟩
  refine ⟨?_, ?_, ?_⟩
  · intro n hn hk
    exact mem_keys_filter_contains _ hk (by rw [h2]; exact hn)
  · intro n hn hk
    exact mem_keys_filter_contains _ hk (by rw [h1]; exact hn)
  · intro n hn hk
    exact mem_keys_filter_contains _ hk (by rw [h3]; exact hn)

theorem requestBody_noComps (doc : Doc) (operation : Operation)
    (mimeTypes : List String) (sAcc rbAcc : List String)
    (res : List String × List String)
    (hnone : doc.components = none)
    (hok : processOperationRequestBody doc operation mimeTypes sAcc rbAcc = .ok res) :
    res.2 = rbAcc := by
  unfold processOperationRequestBody at hok
  cases hrb : operation.requestBody with
  | none =>
    rw [hrb] at hok
    injection hok with hok
    rw [← hok]
  | some rb =>
    rw [hrb] at hok
    simp only [] at hok
    split at hok
    · cases hv : validateRef rb.ref "requestBody" with
      | error e => rw [hv] at hok; cases hok
      | ok requestBodyName =>
        rw [hv] at hok
        simp only [derefComponents, hnone] at hok
        cases hok
    · cases hrv : rb.value with
      | none => rw [hrv] at hok; injection hok with hok; rw [← hok]
      | some rbv =>
        rw [hrv] at hok
        simp only [] at hok
        cases hcs : processContentSchemas rbv.content mimeTypes sAcc with
        | error e => rw [hcs] at hok; cases hok
        | ok sAcc' => rw [hcs] at hok; injection hok with hok; rw [← hok]

theorem paramsLoop_noComps (doc : Doc) (l : List ParameterRef)
    (sAcc pAcc : List String) (res : List String × List String)
    (hnone : doc.components = none)
    (hok : processOperationParametersLoop doc l sAcc pAcc = .ok res) :
    res.2 = pAcc := by
  induction l generalizing sAcc pAcc with
  | nil =>
    unfold processOperationParametersLoop at hok
    injection hok with hok
    rw [← hok]
  | cons param rest ih =>
    unfold processOperationParametersLoop at hok
    split at hok
    · cases hv : validateRef param.ref "parameter" with
      | error e => rw [hv] at hok; cases hok
      | ok paramName =>
        rw [hv] at hok
        simp only [derefComponents, hnone] at hok
        cases hok
    · cases hpv : param.value with
      | none => rw [hpv] at hok; exact ih _ _ hok
      | some pv =>
        rw [hpv] at hok
        simp only [] at hok
        cases hs : pv.schema with
        | none => rw [hs] at hok; exact ih _ _ hok
        | some s =>
          rw [hs] at hok
          simp only [] at hok
          split at hok
          · cases hv2 : validateRef s.ref "parameter.schema" with
            | error e => rw [hv2] at hok; cases hok
            | ok schemaName => rw [hv2] at hok; exact ih _ _ hok
          · exact ih _ _ hok

theorem respLoop_noComps (doc : Doc) (mimeTypes : List String)
    (l : List (String × ResponseRef)) (sAcc rAcc : List String)
    (res : List String × List String)
    (hnone : doc.components = none)
    (hok : processOperationResponsesLoop doc mimeTypes l sAcc rAcc = .ok res) :
    res.2 = rAcc := by
  induction l generalizing sAcc rAcc with
  | nil =>
    unfold processOperationResponsesLoop at hok
    injection hok with hok
    rw [← hok]
  | cons hd rest ih =>
    obtain ⟨key, response⟩ := hd
    unfold processOperationResponsesLoop at hok
    split at hok
    · cases hv : validateRef response.ref "response" with
      | error e => rw [hv] at hok; cases hok
      | ok responseName =>
        rw [hv] at hok
        simp only [derefComponents, hnone] at hok
        cases hok
    · cases hrv : response.value with
      | none => rw [hrv] at hok; exact ih _ _ hok
      | some rv =>
        rw [hrv] at hok
        simp only [] at hok
        cases hcs : processContentSchemas rv.content mimeTypes sAcc with
        | error e => rw [hcs] at hok; cases hok
        | ok sAcc' => rw [hcs] at hok; exact ih _ _ hok

theorem collect_noComps (doc : Doc) (operation : Operation)
    (mimeTypes : List String) (pr pr' : ProcessedRefs)
    (hnone : doc.components = none)
    (hok : collectReferencesFromOperation doc operation mimeTypes pr = .ok pr') :
    pr'.requestBodies = pr.requestBodies ∧ pr'.parameters = pr.parameters ∧
      pr'.responses = pr.responses := by
  unfold collectReferencesFromOperation at hok
  cases h1 : processOperationRequestBody doc operation mimeTypes pr.schemas
      pr.requestBodies with
  | error e => rw [h1] at hok; cases hok
  | ok p1 =>
    obtain ⟨s1, rb1⟩ := p1
    rw [h1] at hok
    simp only [] at hok
    cases h2 : processOperationParameters doc operation s1 pr.parameters with
    | error e => rw [h2] at hok; cases hok
    | ok p2 =>
      obtain ⟨s2, pa2⟩ := p2
      rw [h2] at hok
      simp only [] at hok
      cases h3 : processOperationResponses doc operation mimeTypes s2 pr.responses with
      | error e => rw [h3] at hok; cases hok
      | ok p3 =>
        obtain ⟨s3, r3⟩ := p3
        rw [h3] at hok
        injection hok with hok
        rw [← hok]
        exact ⟨requestBody_noComps doc operation mimeTypes pr.schemas
            pr.requestBodies (s1, rb1) hnone h1,
          paramsLoop_noComps doc operation.parameters s1 pr.parameters
            (s2, pa2) hnone h2,
          respLoop_noComps doc mimeTypes operation.responses s2 pr.responses
            (s3, r3) hnone h3⟩

theorem allOpsLoop_noComps (doc : Doc) (mimeTypes : List String)
    (l : List (String × Operation)) (tags : List String) (pr : ProcessedRefs)
    (res : List String × ProcessedRefs)
    (hnone : doc.components = none)
    (hok : processAllOperationsInPathLoop doc mimeTypes l tags pr = .ok res) :
    res.2.requestBodies = pr.requestBodies ∧
      res.2.parameters = pr.parameters ∧ res.2.responses = pr.responses := by
  induction l generalizing tags pr with
  | nil =>
    unfold processAllOperationsInPathLoop at hok
    injection hok with hok
    rw [← hok]
    exact ⟨rfl, rfl, rfl⟩
  | cons hd rest ih =>
    obtain ⟨method, operation⟩ := hd
    unfold processAllOperationsInPathLoop at hok
    cases hc : collectReferencesFromOperation doc operation mimeTypes pr with
    | error e => rw [hc] at hok; cases hok
    | ok pr' =>
      rw [hc] at hok
      simp only [] at hok
      obtain ⟨g1, g2, g3⟩ := ih _ pr' hok
      obtain ⟨h1, h2, h3⟩ := collect_noComps doc operation mimeTypes pr pr' hnone hc
      exact ⟨g1.trans h1, g2.trans h2, g3.trans h3⟩

theorem matchLoop_noComps (doc : Doc) (opts : FilterOptions)
    (mimeTypes : List String) (l matched : List (String × Operation))
    (tags : List String) (pr : ProcessedRefs)
    (res : List (String × Operation) × List String × ProcessedRefs)
    (hnone : doc.components = none)
    (hok : findMatchingOperationsLoop doc opts mimeTypes l matched tags pr = .ok res) :
    res.2.2.requestBodies = pr.requestBodies ∧
      res.2.2.parameters = pr.parameters ∧ res.2.2.responses = pr.responses := by
  induction l generalizing matched tags pr with
  | nil =>
    unfold findMatchingOperationsLoop at hok
    injection hok with hok
    rw [← hok]
    exact ⟨rfl, rfl, rfl⟩
  | cons hd rest ih =>
    obtain ⟨method, operation⟩ := hd
    unfold findMatchingOperationsLoop at hok
    split at hok
    · cases hc : collectReferencesFromOperation doc operation mimeTypes pr with
      | error e => rw [hc] at hok; cases hok
      | ok pr' =>
        rw [hc] at hok
        simp only [] at hok
        obtain ⟨g1, g2, g3⟩ := ih _ _ pr' hok
        obtain ⟨h1, h2, h3⟩ := collect_noComps doc operation mimeTypes pr pr' hnone hc
        exact ⟨g1.trans h1, g2.trans h2, g3.trans h3⟩
    · exact ih _ _ pr hok

theorem pathsLoop_noComps (doc : Doc) (opts : FilterOptions)
    (mimeTypes : List String) (l fp : List (String × PathItem))
    (tags : List String) (pr : ProcessedRefs)
    (res : List (String × PathItem) × List String × ProcessedRefs)
    (hnone : doc.components = none)
    (hok : pathsLoop doc opts mimeTypes l fp tags pr = .ok res) :
    res.2.2.requestBodies = pr.requestBodies ∧
      res.2.2.parameters = pr.parameters ∧ res.2.2.responses = pr.responses := by
  induction l generalizing fp tags pr with
  | nil =>
    unfold pathsLoop at hok
    injection hok with hok
    rw [← hok]
    exact ⟨rfl, rfl, rfl⟩
  | cons hd rest ih =>
    obtain ⟨path, pathItem⟩ := hd
    unfold pathsLoop at hok
    split at hok
    · cases ha : processAllOperationsInPath doc pathItem mimeTypes tags pr with
      | error e => rw [ha] at hok; cases hok
      | ok p1 =>
        obtain ⟨tags', pr'⟩ := p1
        rw [ha] at hok
        simp only [] at hok
        obtain ⟨g1, g2, g3⟩ := ih _ tags' pr' hok
        obtain ⟨h1, h2, h3⟩ := allOpsLoop_noComps doc mimeTypes
          pathItem.operations tags pr (tags', pr') hnone ha
        exact ⟨g1.trans h1, g2.trans h2, g3.trans h3⟩
    · cases hf : findMatchingOperations doc pathItem opts mimeTypes tags pr with
      | error e => rw [hf] at hok; cases hok
      | ok p1 =>
        obtain ⟨matchedOps, tags', pr'⟩ := p1
        rw [hf] at hok
        simp only [] at hok
        obtain ⟨h1, h2, h3⟩ := matchLoop_noComps doc opts mimeTypes
          pathItem.operations [] tags pr (matchedOps, tags', pr') hnone hf
        split at hok
        · obtain ⟨g1, g2, g3⟩ := ih _ tags' pr' hok
          exact ⟨g1.trans h1, g2.trans h2, g3.trans h3⟩
        · obtain ⟨g1, g2, g3⟩ := ih _ tags' pr' hok
          exact ⟨g1.trans h1, g2.trans h2, g3.trans h3⟩

/-- C1 (amended): for every document and filter, if filtering succeeds
then every operation-level component reference of a retained operation
— a request-body reference, a parameter reference, or a response
reference — names a component that exists in the output's components
map of the corresponding kind.  (Full self-containment over schema
references fails; see the counterexample.) -/
theorem filter_operationRefs_selfContained (doc : Doc) (opts : FilterOptions)
    (out : Doc) (hok : applyFilter doc opts = .ok out) :
    ∀ p : String, ∀ pi : PathItem, (p, pi) ∈ out.paths →
    ∀ m : String, ∀ o : Operation, (m, o) ∈ pi.operations →
    ∃ comps : Components, out.components = some comps ∧
      (∀ rb : RequestBodyRef, o.requestBody = some rb → ∀ n : String,
        RefNames rb.ref n → n ∈ keys comps.requestBodies) ∧
      (∀ param ∈ o.parameters, ∀ n : String,
        RefNames param.ref n → n ∈ keys comps.parameters) ∧
      (∀ k : String, ∀ r : ResponseRef, (k, r) ∈ o.responses → ∀ n : String,
        RefNames r.ref n → n ∈ keys comps.responses) := by
  obtain ⟨fp, tags, pr, fc, hseed, hres, hout⟩ :=
    applyFilter_ok_elim doc opts out hok
  intro p pi hp m o hmo
  have hp' : (p, pi) ∈ fp := by
    rw [hout] at hp
    exact hp
  unfold processPathsAndOperations at hseed
  obtain ⟨_, _, _, _, hout2⟩ := pathsLoop_spec doc opts _ doc.paths [] []
    ⟨[], [], [], []⟩ (fp, tags, pr) hseed
    (fun p' pi' hm' => absurd hm' (List.not_mem_nil _))
  obtain ⟨hcol1, hcol2, hcol3⟩ := (hout2 p pi hp' m o hmo).1
  refine ⟨_, by rw [hout], ?_, ?_, ?_⟩
  · intro rb hrb n hn
    have hnpr : n ∈ pr.requestBodies := hcol1 rb hrb n hn
    cases hcomps : doc.components with
    | none =>
      have := (pathsLoop_noComps doc opts _ doc.paths [] [] ⟨[], [], [], []⟩
        (fp, tags, pr) hcomps hseed).1
      rw [this] at hnpr
      cases hnpr
    | some comps0 =>
      have hkey := (resolveAllReferences_keys doc pr comps0 fc hcomps hres).1 n hnpr
      show n ∈ keys (if opts.pruneComponents then pruneUnusedComponents fc pr
        else fc).requestBodies
      split
      · exact (pruneUnusedComponents_keeps fc pr).1 n hnpr hkey
      · exact hkey
  · intro param hparam n hn
    have hnpr : n ∈ pr.parameters := hcol2 param hparam n hn
    cases hcomps : doc.components with
    | none =>
      have := (pathsLoop_noComps doc opts _ doc.paths [] [] ⟨[], [], [], []⟩
        (fp, tags, pr) hcomps hseed).2.1
      rw [this] at hnpr
      cases hnpr
    | some comps0 =>
      have hkey := (resolveAllReferences_keys doc pr comps0 fc hcomps hres).2.1 n hnpr
      show n ∈ keys (if opts.pruneComponents then pruneUnusedComponents fc pr
        else fc).parameters
      split
      · exact (pruneUnusedComponents_keeps fc pr).2.1 n hnpr hkey
      · exact hkey
  · intro k r hkr n hn
    have hnpr : n ∈ pr.responses := hcol3 k r hkr n hn
    cases hcomps : doc.components with
    | none =>
      have := (pathsLoop_noComps doc opts _ doc.paths [] [] ⟨[], [], [], []⟩
        (fp, tags, pr) hcomps hseed).2.2
      rw [this] at hnpr
      cases hnpr
    | some comps0 =>
      have hkey := (resolveAllReferences_keys doc pr comps0 fc hcomps hres).2.2 n hnpr
      show n ∈ keys (if opts.pruneComponents then pruneUnusedComponents fc pr
        else fc).responses
      split
      · exact (pruneUnusedComponents_keeps fc pr).2.2 n hnpr hkey
      · exact hkey

/-- Witness for C1: in `docAllRefs`, the referenced request body `RB`,
parameter `P` and response `R` all survive into the pruned output. -/
theorem filter_operationRefs_selfContained_witness :
    ∃ out : Doc, applyFilter docAllRefs optsPrune = Except.ok out ∧
      ∃ comps : Components, out.components = some comps ∧
        "RB" ∈ keys comps.requestBodies ∧ "P" ∈ keys comps.parameters ∧
        "R" ∈ keys comps.responses := by
  refine ⟨_, rfl, ?_⟩
  obtain ⟨comps, hc, h1, h2, h3⟩ :=
    filter_operationRefs_selfContained docAllRefs optsPrune _ rfl "/u"
      ⟨[("POST", opAllRefs)], []⟩ (List.mem_singleton.mpr rfl) "POST" opAllRefs
      (List.mem_singleton.mpr rfl)
  refine ⟨comps, hc, ?_, ?_, ?_⟩
  · exact h1 ⟨"#/components/requestBodies/RB", none⟩ rfl "RB"
      ⟨by decide, by decide, by decide⟩
  · exact h2 ⟨"#/components/parameters/P", none⟩ (List.mem_singleton.mpr rfl)
      "P" ⟨by decide, by decide, by decide⟩
  · exact h3 "200" ⟨"#/components/responses/R", none⟩
      (List.mem_singleton.mpr rfl) "R" ⟨by decide, by decide, by decide⟩

/-! ## Lemmas about the termination measure and the reference relation -/

theorem filter_length_le {α : Type} (l : List α) (p q : α → Bool)
    (himp : ∀ x ∈ l, p x = true → q x = true) :
    (l.filter p).length ≤ (l.filter q).length := by
  induction l with
  | nil => simp
  | cons hd tl ih =>
    have ih' := ih (fun x hx => himp x (List.mem_cons_of_mem _ hx))
    by_cases hp : p hd = true
    · have hq := himp hd (List.mem_cons_self _ _) hp
      simp [List.filter, hp, hq]
      exact ih'
    · by_cases hq : q hd = true
      · simp [List.filter, hp, hq]
        exact Nat.le_succ_of_le ih'
      · simp [List.filter, hp, hq]
        exact ih'

theorem filter_length_lt {α : Type} (l : List α) (p q : α → Bool) (a : α)
    (himp : ∀ x ∈ l, p x = true → q x = true)
    (ha : a ∈ l) (hqa : q a = true) (hpa : p a = false) :
    (l.filter p).length < (l.filter q).length := by
  induction l with
  | nil => cases ha
  | cons hd tl ih =>
    have himp' : ∀ x ∈ tl, p x = true → q x = true :=
      fun x hx => himp x (List.mem_cons_of_mem _ hx)
    rcases List.mem_cons.mp ha with heq | ha'
    · subst heq
      simp [List.filter, hqa, hpa]
      exact Nat.lt_succ_of_le (filter_length_le tl p q himp')
    · by_cases hp : p hd = true
      · have hq := himp hd (List.mem_cons_self _ _) hp
        simp [List.filter, hp, hq]
        exact ih himp' ha'
      · by_cases hq : q hd = true
        · simp [List.filter, hp, hq]
          exact Nat.lt_succ_of_le (Nat.le_of_lt (ih himp' ha'))
        · simp [List.filter, hp, hq]
          exact ih himp' ha'

theorem unvisitedCount_anti (doc : Doc) {v v' : List String} (h : v ⊆ v') :
    unvisitedCount doc v' ≤ unvisitedCount doc v := by
  unfold unvisitedCount
  refine filter_length_le _ _ _ ?_
  intro x _ hx
  simp at hx ⊢
  intro hmem
  exact hx (h hmem)

theorem unvisitedCount_lt (doc : Doc) {v : List String} {name : String}
    (hk : name ∈ docSchemaKeys doc) (hnv : name ∉ v) :
    unvisitedCount doc (v ++ [name]) < unvisitedCount doc v := by
  unfold unvisitedCount
  refine filter_length_lt _ _ _ name ?_ ?_ ?_ ?_
  · intro x _ hx
    simp at hx ⊢
    exact hx.1
  · exact List.mem_dedup.mpr hk
  · simp [hnv]
  · simp

theorem schemaRefersTo_of_refNames {s : SchemaRef} {n : String}
    (h : RefNames s.ref n) : SchemaRefersTo s n := by
  cases s with
  | mk r v => exact .direct r v n h

theorem schemaRefersTo_value {s : SchemaRef} {sv : Schema} {n : String}
    (hv : s.value = some sv) (h : ValueRefersTo sv n) : SchemaRefersTo s n := by
  cases s with
  | mk r v =>
    simp [SchemaRef.value] at hv
    rw [hv]
    exact .value r sv n h

theorem schemaRefersTo_items {s : SchemaRef} {sv : Schema} {it : SchemaRef}
    {n : String} (hv : s.value = some sv) (hit : sv.items = some it)
    (h : SchemaRefersTo it n) : SchemaRefersTo s n :=
  schemaRefersTo_value hv (.items sv it n hit h)

theorem schemaRefersTo_prop {s : SchemaRef} {sv : Schema} {p : String}
    {ps : SchemaRef} {n : String} (hv : s.value = some sv)
    (hp : (p, ps) ∈ sv.properties) (h : SchemaRefersTo ps n) :
    SchemaRefersTo s n :=
  schemaRefersTo_value hv (.prop sv p ps n hp h)

theorem stMono_refl (a : ResolveState) : StMono a a :=
  ⟨fun _ h => h, fun _ h => h⟩

theorem stMono_trans {a b c : ResolveState} (h1 : StMono a b)
    (h2 : StMono b c) : StMono a c :=
  ⟨fun _ hx => h2.1 (h1.1 hx), fun k hk => h2.2 k (h1.2 k hk)⟩

theorem refStep_mono {recf : ResolveRec} (hrec : RecMono recf)
    (r loc ctx : String) (st st' : ResolveState)
    (hok : refStep recf r loc ctx st = .ok st') : StMono st st' := by
  unfold refStep at hok
  split at hok
  · cases hv : validateRef r loc with
    | error e => rw [hv] at hok; cases hok
    | ok refName =>
      rw [hv] at hok
      exact hrec refName ctx st st' hok
  · injection hok with hok
    rw [← hok]
    exact stMono_refl st

theorem itemPropsLoop_mono {recf : ResolveRec} (hrec : RecMono recf)
    (schemaName : String) (l : List (String × SchemaRef))
    (st st' : ResolveState)
    (hok : processItemPropertiesLoop recf schemaName l st = .ok st') :
    StMono st st' := by
  induction l generalizing st with
  | nil =>
    unfold processItemPropertiesLoop at hok
    injection hok with hok
    rw [← hok]
    exact stMono_refl st
  | cons hd rest ih =>
    obtain ⟨propName, propSchema⟩ := hd
    unfold processItemPropertiesLoop at hok
    cases h1 : refStep recf propSchema.ref
        ("schema." ++ schemaName ++ ".items.properties." ++ propName)
        (schemaName ++ ".items.properties." ++ propName) st with
    | error e => rw [h1] at hok; cases hok
    | ok st1 =>
      rw [h1] at hok
      simp only [] at hok
      have m1 := refStep_mono hrec _ _ _ st st1 h1
      cases hv : propSchema.value with
      | none =>
        rw [hv] at hok
        simp only [] at hok
        exact stMono_trans m1 (ih st1 hok)
      | some pv =>
        rw [hv] at hok
        simp only [] at hok
        cases hits : pv.items with
        | none =>
          rw [hits] at hok
          simp only [] at hok
          exact stMono_trans m1 (ih st1 hok)
        | some pits =>
          rw [hits] at hok
          simp only [] at hok
          cases h2 : refStep recf pits.ref
              ("schema." ++ schemaName ++ ".items.properties." ++ propName ++
                ".items")
              (schemaName ++ ".items.properties." ++ propName ++ ".items") st1 with
          | error e => rw [h2] at hok; cases hok
          | ok st2 =>
            rw [h2] at hok
            simp only [] at hok
            exact stMono_trans m1 (stMono_trans
              (refStep_mono hrec _ _ _ st1 st2 h2) (ih st2 hok))

theorem itemProperties_mono {recf : ResolveRec} (hrec : RecMono recf)
    (schemaName : String) (sv : Schema) (st st' : ResolveState)
    (hok : processItemProperties recf schemaName sv st = .ok st') :
    StMono st st' := by
  unfold processItemProperties at hok
  cases hit : sv.items with
  | none => rw [hit] at hok; injection hok with hok; rw [← hok]; exact stMono_refl st
  | some items =>
    rw [hit] at hok
    simp only [] at hok
    cases hiv : items.value with
    | none => rw [hiv] at hok; injection hok with hok; rw [← hok]; exact stMono_refl st
    | some iv =>
      rw [hiv] at hok
      exact itemPropsLoop_mono hrec schemaName iv.properties st st' hok

theorem schemaItems_mono {recf : ResolveRec} (hrec : RecMono recf)
    (schemaName : String) (sv : Schema) (st st' : ResolveState)
    (hok : processSchemaItems recf schemaName sv st = .ok st') :
    StMono st st' := by
  unfold processSchemaItems at hok
  cases hit : sv.items with
  | none => rw [hit] at hok; injection hok with hok; rw [← hok]; exact stMono_refl st
  | some items =>
    rw [hit] at hok
    simp only [] at hok
    cases h1 : refStep recf items.ref ("schema." ++ schemaName ++ ".items")
        (schemaName ++ ".items") st with
    | error e => rw [h1] at hok; cases hok
    | ok st1 =>
      rw [h1] at hok
      simp only [] at hok
      have m1 := refStep_mono hrec _ _ _ st st1 h1
      cases hiv : items.value with
      | none => rw [hiv] at hok; injection hok with hok; rw [← hok]; exact m1
      | some iv =>
        rw [hiv] at hok
        simp only [] at hok
        split at hok
        · exact stMono_trans m1 (itemProperties_mono hrec schemaName sv st1 st' hok)
        · injection hok with hok; rw [← hok]; exact m1

theorem propertyRef_mono {recf : ResolveRec} (hrec : RecMono recf)
    (schemaName propName : String) (propSchema : SchemaRef)
    (st st' : ResolveState)
    (hok : processPropertyRef recf schemaName propName propSchema st = .ok st') :
    StMono st st' := by
  unfold processPropertyRef at hok
  exact refStep_mono hrec _ _ _ st st' hok

theorem nestedPropsLoop_mono {recf : ResolveRec} (hrec : RecMono recf)
    (schemaName propName : String) (l : List (String × SchemaRef))
    (st st' : ResolveState)
    (hok : processNestedPropertiesLoop recf schemaName propName l st = .ok st') :
    StMono st st' := by
  induction l generalizing st with
  | nil =>
    unfold processNestedPropertiesLoop at hok
    injection hok with hok
    rw [← hok]
    exact stMono_refl st
  | cons hd rest ih =>
    obtain ⟨nestedPropName, nestedProp⟩ := hd
    unfold processNestedPropertiesLoop at hok
    cases h1 : refStep recf nestedProp.ref
        ("schema." ++ schemaName ++ ".properties." ++ propName ++ "." ++
          nestedPropName)
        (schemaName ++ ".properties." ++ propName ++ "." ++ nestedPropName) st with
    | error e => rw [h1] at hok; cases hok
    | ok st1 =>
      rw [h1] at hok
      simp only [] at hok
      have m1 := refStep_mono hrec _ _ _ st st1 h1
      cases hv : nestedProp.value with
      | none =>
        rw [hv] at hok
        simp only [] at hok
        exact stMono_trans m1 (ih st1 hok)
      | some nv =>
        rw [hv] at hok
        simp only [] at hok
        cases hits : nv.items with
        | none =>
          rw [hits] at hok
          simp only [] at hok
          exact stMono_trans m1 (ih st1 hok)
        | some nits =>
          rw [hits] at hok
          simp only [] at hok
          cases h2 : refStep recf nits.ref
              ("schema." ++ schemaName ++ ".properties." ++ propName ++ "." ++
                nestedPropName ++ ".items")
              (schemaName ++ ".properties." ++ propName ++ "." ++
                nestedPropName ++ ".items") st1 with
          | error e => rw [h2] at hok; cases hok
          | ok st2 =>
            rw [h2] at hok
            simp only [] at hok
            exact stMono_trans m1 (stMono_trans
              (refStep_mono hrec _ _ _ st1 st2 h2) (ih st2 hok))

theorem nestedProperties_mono {recf : ResolveRec} (hrec : RecMono recf)
    (schemaName propName : String) (propSchema : SchemaRef)
    (st st' : ResolveState)
    (hok : processNestedProperties recf schemaName propName propSchema st = .ok st') :
    StMono st st' := by
  unfold processNestedProperties at hok
  cases hv : propSchema.value with
  | none => rw [hv] at hok; injection hok with hok; rw [← hok]; exact stMono_refl st
  | some pv =>
    rw [hv] at hok
    exact nestedPropsLoop_mono hrec schemaName propName pv.properties st st' hok

theorem nestedPropertyObjects_mono {recf : ResolveRec} (hrec : RecMono recf)
    (schemaName propName : String) (propSchema : SchemaRef)
    (st st' : ResolveState)
    (hok : processNestedPropertyObjects recf schemaName propName propSchema st
      = .ok st') : StMono st st' := by
  unfold processNestedPropertyObjects at hok
  cases hv : propSchema.value with
  | none => rw [hv] at hok; injection hok with hok; rw [← hok]; exact stMono_refl st
  | some pv =>
    rw [hv] at hok
    simp only [] at hok
    cases hits : pv.items with
    | none =>
      simp only [hits] at hok
      split at hok
      · exact nestedProperties_mono hrec schemaName propName propSchema st st' hok
      · injection hok with hok; rw [← hok]; exact stMono_refl st
    | some its =>
      simp only [hits] at hok
      cases h1 : refStep recf its.ref
          ("schema." ++ schemaName ++ ".properties." ++ propName ++ ".items")
          (schemaName ++ ".properties." ++ propName ++ ".items") st with
      | error e => rw [h1] at hok; cases hok
      | ok st1 =>
        rw [h1] at hok
        simp only [] at hok
        have m1 := refStep_mono hrec _ _ _ st st1 h1
        split at hok
        · exact stMono_trans m1
            (nestedProperties_mono hrec schemaName propName propSchema st1 st' hok)
        · injection hok with hok; rw [← hok]; exact m1

theorem schemaPropertiesLoop_mono {recf : ResolveRec} (hrec : RecMono recf)
    (schemaName : String) (l : List (String × SchemaRef))
    (st st' : ResolveState)
    (hok : processSchemaPropertiesLoop recf schemaName l st = .ok st') :
    StMono st st' := by
  induction l generalizing st with
  | nil =>
    unfold processSchemaPropertiesLoop at hok
    injection hok with hok
    rw [← hok]
    exact stMono_refl st
  | cons hd rest ih =>
    obtain ⟨propName, propSchema⟩ := hd
    unfold processSchemaPropertiesLoop at hok
    cases h1 : processPropertyRef recf schemaName propName propSchema st with
    | error e => rw [h1] at hok; cases hok
    | ok st1 =>
      rw [h1] at hok
      simp only [] at hok
      cases h2 : processNestedPropertyObjects recf schemaName propName
          propSchema st1 with
      | error e => rw [h2] at hok; cases hok
      | ok st2 =>
        rw [h2] at hok
        simp only [] at hok
        exact stMono_trans (propertyRef_mono hrec _ _ _ st st1 h1)
          (stMono_trans (nestedPropertyObjects_mono hrec _ _ _ st1 st2 h2)
            (ih st2 hok))

theorem schemaProperties_mono {recf : ResolveRec} (hrec : RecMono recf)
    (schemaName : String) (sv : Schema) (st st' : ResolveState)
    (hok : processSchemaProperties recf schemaName sv st = .ok st') :
    StMono st st' := by
  unfold processSchemaProperties at hok
  split at hok
  · injection hok with hok; rw [← hok]; exact stMono_refl st
  · exact schemaPropertiesLoop_mono hrec schemaName sv.properties st st' hok

theorem compositionLoop_mono {recf : ResolveRec} (hrec : RecMono recf)
    (schemaName compName : String) (i : Nat) (l : List SchemaRef)
    (st st' : ResolveState)
    (hok : compositionLoop recf schemaName compName i l st = .ok st') :
    StMono st st' := by
  induction l generalizing i st with
  | nil =>
    unfold compositionLoop at hok
    injection hok with hok
    rw [← hok]
    exact stMono_refl st
  | cons hd rest ih =>
    unfold compositionLoop at hok
    cases h1 : refStep recf hd.ref
        ("schema." ++ schemaName ++ "." ++ compName ++ "[" ++ toString i ++ "]")
        (schemaName ++ "." ++ compName ++ "[" ++ toString i ++ "]") st with
    | error e => rw [h1] at hok; cases hok
    | ok st1 =>
      rw [h1] at hok
      simp only [] at hok
      exact stMono_trans (refStep_mono hrec _ _ _ st st1 h1) (ih (i + 1) st1 hok)

theorem compositionSchemas_mono {recf : ResolveRec} (hrec : RecMono recf)
    (schemaName : String) (sv : Schema) (st st' : ResolveState)
    (hok : processCompositionSchemas recf schemaName sv st = .ok st') :
    StMono st st' := by
  unfold processCompositionSchemas at hok
  cases h1 : compositionLoop recf schemaName "allOf" 0 sv.allOf st with
  | error e => rw [h1] at hok; cases hok
  | ok st1 =>
    rw [h1] at hok
    simp only [] at hok
    cases h2 : compositionLoop recf schemaName "oneOf" 0 sv.oneOf st1 with
    | error e => rw [h2] at hok; cases hok
    | ok st2 =>
      rw [h2] at hok
      simp only [] at hok
      exact stMono_trans (compositionLoop_mono hrec _ _ 0 _ st st1 h1)
        (stMono_trans (compositionLoop_mono hrec _ _ 0 _ st1 st2 h2)
          (compositionLoop_mono hrec _ _ 0 _ st2 st' hok))

theorem resolve_mono (doc : Doc) :
    ∀ fuel : Nat, RecMono (resolveSchemaRefsRecursively doc fuel) := by
  intro fuel
  induction fuel with
  | zero =>
    intro name ctx st st' hok
    cases hok
  | succ fuel ih =>
    intro name ctx st st' hok
    unfold resolveSchemaRefsRecursively at hok
    split at hok
    · injection hok with hok
      rw [← hok]
      exact stMono_refl st
    · cases hcomps : doc.components with
      | none => rw [hcomps] at hok; cases hok
      | some comps =>
        rw [hcomps] at hok
        simp only [] at hok
        cases hlk : lookupKey comps.schemas name with
        | none => rw [hlk] at hok; cases hok
        | some schema =>
          rw [hlk] at hok
          simp only [] at hok
          have m0 : StMono st ⟨setKey st.schemas name schema,
              st.visited ++ [name]⟩ := by
            constructor
            · intro x hx
              exact List.mem_append_left _ hx
            · intro k hk
              exact mem_keys_setKey_of_mem name schema hk
          cases h1 : refStep (resolveSchemaRefsRecursively doc fuel) schema.ref
              ("schema." ++ name) name
              ⟨setKey st.schemas name schema, st.visited ++ [name]⟩ with
          | error e => rw [h1] at hok; cases hok
          | ok st1 =>
            rw [h1] at hok
            simp only [] at hok
            have m1 := stMono_trans m0 (refStep_mono ih _ _ _ _ st1 h1)
            cases hv : schema.value with
            | none =>
              rw [hv] at hok
              injection hok with hok
              rw [← hok]
              exact m1
            | some sv =>
              rw [hv] at hok
              simp only [] at hok
              cases h2 : processSchemaItems (resolveSchemaRefsRecursively doc fuel)
                  name sv st1 with
              | error e => rw [h2] at hok; cases hok
              | ok st2 =>
                rw [h2] at hok
                simp only [] at hok
                cases h3 : processSchemaProperties
                    (resolveSchemaRefsRecursively doc fuel) name sv st2 with
                | error e => rw [h3] at hok; cases hok
                | ok st3 =>
                  rw [h3] at hok
                  exact stMono_trans m1 (stMono_trans
                    (schemaItems_mono ih name sv st1 st2 h2)
                    (stMono_trans (schemaProperties_mono ih name sv st2 st3 h3)
                      (compositionSchemas_mono ih name sv st3 st' hok)))

theorem validateRef_error_shape {r loc : String} {e : Failure}
    (h : validateRef r loc = .error e) :
    ∃ reason : String, e = .invalidReference r reason loc := by
  unfold validateRef at h
  split at h
  · injection h with h
    exact ⟨_, h.symm⟩
  · split at h
    · injection h with h
      exact ⟨_, h.symm⟩
    · cases h

theorem refStep_noFuel {doc : Doc} {bound : Nat} {recf : ResolveRec}
    (hnf : RecNoFuelFail doc bound recf) (r loc ctx : String)
    (st : ResolveState) (hcount : unvisitedCount doc st.visited < bound) :
    refStep recf r loc ctx st ≠ .error .fuelExhausted := by
  unfold refStep
  split
  · cases hv : validateRef r loc with
    | error e =>
      obtain ⟨reason, he⟩ := validateRef_error_shape hv
      subst he
      intro hcontra
      simp at hcontra
    | ok refName => exact hnf refName ctx st hcount
  · intro hcontra
    simp at hcontra

theorem refStep_error_ne {doc : Doc} {bound : Nat} {recf : ResolveRec}
    (hnf : RecNoFuelFail doc bound recf) {r loc ctx : String}
    {st : ResolveState} {e : Failure}
    (hcount : unvisitedCount doc st.visited < bound)
    (h : refStep recf r loc ctx st = .error e) : e ≠ .fuelExhausted := by
  intro he
  subst he
  exact refStep_noFuel hnf r loc ctx st hcount h

theorem itemPropsLoop_noFuel {doc : Doc} {bound : Nat} {recf : ResolveRec}
    (hmono : RecMono recf) (hnf : RecNoFuelFail doc bound recf)
    (schemaName : String) (l : List (String × SchemaRef)) (st : ResolveState)
    (hcount : unvisitedCount doc st.visited < bound) :
    processItemPropertiesLoop recf schemaName l st ≠ .error .fuelExhausted := by
  induction l generalizing st with
  | nil =>
    unfold processItemPropertiesLoop
    intro hcontra
    simp at hcontra
  | cons hd rest ih =>
    obtain ⟨propName, propSchema⟩ := hd
    unfold processItemPropertiesLoop
    intro hcontra
    cases h1 : refStep recf propSchema.ref
        ("schema." ++ schemaName ++ ".items.properties." ++ propName)
        (schemaName ++ ".items.properties." ++ propName) st with
    | error e =>
      rw [h1] at hcontra
      exact refStep_error_ne hnf hcount h1
        (by injection hcontra)
    | ok st1 =>
      rw [h1] at hcontra
      simp only [] at hcontra
      have hc1 : unvisitedCount doc st1.visited < bound :=
        Nat.lt_of_le_of_lt
          (unvisitedCount_anti doc (refStep_mono hmono _ _ _ st st1 h1).1) hcount
      cases hv : propSchema.value with
      | none =>
        rw [hv] at hcontra
        simp only [] at hcontra
        exact ih st1 hc1 hcontra
      | some pv =>
        rw [hv] at hcontra
        simp only [] at hcontra
        cases hits : pv.items with
        | none =>
          rw [hits] at hcontra
          simp only [] at hcontra
          exact ih st1 hc1 hcontra
        | some pits =>
          rw [hits] at hcontra
          simp only [] at hcontra
          cases h2 : refStep recf pits.ref
              ("schema." ++ schemaName ++ ".items.properties." ++ propName ++
                ".items")
              (schemaName ++ ".items.properties." ++ propName ++ ".items") st1 with
          | error e =>
            rw [h2] at hcontra
            exact refStep_error_ne hnf hc1 h2
              (by injection hcontra)
          | ok st2 =>
            rw [h2] at hcontra
            simp only [] at hcontra
            have hc2 : unvisitedCount doc st2.visited < bound :=
              Nat.lt_of_le_of_lt
                (unvisitedCount_anti doc (refStep_mono hmono _ _ _ st1 st2 h2).1)
                hc1
            exact ih st2 hc2 hcontra

theorem itemProperties_noFuel {doc : Doc} {bound : Nat} {recf : ResolveRec}
    (hmono : RecMono recf) (hnf : RecNoFuelFail doc bound recf)
    (schemaName : String) (sv : Schema) (st : ResolveState)
    (hcount : unvisitedCount doc st.visited < bound) :
    processItemProperties recf schemaName sv st ≠ .error .fuelExhausted := by
  unfold processItemProperties
  intro hcontra
  cases hit : sv.items with
  | none => rw [hit] at hcontra; simp at hcontra
  | some items =>
    rw [hit] at hcontra
    simp only [] at hcontra
    cases hiv : items.value with
    | none => rw [hiv] at hcontra; simp at hcontra
    | some iv =>
      rw [hiv] at hcontra
      exact itemPropsLoop_noFuel hmono hnf schemaName iv.properties st hcount hcontra

theorem schemaItems_noFuel {doc : Doc} {bound : Nat} {recf : ResolveRec}
    (hmono : RecMono recf) (hnf : RecNoFuelFail doc bound recf)
    (schemaName : String) (sv : Schema) (st : ResolveState)
    (hcount : unvisitedCount doc st.visited < bound) :
    processSchemaItems recf schemaName sv st ≠ .error .fuelExhausted := by
  unfold processSchemaItems
  intro hcontra
  cases hit : sv.items with
  | none => rw [hit] at hcontra; simp at hcontra
  | some items =>
    rw [hit] at hcontra
    simp only [] at hcontra
    cases h1 : refStep recf items.ref ("schema." ++ schemaName ++ ".items")
        (schemaName ++ ".items") st with
    | error e =>
      rw [h1] at hcontra
      exact refStep_error_ne hnf hcount h1
        (by injection hcontra)
    | ok st1 =>
      rw [h1] at hcontra
      simp only [] at hcontra
      have hc1 : unvisitedCount doc st1.visited < bound :=
        Nat.lt_of_le_of_lt
          (unvisitedCount_anti doc (refStep_mono hmono _ _ _ st st1 h1).1) hcount
      cases hiv : items.value with
      | none => rw [hiv] at hcontra; simp at hcontra
      | some iv =>
        rw [hiv] at hcontra
        simp only [] at hcontra
        split at hcontra
        · exact itemProperties_noFuel hmono hnf schemaName sv st1 hc1 hcontra
        · simp at hcontra

theorem propertyRef_noFuel {doc : Doc} {bound : Nat} {recf : ResolveRec}
    (hnf : RecNoFuelFail doc bound recf) (schemaName propName : String)
    (propSchema : SchemaRef) (st : ResolveState)
    (hcount : unvisitedCount doc st.visited < bound) :
    processPropertyRef recf schemaName propName propSchema st ≠
      .error .fuelExhausted := by
  unfold processPropertyRef
  exact refStep_noFuel hnf propSchema.ref
    ("schema." ++ schemaName ++ ".properties." ++ propName)
    (schemaName ++ ".properties." ++ propName) st hcount

theorem nestedPropsLoop_noFuel {doc : Doc} {bound : Nat} {recf : ResolveRec}
    (hmono : RecMono recf) (hnf : RecNoFuelFail doc bound recf)
    (schemaName propName : String) (l : List (String × SchemaRef))
    (st : ResolveState) (hcount : unvisitedCount doc st.visited < bound) :
    processNestedPropertiesLoop recf schemaName propName l st ≠
      .error .fuelExhausted := by
  induction l generalizing st with
  | nil =>
    unfold processNestedPropertiesLoop
    intro hcontra
    simp at hcontra
  | cons hd rest ih =>
    obtain ⟨nestedPropName, nestedProp⟩ := hd
    unfold processNestedPropertiesLoop
    intro hcontra
    cases h1 : refStep recf nestedProp.ref
        ("schema." ++ schemaName ++ ".properties." ++ propName ++ "." ++
          nestedPropName)
        (schemaName ++ ".properties." ++ propName ++ "." ++ nestedPropName) st with
    | error e =>
      rw [h1] at hcontra
      exact refStep_error_ne hnf hcount h1
        (by injection hcontra)
    | ok st1 =>
      rw [h1] at hcontra
      simp only [] at hcontra
      have hc1 : unvisitedCount doc st1.visited < bound :=
        Nat.lt_of_le_of_lt
          (unvisitedCount_anti doc (refStep_mono hmono _ _ _ st st1 h1).1) hcount
      cases hv : nestedProp.value with
      | none =>
        rw [hv] at hcontra
        simp only [] at hcontra
        exact ih st1 hc1 hcontra
      | some nv =>
        rw [hv] at hcontra
        simp only [] at hcontra
        cases hits : nv.items with
        | none =>
          rw [hits] at hcontra
          simp only [] at hcontra
          exact ih st1 hc1 hcontra
        | some nits =>
          rw [hits] at hcontra
          simp only [] at hcontra
          cases h2 : refStep recf nits.ref
              ("schema." ++ schemaName ++ ".properties." ++ propName ++ "." ++
                nestedPropName ++ ".items")
              (schemaName ++ ".properties." ++ propName ++ "." ++
                nestedPropName ++ ".items") st1 with
          | error e =>
            rw [h2] at hcontra
            exact refStep_error_ne hnf hc1 h2
              (by injection hcontra)
          | ok st2 =>
            rw [h2] at hcontra
            simp only [] at hcontra
            have hc2 : unvisitedCount doc st2.visited < bound :=
              Nat.lt_of_le_of_lt
                (unvisitedCount_anti doc (refStep_mono hmono _ _ _ st1 st2 h2).1)
                hc1
            exact ih st2 hc2 hcontra

theorem nestedProperties_noFuel {doc : Doc} {bound : Nat} {recf : ResolveRec}
    (hmono : RecMono recf) (hnf : RecNoFuelFail doc bound recf)
    (schemaName propName : String) (propSchema : SchemaRef)
    (st : ResolveState) (hcount : unvisitedCount doc st.visited < bound) :
    processNestedProperties recf schemaName propName propSchema st ≠
      .error .fuelExhausted := by
  unfold processNestedProperties
  intro hcontra
  cases hv : propSchema.value with
  | none => rw [hv] at hcontra; simp at hcontra
  | some pv =>
    rw [hv] at hcontra
    exact nestedPropsLoop_noFuel hmono hnf schemaName propName pv.properties st
      hcount hcontra

theorem nestedPropertyObjects_noFuel {doc : Doc} {bound : Nat}
    {recf : ResolveRec} (hmono : RecMono recf)
    (hnf : RecNoFuelFail doc bound recf) (schemaName propName : String)
    (propSchema : SchemaRef) (st : ResolveState)
    (hcount : unvisitedCount doc st.visited < bound) :
    processNestedPropertyObjects recf schemaName propName propSchema st ≠
      .error .fuelExhausted := by
  unfold processNestedPropertyObjects
  intro hcontra
  cases hv : propSchema.value with
  | none => rw [hv] at hcontra; simp at hcontra
  | some pv =>
    rw [hv] at hcontra
    simp only [] at hcontra
    cases hits : pv.items with
    | none =>
      simp only [hits] at hcontra
      split at hcontra
      · exact nestedProperties_noFuel hmono hnf schemaName propName propSchema
          st hcount hcontra
      · simp at hcontra
    | some its =>
      simp only [hits] at hcontra
      cases h1 : refStep recf its.ref
          ("schema." ++ schemaName ++ ".properties." ++ propName ++ ".items")
          (schemaName ++ ".properties." ++ propName ++ ".items") st with
      | error e =>
        rw [h1] at hcontra
        exact refStep_error_ne hnf hcount h1
          (by injection hcontra)
      | ok st1 =>
        rw [h1] at hcontra
        simp only [] at hcontra
        have hc1 : unvisitedCount doc st1.visited < bound :=
          Nat.lt_of_le_of_lt
            (unvisitedCount_anti doc (refStep_mono hmono _ _ _ st st1 h1).1)
            hcount
        split at hcontra
        · exact nestedProperties_noFuel hmono hnf schemaName propName propSchema
            st1 hc1 hcontra
        · simp at hcontra

theorem schemaPropertiesLoop_noFuel {doc : Doc} {bound : Nat}
    {recf : ResolveRec} (hmono : RecMono recf)
    (hnf : RecNoFuelFail doc bound recf) (schemaName : String)
    (l : List (String × SchemaRef)) (st : ResolveState)
    (hcount : unvisitedCount doc st.visited < bound) :
    processSchemaPropertiesLoop recf schemaName l st ≠
      .error .fuelExhausted := by
  induction l generalizing st with
  | nil =>
    unfold processSchemaPropertiesLoop
    intro hcontra
    simp at hcontra
  | cons hd rest ih =>
    obtain ⟨propName, propSchema⟩ := hd
    unfold processSchemaPropertiesLoop
    intro hcontra
    cases h1 : processPropertyRef recf schemaName propName propSchema st with
    | error e =>
      rw [h1] at hcontra
      have := propertyRef_noFuel hnf schemaName propName propSchema st hcount
      rw [h1] at this
      exact this hcontra
    | ok st1 =>
      rw [h1] at hcontra
      simp only [] at hcontra
      have hc1 : unvisitedCount doc st1.visited < bound :=
        Nat.lt_of_le_of_lt
          (unvisitedCount_anti doc (propertyRef_mono hmono _ _ _ st st1 h1).1)
          hcount
      cases h2 : processNestedPropertyObjects recf schemaName propName
          propSchema st1 with
      | error e =>
        rw [h2] at hcontra
        have := nestedPropertyObjects_noFuel hmono hnf schemaName propName
          propSchema st1 hc1
        rw [h2] at this
        exact this hcontra
      | ok st2 =>
        rw [h2] at hcontra
        simp only [] at hcontra
        have hc2 : unvisitedCount doc st2.visited < bound :=
          Nat.lt_of_le_of_lt
            (unvisitedCount_anti doc
              (nestedPropertyObjects_mono hmono _ _ _ st1 st2 h2).1) hc1
        exact ih st2 hc2 hcontra

theorem schemaProperties_noFuel {doc : Doc} {bound : Nat} {recf : ResolveRec}
    (hmono : RecMono recf) (hnf : RecNoFuelFail doc bound recf)
    (schemaName : String) (sv : Schema) (st : ResolveState)
    (hcount : unvisitedCount doc st.visited < bound) :
    processSchemaProperties recf schemaName sv st ≠ .error .fuelExhausted := by
  unfold processSchemaProperties
  intro hcontra
  split at hcontra
  · simp at hcontra
  · exact schemaPropertiesLoop_noFuel hmono hnf schemaName sv.properties st
      hcount hcontra

theorem compositionLoop_noFuel {doc : Doc} {bound : Nat} {recf : ResolveRec}
    (hmono : RecMono recf) (hnf : RecNoFuelFail doc bound recf)
    (schemaName compName : String) (i : Nat) (l : List SchemaRef)
    (st : ResolveState) (hcount : unvisitedCount doc st.visited < bound) :
    compositionLoop recf schemaName compName i l st ≠
      .error .fuelExhausted := by
  induction l generalizing i st with
  | nil =>
    unfold compositionLoop
    intro hcontra
    simp at hcontra
  | cons hd rest ih =>
    unfold compositionLoop
    intro hcontra
    cases h1 : refStep recf hd.ref
        ("schema." ++ schemaName ++ "." ++ compName ++ "[" ++ toString i ++ "]")
        (schemaName ++ "." ++ compName ++ "[" ++ toString i ++ "]") st with
    | error e =>
      rw [h1] at hcontra
      exact refStep_error_ne hnf hcount h1
        (by injection hcontra)
    | ok st1 =>
      rw [h1] at hcontra
      simp only [] at hcontra
      have hc1 : unvisitedCount doc st1.visited < bound :=
        Nat.lt_of_le_of_lt
          (unvisitedCount_anti doc (refStep_mono hmono _ _ _ st st1 h1).1) hcount
      exact ih (i + 1) st1 hc1 hcontra

theorem compositionSchemas_noFuel {doc : Doc} {bound : Nat} {recf : ResolveRec}
    (hmono : RecMono recf) (hnf : RecNoFuelFail doc bound recf)
    (schemaName : String) (sv : Schema) (st : ResolveState)
    (hcount : unvisitedCount doc st.visited < bound) :
    processCompositionSchemas recf schemaName sv st ≠
      .error .fuelExhausted := by
  unfold processCompositionSchemas
  intro hcontra
  cases h1 : compositionLoop recf schemaName "allOf" 0 sv.allOf st with
  | error e =>
    rw [h1] at hcontra
    have := compositionLoop_noFuel hmono hnf schemaName "allOf" 0 sv.allOf st hcount
    rw [h1] at this
    exact this hcontra
  | ok st1 =>
    rw [h1] at hcontra
    simp only [] at hcontra
    have hc1 : unvisitedCount doc st1.visited < bound :=
      Nat.lt_of_le_of_lt
        (unvisitedCount_anti doc (compositionLoop_mono hmono _ _ 0 _ st st1 h1).1)
        hcount
    cases h2 : compositionLoop recf schemaName "oneOf" 0 sv.oneOf st1 with
    | error e =>
      rw [h2] at hcontra
      have := compositionLoop_noFuel hmono hnf schemaName "oneOf" 0 sv.oneOf st1 hc1
      rw [h2] at this
      exact this hcontra
    | ok st2 =>
      rw [h2] at hcontra
      simp only [] at hcontra
      have hc2 : unvisitedCount doc st2.visited < bound :=
        Nat.lt_of_le_of_lt
          (unvisitedCount_anti doc
            (compositionLoop_mono hmono _ _ 0 _ st1 st2 h2).1) hc1
      exact compositionLoop_noFuel hmono hnf schemaName "anyOf" 0 sv.anyOf st2
        hc2 hcontra

theorem resolve_noFuel (doc : Doc) :
    ∀ fuel : Nat, RecNoFuelFail doc fuel (resolveSchemaRefsRecursively doc fuel) := by
  intro fuel
  induction fuel with
  | zero =>
    intro name ctx st hcount
    exact absurd hcount (Nat.not_lt_zero _)
  | succ fuel ih =>
    intro name ctx st hcount
    unfold resolveSchemaRefsRecursively
    split
    · intro hcontra
      simp at hcontra
    · next hnotvis =>
      intro hcontra
      cases hcomps : doc.components with
      | none => rw [hcomps] at hcontra; simp at hcontra
      | some comps =>
        rw [hcomps] at hcontra
        simp only [] at hcontra
        cases hlk : lookupKey comps.schemas name with
        | none => rw [hlk] at hcontra; simp at hcontra
        | some schema =>
          rw [hlk] at hcontra
          simp only [] at hcontra
          have hkey : name ∈ docSchemaKeys doc := by
            unfold docSchemaKeys
            rw [hcomps]
            exact mem_keys_of_lookupKey hlk
          have hnv : name ∉ st.visited := by
            intro hmem
            exact hnotvis ((contains_iff_mem _ _).mpr hmem)
          have hcount2 : unvisitedCount doc (st.visited ++ [name]) < fuel := by
            have hlt := unvisitedCount_lt doc hkey hnv
            omega
          have hmono := resolve_mono doc fuel
          have hnf := ih
          cases h1 : refStep (resolveSchemaRefsRecursively doc fuel) schema.ref
              ("schema." ++ name) name
              ⟨setKey st.schemas name schema, st.visited ++ [name]⟩ with
          | error e =>
            rw [h1] at hcontra
            have := refStep_noFuel hnf schema.ref ("schema." ++ name) name
              ⟨setKey st.schemas name schema, st.visited ++ [name]⟩ hcount2
            rw [h1] at this
            exact this hcontra
          | ok st1 =>
            rw [h1] at hcontra
            simp only [] at hcontra
            have hc1 : unvisitedCount doc st1.visited < fuel :=
              Nat.lt_of_le_of_lt
                (unvisitedCount_anti doc (refStep_mono hmono _ _ _ _ st1 h1).1)
                hcount2
            cases hv : schema.value with
            | none => rw [hv] at hcontra; simp at hcontra
            | some sv =>
              rw [hv] at hcontra
              simp only [] at hcontra
              cases h2 : processSchemaItems (resolveSchemaRefsRecursively doc fuel)
                  name sv st1 with
              | error e =>
                rw [h2] at hcontra
                have := schemaItems_noFuel hmono hnf name sv st1 hc1
                rw [h2] at this
                exact this hcontra
              | ok st2 =>
                rw [h2] at hcontra
                simp only [] at hcontra
                have hc2 : unvisitedCount doc st2.visited < fuel :=
                  Nat.lt_of_le_of_lt
                    (unvisitedCount_anti doc
                      (schemaItems_mono hmono name sv st1 st2 h2).1) hc1
                cases h3 : processSchemaProperties
                    (resolveSchemaRefsRecursively doc fuel) name sv st2 with
                | error e =>
                  rw [h3] at hcontra
                  have := schemaProperties_noFuel hmono hnf name sv st2 hc2
                  rw [h3] at this
                  exact this hcontra
                | ok st3 =>
                  rw [h3] at hcontra
                  simp only [] at hcontra
                  have hc3 : unvisitedCount doc st3.visited < fuel :=
                    Nat.lt_of_le_of_lt
                      (unvisitedCount_anti doc
                        (schemaProperties_mono hmono name sv st2 st3 h3).1) hc2
                  exact compositionSchemas_noFuel hmono hnf name sv st3 hc3
                    hcontra

theorem refStep_closure {doc : Doc} {seeds : List String} {recf : ResolveRec}
    (hrec : RecClosure doc seeds recf) {r loc ctx : String}
    {st st' : ResolveState}
    (hr : ∀ n : String, RefNames r n → InSchemaClosure doc seeds n)
    (hkeys : ∀ k ∈ keys st.schemas, InSchemaClosure doc seeds k)
    (hok : refStep recf r loc ctx st = .ok st') :
    ∀ k ∈ keys st'.schemas, InSchemaClosure doc seeds k := by
  unfold refStep at hok
  split at hok
  · cases hv : validateRef r loc with
    | error e => rw [hv] at hok; cases hok
    | ok refName =>
      rw [hv] at hok
      exact hrec refName ctx st st'
        (hr refName ((validateRef_ok_iff r loc refName).mp hv)) hkeys hok
  · injection hok with hok
    rw [← hok]
    exact hkeys

theorem itemPropsLoop_closure {doc : Doc} {seeds : List String}
    {recf : ResolveRec} (hrec : RecClosure doc seeds recf)
    (schemaName : String) (l : List (String × SchemaRef))
    (hl : ∀ pn : String, ∀ ps : SchemaRef, (pn, ps) ∈ l →
      ∀ n : String, SchemaRefersTo ps n → InSchemaClosure doc seeds n) :
    ∀ st st' : ResolveState,
      (∀ k ∈ keys st.schemas, InSchemaClosure doc seeds k) →
      processItemPropertiesLoop recf schemaName l st = .ok st' →
      ∀ k ∈ keys st'.schemas, InSchemaClosure doc seeds k := by
  induction l with
  | nil =>
    intro st st' hkeys hok
    unfold processItemPropertiesLoop at hok
    injection hok with hok
    rw [← hok]
    exact hkeys
  | cons hd rest ih =>
    obtain ⟨propName, propSchema⟩ := hd
    intro st st' hkeys hok
    have hhd : ∀ n : String, SchemaRefersTo propSchema n →
        InSchemaClosure doc seeds n :=
      fun n hn => hl propName propSchema (List.mem_cons_self _ _) n hn
    have hrest : ∀ pn : String, ∀ ps : SchemaRef, (pn, ps) ∈ rest →
        ∀ n : String, SchemaRefersTo ps n → InSchemaClosure doc seeds n :=
      fun pn ps hm n hn => hl pn ps (List.mem_cons_of_mem _ hm) n hn
    unfold processItemPropertiesLoop at hok
    cases h1 : refStep recf propSchema.ref
        ("schema." ++ schemaName ++ ".items.properties." ++ propName)
        (schemaName ++ ".items.properties." ++ propName) st with
    | error e => rw [h1] at hok; cases hok
    | ok st1 =>
      rw [h1] at hok
      simp only [] at hok
      have hk1 := refStep_closure hrec
        (fun n hrn => hhd n (schemaRefersTo_of_refNames hrn)) hkeys h1
      cases hv : propSchema.value with
      | none =>
        rw [hv] at hok
        simp only [] at hok
        exact ih hrest st1 st' hk1 hok
      | some pv =>
        rw [hv] at hok
        simp only [] at hok
        cases hits : pv.items with
        | none =>
          rw [hits] at hok
          simp only [] at hok
          exact ih hrest st1 st' hk1 hok
        | some pits =>
          rw [hits] at hok
          simp only [] at hok
          cases h2 : refStep recf pits.ref
              ("schema." ++ schemaName ++ ".items.properties." ++ propName ++
                ".items")
              (schemaName ++ ".items.properties." ++ propName ++ ".items") st1 with
          | error e => rw [h2] at hok; cases hok
          | ok st2 =>
            rw [h2] at hok
            simp only [] at hok
            have hk2 := refStep_closure hrec
              (fun n hrn => hhd n (schemaRefersTo_items hv hits
                (schemaRefersTo_of_refNames hrn))) hk1 h2
            exact ih hrest st2 st' hk2 hok

theorem itemProperties_closure {doc : Doc} {seeds : List String}
    {recf : ResolveRec} (hrec : RecClosure doc seeds recf)
    (schemaName : String) (sv : Schema)
    (hsv : ∀ n : String, ValueRefersTo sv n → InSchemaClosure doc seeds n)
    (st st' : ResolveState)
    (hkeys : ∀ k ∈ keys st.schemas, InSchemaClosure doc seeds k)
    (hok : processItemProperties recf schemaName sv st = .ok st') :
    ∀ k ∈ keys st'.schemas, InSchemaClosure doc seeds k := by
  unfold processItemProperties at hok
  cases hit : sv.items with
  | none => rw [hit] at hok; injection hok with hok; rw [← hok]; exact hkeys
  | some items =>
    rw [hit] at hok
    simp only [] at hok
    cases hiv : items.value with
    | none => rw [hiv] at hok; injection hok with hok; rw [← hok]; exact hkeys
    | some iv =>
      rw [hiv] at hok
      refine itemPropsLoop_closure hrec schemaName iv.properties ?_ st st' hkeys hok
      intro pn ps hm n hn
      exact hsv n (.items sv items n hit (schemaRefersTo_prop hiv hm hn))

theorem schemaItems_closure {doc : Doc} {seeds : List String}
    {recf : ResolveRec} (hrec : RecClosure doc seeds recf)
    (schemaName : String) (sv : Schema)
    (hsv : ∀ n : String, ValueRefersTo sv n → InSchemaClosure doc seeds n)
    (st st' : ResolveState)
    (hkeys : ∀ k ∈ keys st.schemas, InSchemaClosure doc seeds k)
    (hok : processSchemaItems recf schemaName sv st = .ok st') :
    ∀ k ∈ keys st'.schemas, InSchemaClosure doc seeds k := by
  unfold processSchemaItems at hok
  cases hit : sv.items with
  | none => rw [hit] at hok; injection hok with hok; rw [← hok]; exact hkeys
  | some items =>
    rw [hit] at hok
    simp only [] at hok
    cases h1 : refStep recf items.ref ("schema." ++ schemaName ++ ".items")
        (schemaName ++ ".items") st with
    | error e => rw [h1] at hok; cases hok
    | ok st1 =>
      rw [h1] at hok
      simp only [] at hok
      have hk1 := refStep_closure hrec
        (fun n hrn => hsv n (.items sv items n hit
          (schemaRefersTo_of_refNames hrn))) hkeys h1
      cases hiv : items.value with
      | none => rw [hiv] at hok; injection hok with hok; rw [← hok]; exact hk1
      | some iv =>
        rw [hiv] at hok
        simp only [] at hok
        split at hok
        · exact itemProperties_closure hrec schemaName sv hsv st1 st' hk1 hok
        · injection hok with hok; rw [← hok]; exact hk1

theorem propertyRef_closure {doc : Doc} {seeds : List String}
    {recf : ResolveRec} (hrec : RecClosure doc seeds recf)
    (schemaName propName : String) (propSchema : SchemaRef)
    (hps : ∀ n : String, SchemaRefersTo propSchema n →
      InSchemaClosure doc seeds n)
    (st st' : ResolveState)
    (hkeys : ∀ k ∈ keys st.schemas, InSchemaClosure doc seeds k)
    (hok : processPropertyRef recf schemaName propName propSchema st = .ok st') :
    ∀ k ∈ keys st'.schemas, InSchemaClosure doc seeds k := by
  unfold processPropertyRef at hok
  exact refStep_closure hrec
    (fun n hrn => hps n (schemaRefersTo_of_refNames hrn)) hkeys hok

theorem nestedPropsLoop_closure {doc : Doc} {seeds : List String}
    {recf : ResolveRec} (hrec : RecClosure doc seeds recf)
    (schemaName propName : String) (l : List (String × SchemaRef))
    (hl : ∀ pn : String, ∀ ps : SchemaRef, (pn, ps) ∈ l →
      ∀ n : String, SchemaRefersTo ps n → InSchemaClosure doc seeds n) :
    ∀ st st' : ResolveState,
      (∀ k ∈ keys st.schemas, InSchemaClosure doc seeds k) →
      processNestedPropertiesLoop recf schemaName propName l st = .ok st' →
      ∀ k ∈ keys st'.schemas, InSchemaClosure doc seeds k := by
  induction l with
  | nil =>
    intro st st' hkeys hok
    unfold processNestedPropertiesLoop at hok
    injection hok with hok
    rw [← hok]
    exact hkeys
  | cons hd rest ih =>
    obtain ⟨nestedPropName, nestedProp⟩ := hd
    intro st st' hkeys hok
    have hhd : ∀ n : String, SchemaRefersTo nestedProp n →
        InSchemaClosure doc seeds n :=
      fun n hn => hl nestedPropName nestedProp (List.mem_cons_self _ _) n hn
    have hrest : ∀ pn : String, ∀ ps : SchemaRef, (pn, ps) ∈ rest →
        ∀ n : String, SchemaRefersTo ps n → InSchemaClosure doc seeds n :=
      fun pn ps hm n hn => hl pn ps (List.mem_cons_of_mem _ hm) n hn
    unfold processNestedPropertiesLoop at hok
    cases h1 : refStep recf nestedProp.ref
        ("schema." ++ schemaName ++ ".properties." ++ propName ++ "." ++
          nestedPropName)
        (schemaName ++ ".properties." ++ propName ++ "." ++ nestedPropName) st with
    | error e => rw [h1] at hok; cases hok
    | ok st1 =>
      rw [h1] at hok
      simp only [] at hok
      have hk1 := refStep_closure hrec
        (fun n hrn => hhd n (schemaRefersTo_of_refNames hrn)) hkeys h1
      cases hv : nestedProp.value with
      | none =>
        rw [hv] at hok
        simp only [] at hok
        exact ih hrest st1 st' hk1 hok
      | some nv =>
        rw [hv] at hok
        simp only [] at hok
        cases hits : nv.items with
        | none =>
          rw [hits] at hok
          simp only [] at hok
          exact ih hrest st1 st' hk1 hok
        | some nits =>
          rw [hits] at hok
          simp only [] at hok
          cases h2 : refStep recf nits.ref
              ("schema." ++ schemaName ++ ".properties." ++ propName ++ "." ++
                nestedPropName ++ ".items")
              (schemaName ++ ".properties." ++ propName ++ "." ++
                nestedPropName ++ ".items") st1 with
          | error e => rw [h2] at hok; cases hok
          | ok st2 =>
            rw [h2] at hok
            simp only [] at hok
            have hk2 := refStep_closure hrec
              (fun n hrn => hhd n (schemaRefersTo_items hv hits
                (schemaRefersTo_of_refNames hrn))) hk1 h2
            exact ih hrest st2 st' hk2 hok

theorem nestedProperties_closure {doc : Doc} {seeds : List String}
    {recf : ResolveRec} (hrec : RecClosure doc seeds recf)
    (schemaName propName : String) (propSchema : SchemaRef)
    (hps : ∀ n : String, SchemaRefersTo propSchema n →
      InSchemaClosure doc seeds n)
    (st st' : ResolveState)
    (hkeys : ∀ k ∈ keys st.schemas, InSchemaClosure doc seeds k)
    (hok : processNestedProperties recf schemaName propName propSchema st
      = .ok st') :
    ∀ k ∈ keys st'.schemas, InSchemaClosure doc seeds k := by
  unfold processNestedProperties at hok
  cases hv : propSchema.value with
  | none => rw [hv] at hok; injection hok with hok; rw [← hok]; exact hkeys
  | some pv =>
    rw [hv] at hok
    refine nestedPropsLoop_closure hrec schemaName propName pv.properties ?_
      st st' hkeys hok
    intro pn ps hm n hn
    exact hps n (schemaRefersTo_prop hv hm hn)

theorem nestedPropertyObjects_closure {doc : Doc} {seeds : List String}
    {recf : ResolveRec} (hrec : RecClosure doc seeds recf)
    (schemaName propName : String) (propSchema : SchemaRef)
    (hps : ∀ n : String, SchemaRefersTo propSchema n →
      InSchemaClosure doc seeds n)
    (st st' : ResolveState)
    (hkeys : ∀ k ∈ keys st.schemas, InSchemaClosure doc seeds k)
    (hok : processNestedPropertyObjects recf schemaName propName propSchema st
      = .ok st') :
    ∀ k ∈ keys st'.schemas, InSchemaClosure doc seeds k := by
  unfold processNestedPropertyObjects at hok
  cases hv : propSchema.value with
  | none => rw [hv] at hok; injection hok with hok; rw [← hok]; exact hkeys
  | some pv =>
    rw [hv] at hok
    simp only [] at hok
    cases hits : pv.items with
    | none =>
      simp only [hits] at hok
      split at hok
      · exact nestedProperties_closure hrec schemaName propName propSchema hps
          st st' hkeys hok
      · injection hok with hok; rw [← hok]; exact hkeys
    | some its =>
      simp only [hits] at hok
      cases h1 : refStep recf its.ref
          ("schema." ++ schemaName ++ ".properties." ++ propName ++ ".items")
          (schemaName ++ ".properties." ++ propName ++ ".items") st with
      | error e => rw [h1] at hok; cases hok
      | ok st1 =>
        rw [h1] at hok
        simp only [] at hok
        have hk1 := refStep_closure hrec
          (fun n hrn => hps n (schemaRefersTo_items hv hits
            (schemaRefersTo_of_refNames hrn))) hkeys h1
        split at hok
        · exact nestedProperties_closure hrec schemaName propName propSchema hps
            st1 st' hk1 hok
        · injection hok with hok; rw [← hok]; exact hk1

theorem schemaPropertiesLoop_closure {doc : Doc} {seeds : List String}
    {recf : ResolveRec} (hrec : RecClosure doc seeds recf)
    (schemaName : String) (l : List (String × SchemaRef))
    (hl : ∀ pn : String, ∀ ps : SchemaRef, (pn, ps) ∈ l →
      ∀ n : String, SchemaRefersTo ps n → InSchemaClosure doc seeds n) :
    ∀ st st' : ResolveState,
      (∀ k ∈ keys st.schemas, InSchemaClosure doc seeds k) →
      processSchemaPropertiesLoop recf schemaName l st = .ok st' →
      ∀ k ∈ keys st'.schemas, InSchemaClosure doc seeds k := by
  induction l with
  | nil =>
    intro st st' hkeys hok
    unfold processSchemaPropertiesLoop at hok
    injection hok with hok
    rw [← hok]
    exact hkeys
  | cons hd rest ih =>
    obtain ⟨propName, propSchema⟩ := hd
    intro st st' hkeys hok
    have hhd : ∀ n : String, SchemaRefersTo propSchema n →
        InSchemaClosure doc seeds n :=
      fun n hn => hl propName propSchema (List.mem_cons_self _ _) n hn
    have hrest : ∀ pn : String, ∀ ps : SchemaRef, (pn, ps) ∈ rest →
        ∀ n : String, SchemaRefersTo ps n → InSchemaClosure doc seeds n :=
      fun pn ps hm n hn => hl pn ps (List.mem_cons_of_mem _ hm) n hn
    unfold processSchemaPropertiesLoop at hok
    cases h1 : processPropertyRef recf schemaName propName propSchema st with
    | error e => rw [h1] at hok; cases hok
    | ok st1 =>
      rw [h1] at hok
      simp only [] at hok
      have hk1 := propertyRef_closure hrec schemaName propName propSchema hhd
        st st1 hkeys h1
      cases h2 : processNestedPropertyObjects recf schemaName propName
          propSchema st1 with
      | error e => rw [h2] at hok; cases hok
      | ok st2 =>
        rw [h2] at hok
        simp only [] at hok
        have hk2 := nestedPropertyObjects_closure hrec schemaName propName
          propSchema hhd st1 st2 hk1 h2
        exact ih hrest st2 st' hk2 hok

theorem schemaProperties_closure {doc : Doc} {seeds : List String}
    {recf : ResolveRec} (hrec : RecClosure doc seeds recf)
    (schemaName : String) (sv : Schema)
    (hsv : ∀ n : String, ValueRefersTo sv n → InSchemaClosure doc seeds n)
    (st st' : ResolveState)
    (hkeys : ∀ k ∈ keys st.schemas, InSchemaClosure doc seeds k)
    (hok : processSchemaProperties recf schemaName sv st = .ok st') :
    ∀ k ∈ keys st'.schemas, InSchemaClosure doc seeds k := by
  unfold processSchemaProperties at hok
  split at hok
  · injection hok with hok; rw [← hok]; exact hkeys
  · refine schemaPropertiesLoop_closure hrec schemaName sv.properties ?_
      st st' hkeys hok
    intro pn ps hm n hn
    exact hsv n (.prop sv pn ps n hm hn)

theorem compositionLoop_closure {doc : Doc} {seeds : List String}
    {recf : ResolveRec} (hrec : RecClosure doc seeds recf)
    (schemaName compName : String) (l : List SchemaRef)
    (hl : ∀ c ∈ l, ∀ n : String, SchemaRefersTo c n →
      InSchemaClosure doc seeds n) :
    ∀ i : Nat, ∀ st st' : ResolveState,
      (∀ k ∈ keys st.schemas, InSchemaClosure doc seeds k) →
      compositionLoop recf schemaName compName i l st = .ok st' →
      ∀ k ∈ keys st'.schemas, InSchemaClosure doc seeds k := by
  induction l with
  | nil =>
    intro i st st' hkeys hok
    unfold compositionLoop at hok
    injection hok with hok
    rw [← hok]
    exact hkeys
  | cons hd rest ih =>
    intro i st st' hkeys hok
    have hhd : ∀ n : String, SchemaRefersTo hd n →
        InSchemaClosure doc seeds n :=
      fun n hn => hl hd (List.mem_cons_self _ _) n hn
    have hrest : ∀ c ∈ rest, ∀ n : String, SchemaRefersTo c n →
        InSchemaClosure doc seeds n :=
      fun c hm n hn => hl c (List.mem_cons_of_mem _ hm) n hn
    unfold compositionLoop at hok
    cases h1 : refStep recf hd.ref
        ("schema." ++ schemaName ++ "." ++ compName ++ "[" ++ toString i ++ "]")
        (schemaName ++ "." ++ compName ++ "[" ++ toString i ++ "]") st with
    | error e => rw [h1] at hok; cases hok
    | ok st1 =>
      rw [h1] at hok
      simp only [] at hok
      have hk1 := refStep_closure hrec
        (fun n hrn => hhd n (schemaRefersTo_of_refNames hrn)) hkeys h1
      exact ih hrest (i + 1) st1 st' hk1 hok

theorem compositionSchemas_closure {doc : Doc} {seeds : List String}
    {recf : ResolveRec} (hrec : RecClosure doc seeds recf)
    (schemaName : String) (sv : Schema)
    (hsv : ∀ n : String, ValueRefersTo sv n → InSchemaClosure doc seeds n)
    (st st' : ResolveState)
    (hkeys : ∀ k ∈ keys st.schemas, InSchemaClosure doc seeds k)
    (hok : processCompositionSchemas recf schemaName sv st = .ok st') :
    ∀ k ∈ keys st'.schemas, InSchemaClosure doc seeds k := by
  unfold processCompositionSchemas at hok
  cases h1 : compositionLoop recf schemaName "allOf" 0 sv.allOf st with
  | error e => rw [h1] at hok; cases hok
  | ok st1 =>
    rw [h1] at hok
    simp only [] at hok
    have hk1 := compositionLoop_closure hrec schemaName "allOf" sv.allOf
      (fun c hm n hn => hsv n (.allOfMem sv c n hm hn)) 0 st st1 hkeys h1
    cases h2 : compositionLoop recf schemaName "oneOf" 0 sv.oneOf st1 with
    | error e => rw [h2] at hok; cases hok
    | ok st2 =>
      rw [h2] at hok
      simp only [] at hok
      have hk2 := compositionLoop_closure hrec schemaName "oneOf" sv.oneOf
        (fun c hm n hn => hsv n (.oneOfMem sv c n hm hn)) 0 st1 st2 hk1 h2
      exact compositionLoop_closure hrec schemaName "anyOf" sv.anyOf
        (fun c hm n hn => hsv n (.anyOfMem sv c n hm hn)) 0 st2 st' hk2 hok

theorem resolve_closure (doc : Doc) (seeds : List String) :
    ∀ fuel : Nat,
      RecClosure doc seeds (resolveSchemaRefsRecursively doc fuel) := by
  intro fuel
  induction fuel with
  | zero =>
    intro name ctx st st' _ _ hok
    cases hok
  | succ fuel ih =>
    intro name ctx st st' hname hkeys hok
    unfold resolveSchemaRefsRecursively at hok
    split at hok
    · injection hok with hok
      rw [← hok]
      exact hkeys
    · cases hcomps : doc.components with
      | none => rw [hcomps] at hok; cases hok
      | some comps =>
        rw [hcomps] at hok
        simp only [] at hok
        cases hlk : lookupKey comps.schemas name with
        | none => rw [hlk] at hok; cases hok
        | some schema =>
          rw [hlk] at hok
          simp only [] at hok
          have hk0 : ∀ k ∈ keys (setKey st.schemas name schema),
              InSchemaClosure doc seeds k := by
            intro k hk
            rcases mem_keys_setKey_elim hk with heq | hm
            · rw [heq]
              exact hname
            · exact hkeys k hm
          have hstep : ∀ n : String, SchemaRefersTo schema n →
              InSchemaClosure doc seeds n :=
            fun n hn => .step name comps schema n hname hcomps hlk hn
          cases h1 : refStep (resolveSchemaRefsRecursively doc fuel) schema.ref
              ("schema." ++ name) name
              ⟨setKey st.schemas name schema, st.visited ++ [name]⟩ with
          | error e => rw [h1] at hok; cases hok
          | ok st1 =>
            rw [h1] at hok
            simp only [] at hok
            have hk1 := refStep_closure ih
              (fun n hrn => hstep n (schemaRefersTo_of_refNames hrn)) hk0 h1
            cases hv : schema.value with
            | none =>
              rw [hv] at hok
              injection hok with hok
              rw [← hok]
              exact hk1
            | some sv =>
              rw [hv] at hok
              simp only [] at hok
              have hsv : ∀ n : String, ValueRefersTo sv n →
                  InSchemaClosure doc seeds n :=
                fun n hn => hstep n (schemaRefersTo_value hv hn)
              cases h2 : processSchemaItems (resolveSchemaRefsRecursively doc fuel)
                  name sv st1 with
              | error e => rw [h2] at hok; cases hok
              | ok st2 =>
                rw [h2] at hok
                simp only [] at hok
                have hk2 := schemaItems_closure ih name sv hsv st1 st2 hk1 h2
                cases h3 : processSchemaProperties
                    (resolveSchemaRefsRecursively doc fuel) name sv st2 with
                | error e => rw [h3] at hok; cases hok
                | ok st3 =>
                  rw [h3] at hok
                  have hk3 := schemaProperties_closure ih name sv hsv st2 st3 hk2 h3
                  exact compositionSchemas_closure ih name sv hsv st3 st' hk3 hok

theorem dedup_filter_true_lt (doc : Doc) :
    unvisitedCount doc [] < schemaFuel doc := by
  unfold unvisitedCount schemaFuel docSchemaKeys
  cases hcomps : doc.components with
  | none => simp
  | some comps =>
    dsimp only
    have h1 : ((keys comps.schemas).dedup.filter
        (fun k => !([] : List String).contains k)).length ≤
        (keys comps.schemas).dedup.length := List.length_filter_le _ _
    have h2 : (keys comps.schemas).dedup.length ≤ (keys comps.schemas).length :=
      (List.dedup_sublist _).length_le
    have h3 : (keys comps.schemas).length = comps.schemas.length := by
      simp [keys]
    omega

theorem resolveSeedSchemas_noFuel (doc : Doc) :
    ∀ l : List String, ∀ acc : List (String × SchemaRef),
      resolveSeedSchemas doc l acc ≠ .error .fuelExhausted := by
  intro l
  induction l with
  | nil =>
    intro acc hcontra
    unfold resolveSeedSchemas at hcontra
    simp at hcontra
  | cons hd rest ih =>
    intro acc hcontra
    unfold resolveSeedSchemas at hcontra
    cases h1 : resolveSchemaRefsRecursively doc (schemaFuel doc) hd "root"
        ⟨acc, []⟩ with
    | error e =>
      rw [h1] at hcontra
      simp only [] at hcontra
      injection hcontra with hcontra
      subst hcontra
      exact resolve_noFuel doc (schemaFuel doc) hd "root" ⟨acc, []⟩
        (dedup_filter_true_lt doc) h1
    | ok st =>
      rw [h1] at hcontra
      simp only [] at hcontra
      exact ih st.schemas hcontra

theorem resolveRequestBodyRefs_noFuel (comps : Components) :
    ∀ l : List String, ∀ acc : List (String × RequestBodyRef),
      resolveRequestBodyRefs comps l acc ≠ .error .fuelExhausted := by
  intro l
  induction l with
  | nil =>
    intro acc hcontra
    unfold resolveRequestBodyRefs at hcontra
    simp at hcontra
  | cons hd rest ih =>
    intro acc hcontra
    unfold resolveRequestBodyRefs at hcontra
    cases h1 : lookupKey comps.requestBodies hd with
    | none => rw [h1] at hcontra; simp at hcontra
    | some rb =>
      rw [h1] at hcontra
      simp only [] at hcontra
      exact ih _ hcontra

theorem resolveParameterRefs_noFuel (comps : Components) :
    ∀ l : List String, ∀ acc : List (String × ParameterRef),
      resolveParameterRefs comps l acc ≠ .error .fuelExhausted := by
  intro l
  induction l with
  | nil =>
    intro acc hcontra
    unfold resolveParameterRefs at hcontra
    simp at hcontra
  | cons hd rest ih =>
    intro acc hcontra
    unfold resolveParameterRefs at hcontra
    cases h1 : lookupKey comps.parameters hd with
    | none => rw [h1] at hcontra; simp at hcontra
    | some p =>
      rw [h1] at hcontra
      simp only [] at hcontra
      exact ih _ hcontra

theorem resolveResponseRefs_noFuel (comps : Components) :
    ∀ l : List String, ∀ acc : List (String × ResponseRef),
      resolveResponseRefs comps l acc ≠ .error .fuelExhausted := by
  intro l
  induction l with
  | nil =>
    intro acc hcontra
    unfold resolveResponseRefs at hcontra
    simp at hcontra
  | cons hd rest ih =>
    intro acc hcontra
    unfold resolveResponseRefs at hcontra
    cases h1 : lookupKey comps.responses hd with
    | none => rw [h1] at hcontra; simp at hcontra
    | some r =>
      rw [h1] at hcontra
      simp only [] at hcontra
      exact ih _ hcontra

theorem resolveAllReferences_noFuel (doc : Doc) (pr : ProcessedRefs) :
    resolveAllReferences doc pr ≠ .error .fuelExhausted := by
  unfold resolveAllReferences
  intro hcontra
  cases hs : resolveSeedSchemas doc pr.schemas [] with
  | error e =>
    rw [hs] at hcontra
    simp only [] at hcontra
    injection hcontra with hcontra
    subst hcontra
    exact resolveSeedSchemas_noFuel doc pr.schemas [] hs
  | ok schemas =>
    rw [hs] at hcontra
    simp only [] at hcontra
    cases hcomps : doc.components with
    | none => rw [hcomps] at hcontra; simp at hcontra
    | some comps =>
      rw [hcomps] at hcontra
      simp only [] at hcontra
      cases h1 : resolveRequestBodyRefs comps pr.requestBodies [] with
      | error e =>
        rw [h1] at hcontra
        simp only [] at hcontra
        injection hcontra with hcontra
        subst hcontra
        exact resolveRequestBodyRefs_noFuel comps pr.requestBodies [] h1
      | ok rbs =>
        rw [h1] at hcontra
        simp only [] at hcontra
        cases h2 : resolveParameterRefs comps pr.parameters [] with
        | error e =>
          rw [h2] at hcontra
          simp only [] at hcontra
          injection hcontra with hcontra
          subst hcontra
          exact resolveParameterRefs_noFuel comps pr.parameters [] h2
        | ok ps =>
          rw [h2] at hcontra
          simp only [] at hcontra
          cases h3 : resolveResponseRefs comps pr.responses [] with
          | error e =>
            rw [h3] at hcontra
            simp only [] at hcontra
            injection hcontra with hcontra
            subst hcontra
            exact resolveResponseRefs_noFuel comps pr.responses [] h3
          | ok rs => rw [h3] at hcontra; simp at hcontra

theorem resolveSeedSchemas_keysMono (doc : Doc) :
    ∀ l : List String, ∀ acc res : List (String × SchemaRef),
      resolveSeedSchemas doc l acc = .ok res →
      ∀ k ∈ keys acc, k ∈ keys res := by
  intro l
  induction l with
  | nil =>
    intro acc res hok k hk
    unfold resolveSeedSchemas at hok
    injection hok with hok
    rw [← hok]
    exact hk
  | cons hd rest ih =>
    intro acc res hok k hk
    unfold resolveSeedSchemas at hok
    cases h1 : resolveSchemaRefsRecursively doc (schemaFuel doc) hd "root"
        ⟨acc, []⟩ with
    | error e => rw [h1] at hok; cases hok
    | ok st =>
      rw [h1] at hok
      simp only [] at hok
      have hmono := (resolve_mono doc (schemaFuel doc) hd "root" ⟨acc, []⟩ st h1).2
      exact ih st.schemas res hok k (hmono k hk)

theorem resolve_cycle (doc : Doc) (comps : Components) (A B refA refB : String)
    (hcomps : doc.components = some comps)
    (hA : lookupKey comps.schemas A = some (.mk refA none))
    (hrnA : RefNames refA B)
    (hB : lookupKey comps.schemas B = some (.mk refB none))
    (hrnB : RefNames refB A)
    (hAB : A ≠ B) :
    ∀ fuel : Nat, ∀ ctx : String, ∀ st res : ResolveState,
      st.visited = [] →
      resolveSchemaRefsRecursively doc fuel A ctx st = .ok res →
      A ∈ keys res.schemas ∧ B ∈ keys res.schemas := by
  intro fuel ctx st res hvis hok
  cases fuel with
  | zero => cases hok
  | succ fuel =>
    unfold resolveSchemaRefsRecursively at hok
    rw [hvis] at hok
    simp only [List.contains, List.elem_nil, Bool.false_eq_true, if_false,
      hcomps, hA] at hok
    unfold refStep at hok
    simp only [SchemaRef.ref, SchemaRef.value] at hok
    rw [if_pos hrnA.1,
      (validateRef_ok_iff refA ("schema." ++ A) B).mpr hrnA] at hok
    simp only [] at hok
    cases h1 : resolveSchemaRefsRecursively doc fuel B A
        ⟨setKey st.schemas A (.mk refA none), [] ++ [A]⟩ with
    | error e => rw [h1] at hok; cases hok
    | ok st1 =>
      rw [h1] at hok
      simp only [] at hok
      injection hok with hok
      subst hok
      cases fuel with
      | zero => cases h1
      | succ fuel =>
        unfold resolveSchemaRefsRecursively at h1
        have hcontains : (([] : List String) ++ [A]).contains B = false := by
          simp [List.contains]
          exact fun h => hAB h.symm
        simp only [hcontains, Bool.false_eq_true, if_false,
          hcomps, hB] at h1
        unfold refStep at h1
        simp only [SchemaRef.ref, SchemaRef.value] at h1
        rw [if_pos hrnB.1,
          (validateRef_ok_iff refB ("schema." ++ B) A).mpr hrnB] at h1
        simp only [] at h1
        cases h2 : resolveSchemaRefsRecursively doc fuel A B
            ⟨setKey (setKey st.schemas A (.mk refA none)) B (.mk refB none),
              ([] ++ [A]) ++ [B]⟩ with
        | error e => rw [h2] at h1; cases h1
        | ok st2 =>
          rw [h2] at h1
          simp only [] at h1
          injection h1 with h1
          subst h1
          cases fuel with
          | zero => cases h2
          | succ fuel =>
            unfold resolveSchemaRefsRecursively at h2
            have hcontains2 :
                ((([] : List String) ++ [A]) ++ [B]).contains A = true := by
              simp [List.contains]
            rw [hcontains2] at h2
            rw [if_pos rfl] at h2
            injection h2 with h2
            rw [← h2]
            constructor
            · exact mem_keys_setKey_of_mem B _ (self_mem_keys_setKey _ A _)
            · exact self_mem_keys_setKey _ B _

theorem resolveSeedSchemas_cycle (doc : Doc) (comps : Components)
    (A B refA refB : String)
    (hcomps : doc.components = some comps)
    (hA : lookupKey comps.schemas A = some (.mk refA none))
    (hrnA : RefNames refA B)
    (hB : lookupKey comps.schemas B = some (.mk refB none))
    (hrnB : RefNames refB A)
    (hAB : A ≠ B) :
    ∀ l : List String, ∀ acc res : List (String × SchemaRef),
      A ∈ l →
      resolveSeedSchemas doc l acc = .ok res →
      A ∈ keys res ∧ B ∈ keys res := by
  intro l
  induction l with
  | nil => intro acc res hmem; cases hmem
  | cons hd rest ih =>
    intro acc res hmem hok
    unfold resolveSeedSchemas at hok
    cases h1 : resolveSchemaRefsRecursively doc (schemaFuel doc) hd "root"
        ⟨acc, []⟩ with
    | error e => rw [h1] at hok; cases hok
    | ok st =>
      rw [h1] at hok
      simp only [] at hok
      rcases List.mem_cons.mp hmem with heq | hmem'
      · subst heq
        have hres := resolve_cycle doc comps A B refA refB hcomps hA hrnA hB
          hrnB hAB (schemaFuel doc) "root" ⟨acc, []⟩ st rfl h1
        have hkeep := resolveSeedSchemas_keysMono doc rest st.schemas res hok
        exact ⟨hkeep A hres.1, hkeep B hres.2⟩
      · exact ih st.schemas res hmem' hok

/-- C9: closure expansion terminates on every document (the visited
guard bounds the recursion, so the fuel `schemaFuel doc` is never
exhausted), and for any reference cycle `A -> B -> A` in the component
schemas, if either cycle member is seeded then both end up in the
resolved schema components. -/
theorem closure_terminates_and_cycle (doc : Doc) (pr : ProcessedRefs) :
    resolveAllReferences doc pr ≠ .error .fuelExhausted ∧
    (∀ comps : Components, ∀ A B refA refB : String,
      ∀ fc : FilteredComponents,
      doc.components = some comps →
      lookupKey comps.schemas A = some (.mk refA none) →
      RefNames refA B →
      lookupKey comps.schemas B = some (.mk refB none) →
      RefNames refB A →
      A ≠ B →
      (A ∈ pr.schemas ∨ B ∈ pr.schemas) →
      resolveAllReferences doc pr = .ok fc →
      A ∈ keys fc.schemas ∧ B ∈ keys fc.schemas) := by
  constructor
  · exact resolveAllReferences_noFuel doc pr
  · intro comps A B refA refB fc hcomps hA hrnA hB hrnB hAB hseed hok
    unfold resolveAllReferences at hok
    cases h1 : resolveSeedSchemas doc pr.schemas [] with
    | error e => rw [h1] at hok; cases hok
    | ok schemas =>
      rw [h1] at hok
      simp only [hcomps] at hok
      have hkeys : A ∈ keys schemas ∧ B ∈ keys schemas := by
        rcases hseed with hs | hs
        · exact resolveSeedSchemas_cycle doc comps A B refA refB hcomps hA
            hrnA hB hrnB hAB pr.schemas [] schemas hs h1
        · have h := resolveSeedSchemas_cycle doc comps B A refB refA hcomps
            hB hrnB hA hrnA (fun h => hAB h.symm) pr.schemas [] schemas hs h1
          exact ⟨h.2, h.1⟩
      cases h2 : resolveRequestBodyRefs comps pr.requestBodies [] with
      | error e => rw [h2] at hok; cases hok
      | ok rb =>
        rw [h2] at hok
        simp only [] at hok
        cases h3 : resolveParameterRefs comps pr.parameters [] with
        | error e => rw [h3] at hok; cases hok
        | ok ps =>
          rw [h3] at hok
          simp only [] at hok
          cases h4 : resolveResponseRefs comps pr.responses [] with
          | error e => rw [h4] at hok; cases hok
          | ok rs =>
            rw [h4] at hok
            simp only [] at hok
            injection hok with hok
            rw [← hok]
            exact hkeys

/-- Witness for C9: on `cycleDoc` (schemas `A -> B -> A`) with only `A`
seeded, resolution succeeds and both `A` and `B` are in the output. -/
theorem closure_terminates_and_cycle_witness :
    "A" ∈ keys cycleFC.schemas ∧ "B" ∈ keys cycleFC.schemas :=
  (closure_terminates_and_cycle cycleDoc cyclePR).2 cycleComps
    "A" "B" "#/components/schemas/B" "#/components/schemas/A" cycleFC
    rfl rfl ((validateRef_ok_iff "#/components/schemas/B" "w" "B").mp rfl)
    rfl ((validateRef_ok_iff "#/components/schemas/A" "w" "A").mp rfl)
    (by decide) (Or.inl (List.mem_cons_self "A" []))
    rfl

theorem resolveSeedSchemas_closure (doc : Doc) (seeds : List String) :
    ∀ l : List String, (∀ n ∈ l, n ∈ seeds) →
    ∀ acc res : List (String × SchemaRef),
      (∀ k ∈ keys acc, InSchemaClosure doc seeds k) →
      resolveSeedSchemas doc l acc = .ok res →
      ∀ k ∈ keys res, InSchemaClosure doc seeds k := by
  intro l
  induction l with
  | nil =>
    intro _ acc res hacc hok
    unfold resolveSeedSchemas at hok
    injection hok with hok
    rw [← hok]
    exact hacc
  | cons hd rest ih =>
    intro hsub acc res hacc hok
    unfold resolveSeedSchemas at hok
    cases h1 : resolveSchemaRefsRecursively doc (schemaFuel doc) hd "root"
        ⟨acc, []⟩ with
    | error e => rw [h1] at hok; cases hok
    | ok st =>
      rw [h1] at hok
      simp only [] at hok
      have hst : ∀ k ∈ keys st.schemas, InSchemaClosure doc seeds k :=
        resolve_closure doc seeds (schemaFuel doc) hd "root" ⟨acc, []⟩ st
          (.seed hd (hsub hd (List.mem_cons_self hd rest))) hacc h1
      exact ih (fun n hn => hsub n (List.mem_cons_of_mem hd hn))
        st.schemas res hst hok

theorem resolveRequestBodyRefs_keys_from (comps : Components) :
    ∀ names : List String, ∀ acc res : List (String × RequestBodyRef),
      resolveRequestBodyRefs comps names acc = .ok res →
      ∀ k ∈ keys res, k ∈ names ∨ k ∈ keys acc := by
  intro names
  induction names with
  | nil =>
    intro acc res hok k hk
    unfold resolveRequestBodyRefs at hok
    injection hok with hok
    rw [← hok] at hk
    exact Or.inr hk
  | cons hd rest ih =>
    intro acc res hok k hk
    unfold resolveRequestBodyRefs at hok
    cases h1 : lookupKey comps.requestBodies hd with
    | none => rw [h1] at hok; cases hok
    | some rb =>
      rw [h1] at hok
      simp only [] at hok
      rcases ih (setKey acc hd rb) res hok k hk with h | h
      · exact Or.inl (List.mem_cons_of_mem hd h)
      · rcases mem_keys_setKey_elim h with h2 | h2
        · exact Or.inl (h2 ▸ List.mem_cons_self hd rest)
        · exact Or.inr h2

theorem resolveParameterRefs_keys_from (comps : Components) :
    ∀ names : List String, ∀ acc res : List (String × ParameterRef),
      resolveParameterRefs comps names acc = .ok res →
      ∀ k ∈ keys res, k ∈ names ∨ k ∈ keys acc := by
  intro names
  induction names with
  | nil =>
    intro acc res hok k hk
    unfold resolveParameterRefs at hok
    injection hok with hok
    rw [← hok] at hk
    exact Or.inr hk
  | cons hd rest ih =>
    intro acc res hok k hk
    unfold resolveParameterRefs at hok
    cases h1 : lookupKey comps.parameters hd with
    | none => rw [h1] at hok; cases hok
    | some p =>
      rw [h1] at hok
      simp only [] at hok
      rcases ih (setKey acc hd p) res hok k hk with h | h
      · exact Or.inl (List.mem_cons_of_mem hd h)
      · rcases mem_keys_setKey_elim h with h2 | h2
        · exact Or.inl (h2 ▸ List.mem_cons_self hd rest)
        · exact Or.inr h2

theorem resolveResponseRefs_keys_from (comps : Components) :
    ∀ names : List String, ∀ acc res : List (String × ResponseRef),
      resolveResponseRefs comps names acc = .ok res →
      ∀ k ∈ keys res, k ∈ names ∨ k ∈ keys acc := by
  intro names
  induction names with
  | nil =>
    intro acc res hok k hk
    unfold resolveResponseRefs at hok
    injection hok with hok
    rw [← hok] at hk
    exact Or.inr hk
  | cons hd rest ih =>
    intro acc res hok k hk
    unfold resolveResponseRefs at hok
    cases h1 : lookupKey comps.responses hd with
    | none => rw [h1] at hok; cases hok
    | some r =>
      rw [h1] at hok
      simp only [] at hok
      rcases ih (setKey acc hd r) res hok k hk with h | h
      · exact Or.inl (List.mem_cons_of_mem hd h)
      · rcases mem_keys_setKey_elim h with h2 | h2
        · exact Or.inl (h2 ▸ List.mem_cons_self hd rest)
        · exact Or.inr h2

theorem mem_keys_of_mem_keys_filter {α : Type} {l : List (String × α)}
    {p : String × α → Bool} {k : String}
    (h : k ∈ keys (l.filter p)) : k ∈ keys l := by
  unfold keys at h ⊢
  simp only [List.mem_map] at h ⊢
  obtain ⟨kv, hkv, hfst⟩ := h
  exact ⟨kv, List.mem_of_mem_filter hkv, hfst⟩

theorem pruneUnusedComponents_fields (fc : FilteredComponents)
    (pr : ProcessedRefs) :
    (∀ k ∈ keys (pruneUnusedComponents fc pr).schemas, k ∈ keys fc.schemas) ∧
    (∀ k ∈ keys (pruneUnusedComponents fc pr).parameters,
      k ∈ keys fc.parameters) ∧
    (∀ k ∈ keys (pruneUnusedComponents fc pr).requestBodies,
      k ∈ keys fc.requestBodies) ∧
    (∀ k ∈ keys (pruneUnusedComponents fc pr).responses,
      k ∈ keys fc.responses) := by
  unfold pruneUnusedComponents
  exact ⟨fun k hk => mem_keys_of_mem_keys_filter hk,
    fun k hk => mem_keys_of_mem_keys_filter hk,
    fun k hk => mem_keys_of_mem_keys_filter hk,
    fun k hk => mem_keys_of_mem_keys_filter hk⟩

theorem resolveAllReferences_sound (doc : Doc) (pr : ProcessedRefs)
    (fc : FilteredComponents)
    (hok : resolveAllReferences doc pr = .ok fc) :
    (∀ k ∈ keys fc.schemas, InSchemaClosure doc pr.schemas k) ∧
    (∀ k ∈ keys fc.parameters, k ∈ pr.parameters) ∧
    (∀ k ∈ keys fc.requestBodies, k ∈ pr.requestBodies) ∧
    (∀ k ∈ keys fc.responses, k ∈ pr.responses) := by
  unfold resolveAllReferences at hok
  cases h1 : resolveSeedSchemas doc pr.schemas [] with
  | error e => rw [h1] at hok; cases hok
  | ok schemas =>
    rw [h1] at hok
    have hcl : ∀ k ∈ keys schemas, InSchemaClosure doc pr.schemas k :=
      resolveSeedSchemas_closure doc pr.schemas pr.schemas (fun n hn => hn)
        [] schemas (fun k hk => absurd hk (List.not_mem_nil k)) h1
    cases hc : doc.components with
    | none =>
      rw [hc] at hok
      simp only [] at hok
      injection hok with hok
      rw [← hok]
      exact ⟨hcl, fun k hk => absurd hk (List.not_mem_nil k),
        fun k hk => absurd hk (List.not_mem_nil k),
        fun k hk => absurd hk (List.not_mem_nil k)⟩
    | some comps =>
      rw [hc] at hok
      simp only [] at hok
      cases h2 : resolveRequestBodyRefs comps pr.requestBodies [] with
      | error e => rw [h2] at hok; cases hok
      | ok rb =>
        rw [h2] at hok
        simp only [] at hok
        cases h3 : resolveParameterRefs comps pr.parameters [] with
        | error e => rw [h3] at hok; cases hok
        | ok ps =>
          rw [h3] at hok
          simp only [] at hok
          cases h4 : resolveResponseRefs comps pr.responses [] with
          | error e => rw [h4] at hok; cases hok
          | ok rs =>
            rw [h4] at hok
            simp only [] at hok
            injection hok with hok
            rw [← hok]
            refine ⟨hcl, ?_, ?_, ?_⟩
            · intro k hk
              rcases resolveParameterRefs_keys_from comps pr.parameters []
                  ps h3 k hk with h | h
              · exact h
              · exact absurd h (List.not_mem_nil k)
            · intro k hk
              rcases resolveRequestBodyRefs_keys_from comps pr.requestBodies []
                  rb h2 k hk with h | h
              · exact h
              · exact absurd h (List.not_mem_nil k)
            · intro k hk
              rcases resolveResponseRefs_keys_from comps pr.responses []
                  rs h4 k hk with h | h
              · exact h
              · exact absurd h (List.not_mem_nil k)

/-- C2 (amended): with pruning enabled the output components are sound
with respect to the reference closure — every schema key of the output
lies in the closure of the seeded schema names, and every parameter,
request body and response key of the output is one of the collected
operation-level names.  Exactness ("no less") fails: the resolver never
follows a `not` reference, so a closure member can be absent (see the
counterexample). -/
theorem filter_components_subset_closure (doc : Doc) (opts : FilterOptions)
    (fpaths : List (String × PathItem)) (tags : List String)
    (pr : ProcessedRefs) (out : Doc)
    (hseed : processPathsAndOperations doc opts (findAllMimeTypes doc) =
      .ok (fpaths, tags, pr))
    (hprune : opts.pruneComponents = true)
    (hok : applyFilter doc opts = .ok out) :
    ∃ comps : Components, out.components = some comps ∧
      (∀ k ∈ keys comps.schemas, InSchemaClosure doc pr.schemas k) ∧
      (∀ k ∈ keys comps.parameters, k ∈ pr.parameters) ∧
      (∀ k ∈ keys comps.requestBodies, k ∈ pr.requestBodies) ∧
      (∀ k ∈ keys comps.responses, k ∈ pr.responses) := by
  unfold applyFilter at hok
  simp only [hseed] at hok
  cases h2 : resolveAllReferences doc pr with
  | error e => rw [h2] at hok; cases hok
  | ok fc =>
    rw [h2] at hok
    simp only [hprune, if_true] at hok
    injection hok with hok
    rw [← hok]
    refine ⟨assembleComponents doc (pruneUnusedComponents fc pr), rfl,
      ?_, ?_, ?_, ?_⟩
    all_goals
      obtain ⟨hs, hp, hrb, hr⟩ := resolveAllReferences_sound doc pr fc h2
      obtain ⟨ps, pp, prb, presp⟩ := pruneUnusedComponents_fields fc pr
      intro k hk
    · exact hs k (ps k hk)
    · exact hp k (pp k hk)
    · exact hrb k (prb k hk)
    · exact hr k (presp k hk)

/-- Witness for C2: the subset property evaluated on `docNot` with the
empty pruning filter; the single output schema key `A` is in the
closure of the seed set `[A]`. -/
theorem filter_components_subset_closure_witness :
    ∃ comps : Components, outNot.components = some comps ∧
      (∀ k ∈ keys comps.schemas, InSchemaClosure docNot prNot.schemas k) ∧
      (∀ k ∈ keys comps.parameters, k ∈ prNot.parameters) ∧
      (∀ k ∈ keys comps.requestBodies, k ∈ prNot.requestBodies) ∧
      (∀ k ∈ keys comps.responses, k ∈ prNot.responses) :=
  filter_components_subset_closure docNot optsPrune fpNot [] prNot outNot
    rfl rfl rfl

end Openax
